import Mathlib

/-!
Word ladders and shortest paths

A shallow embedding of `ladder.cpp` (edit distance test, breadth-first word
ladder search) and `dijkstras.cpp` (Dijkstra with a lazy-deletion priority
queue, path extraction), followed by the properties proved about them.

Conventions of the embedding

* `std::string` is `List Char`; `std::vector<T>` is `List T`, read with
  `List.getD` and written with `List.set`.
* `std::set<string>` is the list of its elements in iteration order; every
  theorem below holds for any such list. The `visited` set is a list used
  through membership only.
* `int` values are `Int` or `Nat`; vertex indices are `Nat`. The sum
  `distances[u] + weight` is exact in `relaxEdges` and reduced modulo `2^32` in
  `relaxEdgesWrap`; the two loops agree when path sums stay below `INF`
  (`runItersWrap_eq`).
* A `while` loop that the C++ text does not bound is a function with a fuel
  argument that returns `none` when the fuel runs out.
-/

/-! ## Definitions: `ladder.cpp` -/

namespace Ladder

/-- A word (`std::string`) as its sequence of characters. -/
abbrev Word := List Char

/-- The C library `tolower` on the letters `A` to `Z`; other characters are unchanged. -/
def tolower (c : Char) : Char := c.toLower

/-- Lines 66-77 of `edit_distance_within`: the loop over the positions of two strings
of equal length, carrying `diffCount`, with the final `return diffCount == 1`. -/
def sameLengthLoop : List Char → List Char → Nat → Bool
  | a :: as, b :: bs, diffCount =>
    if tolower a ≠ tolower b then
      if diffCount + 1 > 1 then false else sameLengthLoop as bs (diffCount + 1)
    else sameLengthLoop as bs diffCount
  | _, _, diffCount => diffCount == 1

/-- Lines 91-110 of `edit_distance_within`: the two-pointer loop over the shorter string
`s` (from position `i`) and the longer string `t` (from position `j`), carrying
`foundDifference`, with the final `return true`. -/
def skipLoop : List Char → List Char → Bool → Bool
  | a :: s, b :: t, foundDifference =>
    if tolower a = tolower b then skipLoop s t foundDifference
    else if foundDifference then false
    else skipLoop (a :: s) t true
  | _, _, _ => true

/-- Lines 129-136, inner loop: the entries `dp[i][1..n]` of one row, from the remaining
characters of `str2`, the entries `dp[i-1][j-1..n]` of the row above and `dp[i][j-1]`. -/
def dpRowFill (c1 : Char) : List Char → List Nat → Nat → List Nat
  | c2 :: rest, diag :: up :: above, left =>
    let cur := if tolower c1 = tolower c2 then diag else min (min diag up) left + 1
    cur :: dpRowFill c1 rest (up :: above) cur
  | _, _, _ => []

/-- Row `i` of the table: `dp[i][0] = i` (line 119) followed by the filled entries. -/
def dpRow (c1 : Char) (str2 : List Char) (above : List Nat) (i : Nat) : List Nat :=
  i :: dpRowFill c1 str2 above i

/-- Lines 128-137, outer loop: rows `i, i+1, ..., m` of the table for the remaining
characters of `str1`, given row `i-1`. -/
def dpRows : List Char → List Char → List Nat → Nat → List (List Nat)
  | [], _, _, _ => []
  | c1 :: rest, str2, above, i =>
    let row := dpRow c1 str2 above i
    row :: dpRows rest str2 row (i + 1)

/-- Lines 115-137: the whole table `dp`, row 0 being `0, 1, ..., n` (line 124). -/
def dpTable (str1 str2 : List Char) : List (List Nat) :=
  let row0 := List.range (str2.length + 1)
  row0 :: dpRows str1 str2 row0 1

/-- Lines 31-140: `edit_distance_within(str1, str2, d)`. -/
def edit_distance_within (str1 str2 : Word) (d : Int) : Bool :=
  if |(str1.length : Int) - (str2.length : Int)| > d then false
  else
    let m := str1.length
    let n := str2.length
    if d = 1 then
      if str1 = str2 then true
      else if m = n then sameLengthLoop str1 str2 0
      else
        let s := if m < n then str1 else str2
        let t := if m < n then str2 else str1
        skipLoop s t false
    else
      let dp := dpTable str1 str2
      decide ((((dp.getD m []).getD n 0 : Nat) : Int) ≤ d)

/-- Lines 114-139 alone: the Boolean `dp[m][n] <= d` that the table path returns. -/
def tableAccepts (str1 str2 : Word) (d : Int) : Bool :=
  let dp := dpTable str1 str2
  decide ((((dp.getD str1.length []).getD str2.length 0 : Nat) : Int) ≤ d)

/-- Lines 142-156: `is_adjacent(word1, word2)`. -/
def is_adjacent (word1 word2 : Word) : Bool := edit_distance_within word1 word2 1

/-- Lines 194-211 of `generate_word_ladder`: the loop over the remaining words of
`word_list` for one dequeued ladder. `Sum.inl` is the `return new_ladder` of line 207,
`Sum.inr` the queue and the visited set when the loop ends. -/
def expandLadder (end_word : Word) (current_ladder : List Word) (last_word : Word) :
    List Word → List (List Word) → List Word →
      Sum (List Word) (List (List Word) × List Word)
  | [], ladder_queue, visited => Sum.inr (ladder_queue, visited)
  | word :: rest, ladder_queue, visited =>
    if is_adjacent last_word word && !(visited.contains word) then
      let new_ladder := current_ladder ++ [word]
      if word = end_word then Sum.inl new_ladder
      else
        expandLadder end_word current_ladder last_word rest
          (ladder_queue ++ [new_ladder]) (word :: visited)
    else expandLadder end_word current_ladder last_word rest ladder_queue visited

/-- Lines 180-214 of `generate_word_ladder`: the `while` loop. The result is `none` when
the fuel runs out (or `back()` is taken of an empty ladder, which the C++ leaves
undefined); `some []` is the `return {}` of line 214. -/
def ladderLoop (end_word : Word) (word_list : List Word) :
    Nat → List (List Word) → List Word → Option (List Word)
  | _, [], _ => some []
  | 0, _ :: _, _ => none
  | fuel + 1, current_ladder :: ladder_queue, visited =>
    match current_ladder.getLast? with
    | none => none
    | some last_word =>
      if last_word = end_word then some current_ladder
      else
        match expandLadder end_word current_ladder last_word word_list
            ladder_queue visited with
        | Sum.inl found => some found
        | Sum.inr (q, vis) => ladderLoop end_word word_list fuel q vis

/-- Lines 158-215: `generate_word_ladder(begin_word, end_word, word_list)`, the loop
being given `|word_list| + 1` iterations. -/
def generate_word_ladder (begin_word end_word : Word) (word_list : List Word) :
    Option (List Word) :=
  if begin_word = end_word then some [begin_word]
  else ladderLoop end_word word_list (word_list.length + 1) [[begin_word]] [begin_word]

/-- Lines 181-211: one pass of the body of the `while` loop that does not return, as a
step on the queue and the visited set; `none` when the queue is empty or the pass
returns. -/
def ladderIter (end_word : Word) (word_list : List Word) :
    List (List Word) × List Word → Option (List (List Word) × List Word)
  | ([], _) => none
  | (current_ladder :: ladder_queue, visited) =>
    match current_ladder.getLast? with
    | none => none
    | some last_word =>
      if last_word = end_word then none
      else
        match expandLadder end_word current_ladder last_word word_list
            ladder_queue visited with
        | Sum.inl _ => none
        | Sum.inr s => some s

/-- The queue and the visited set after `k` passes of the loop body, none of which
returns. -/
def ladderRun (end_word : Word) (word_list : List Word) :
    Nat → List (List Word) × List Word → Option (List (List Word) × List Word)
  | 0, s => some s
  | k + 1, s => (ladderIter end_word word_list s).bind (ladderRun end_word word_list k)

/-! ### Reference notions for the ladder claims -/

/-- One single-character edit: `y` is `x` with one character inserted, deleted or
substituted. -/
def EditStep (x y : List Char) : Prop :=
  ∃ l r, (∃ c, x = l ++ r ∧ y = l ++ c :: r) ∨ (∃ c, x = l ++ c :: r ∧ y = l ++ r) ∨
    (∃ c c2, x = l ++ c :: r ∧ y = l ++ c2 :: r)

/-- The string `y` is reached from `x` by exactly `k` single-character edits. -/
inductive EditsIn : Nat → List Char → List Char → Prop
  | refl (x : List Char) : EditsIn 0 x x
  | step {k : Nat} {x y z : List Char} : EditStep x y → EditsIn k y z → EditsIn (k + 1) x z

/-- The case-insensitive edit distance of `str1` and `str2` is at most `d`: after
`tolower`, some number `k ≤ d` of single-character edits leads from one to the other. -/
def EditDistanceAtMost (str1 str2 : Word) (d : Int) : Prop :=
  ∃ k : Nat, (k : Int) ≤ d ∧ EditsIn k (str1.map tolower) (str2.map tolower)

/-- The number of positions `i` with `tolower(a[i]) != tolower(b[i])`. -/
def diffPositions (a b : List Char) : Nat :=
  (List.zip a b).countP fun p => decide (tolower p.1 ≠ tolower p.2)

/-- The string `s` equals, character by character after `tolower`, the string `t` with
exactly one of its characters removed. -/
def OneRemoved (s t : List Char) : Prop :=
  ∃ l c r, t = l ++ c :: r ∧ s.map tolower = (l ++ r).map tolower

/-- A chain `w0, ..., wk` from `begin_word` to `end_word`: every word after the first is
in `word_list` and consecutive words satisfy `is_adjacent`. -/
def IsLadder (begin_word end_word : Word) (word_list : List Word) (c : List Word) : Prop :=
  c.head? = some begin_word ∧ c.getLast? = some end_word ∧ (∀ w ∈ c.tail, w ∈ word_list) ∧
    List.Chain' (fun a b => is_adjacent a b = true) c


/-! ### Auxiliary definitions for the proofs about `ladder.cpp` -/

/-- The edit distance of two sequences by the recurrence of the table: the cost of
turning one into the other, their first characters being compared first. -/
def lev : List Char → List Char → Nat
  | [], bs => bs.length
  | _ :: as, [] => as.length + 1
  | a :: as, b :: bs =>
    if a = b then lev as bs
    else min (min (lev as bs) (lev as (b :: bs))) (lev (a :: as) bs) + 1
termination_by as bs => as.length + bs.length

/-- The row of the table for the prefix `A` (reversed), from the column of the prefix
`done` (reversed) on, `rest` being the characters still to come. -/
def rowOf (A : List Char) : List Char → List Char → List Nat
  | done, [] => [lev A done]
  | done, c :: rest => lev A done :: rowOf A (c :: done) rest


/-- The word `x` is closed: every word of the list adjacent to it has been visited. -/
def Closed (word_list visited : List Word) (x : Word) : Prop :=
  ∀ y ∈ word_list, is_adjacent x y = true → y ∈ visited

/-- The number of entries of `word_list` not yet visited. -/
def unvisitedCount (word_list visited : List Word) : Nat :=
  word_list.countP fun w => !(visited.contains w)

/-- The invariant of the `while` loop of `generate_word_ladder` at level `d`. -/
structure LadderInv (begin_word end_word : Word) (word_list : List Word)
    (queue : List (List Word)) (visited : List Word) (d : Nat) : Prop where
  begin_visited : begin_word ∈ visited
  end_unvisited : end_word ∉ visited
  ladders : ∀ l ∈ queue, ∃ w, IsLadder begin_word w word_list l ∧ l.Nodup ∧ ∀ x ∈ l, x ∈ visited
  frontier : ∀ x ∈ visited, Closed word_list visited x ∨ ∃ l ∈ queue, l.getLast? = some x
  lengths : ∀ l ∈ queue, d ≤ l.length ∧ l.length ≤ d + 1
  sorted : queue.Pairwise fun l1 l2 => l1.length ≤ l2.length
  level : ∀ w c, IsLadder begin_word w word_list c → c.length ≤ d →
    w ∈ visited ∧ (Closed word_list visited w ∨
      ∃ l ∈ queue, l.getLast? = some w ∧ l.length ≤ c.length)

/-- What the search establishes about its result `r`: either it is empty and no ladder
exists, or it is a ladder without repeated words and no ladder has fewer words. -/
def LadderPost (begin_word end_word : Word) (word_list : List Word) (r : List Word) : Prop :=
  (r = [] ∧ ∀ c, ¬ IsLadder begin_word end_word word_list c) ∨
    (IsLadder begin_word end_word word_list r ∧ r.Nodup ∧
      ∀ c, IsLadder begin_word end_word word_list c → r.length ≤ c.length)

end Ladder

/-! ## Definitions: `dijkstras.cpp` -/

namespace Dijkstra

/-- Lines 11-25: `struct Node`. -/
structure Node where
  vertex : Nat
  distance : Int
  deriving DecidableEq

/-- Modelled from the spec: the `Edge` of `dijkstras.h`, "each edge = (destination vertex
index, non-negative integer weight)", with its source vertex. -/
structure Edge where
  src : Nat
  dst : Nat
  weight : Int
  deriving DecidableEq

/-- Modelled from the spec: the `Graph` of `dijkstras.h`, "a fixed vertex count `n`, and
for each vertex an ordered collection of outgoing edges". -/
structure Graph where
  adj : List (List Edge)

/-- The vertex count `G.numVertices`. -/
def Graph.numVertices (G : Graph) : Nat := G.adj.length

/-- The edge list `G[u]`. -/
def Graph.edgesFrom (G : Graph) (u : Nat) : List Edge := G.adj.getD u []

/-- The number of edges of the graph. -/
def Graph.numEdges (G : Graph) : Nat := (G.adj.map List.length).sum

/-- The operations of `std::priority_queue<Node, vector<Node>, NodeComparator>` on its
underlying sequence. The library is not part of the repository, so the queue is a
parameter of the algorithm. -/
structure PriorityQueue where
  push : List Node → Node → List Node
  pop : List Node → Option (Node × List Node)

/-- The contract of the priority queue under `NodeComparator` (lines 41-45): `push` adds
one entry, `pop` fails only on the empty queue and otherwise removes an entry whose
`distance` is least. Which of several least entries comes out is left open. -/
def PriorityQueue.Valid (P : PriorityQueue) : Prop :=
  (∀ q x, (P.push q x).Perm (x :: q)) ∧ P.pop [] = none ∧
    ∀ q, q ≠ [] → ∃ x r, P.pop q = some (x, r) ∧ q.Perm (x :: r) ∧
      ∀ y ∈ q, x.distance ≤ y.distance

/-- The first entry of least distance of `x :: q`, and the other entries. -/
def extractMin : Node → List Node → Node × List Node
  | x, [] => (x, [])
  | x, y :: ys =>
    let r := extractMin y ys
    if x.distance ≤ r.1.distance then (x, y :: ys) else (r.1, x :: r.2)

/-- An executable priority queue: entries in insertion order, the first least one
is popped. -/
def listQueue : PriorityQueue where
  push q x := q ++ [x]
  pop q := match q with
    | [] => none
    | x :: xs => some (extractMin x xs)

/-- The local variables of `dijkstra_shortest_path` (lines 63-68). -/
structure State where
  distances : List Int
  previous : List Int
  visited : List Bool
  pq : List Node

/-- Lines 87-103: the loop over the edges of `G[u]`. -/
def relaxEdges (P : PriorityQueue) (u : Nat) : List Edge → State → State
  | [], st => st
  | edge :: rest, st =>
    let v := edge.dst
    let weight := edge.weight
    if !(st.visited.getD v false) &&
        decide (st.distances.getD u 0 + weight < st.distances.getD v 0) then
      let distances := st.distances.set v (st.distances.getD u 0 + weight)
      relaxEdges P u rest
        { distances := distances
          previous := st.previous.set v (u : Int)
          visited := st.visited
          pq := P.push st.pq ⟨v, distances.getD v 0⟩ }
    else relaxEdges P u rest st

/-- Lines 73-104: the `while (!pq.empty())` loop; `none` when the fuel runs out. -/
def dijkstraLoop (P : PriorityQueue) (G : Graph) : Nat → State → Option State
  | fuel, st =>
    match P.pop st.pq with
    | none => some st
    | some (current, pq) =>
      match fuel with
      | 0 => none
      | fuel + 1 =>
        let u := current.vertex
        if st.visited.getD u false then
          dijkstraLoop P G fuel { st with pq := pq }
        else
          dijkstraLoop P G fuel
            (relaxEdges P u (G.edgesFrom u)
              { st with visited := st.visited.set u true, pq := pq })

/-- Lines 76-103: one pass of the body of the `while` loop as a step on the state;
`none` when the queue is empty. -/
def loopIter (P : PriorityQueue) (G : Graph) (st : State) : Option State :=
  match P.pop st.pq with
  | none => none
  | some (current, pq) =>
    let u := current.vertex
    if st.visited.getD u false then some { st with pq := pq }
    else
      some (relaxEdges P u (G.edgesFrom u)
        { st with visited := st.visited.set u true, pq := pq })

/-- The state after `k` passes of the loop body. -/
def runIters (P : PriorityQueue) (G : Graph) : Nat → State → Option State
  | 0, st => some st
  | k + 1, st => (loopIter P G st).bind (runIters P G k)

/-- The value a 32-bit `int` holds after an addition whose exact result is `x`: the
representative of `x` modulo `2^32` in the range `-2^31 .. 2^31 - 1`. -/
def wrapInt (x : Int) : Int := (x + 2147483648) % 4294967296 - 2147483648

/-- Lines 87-103, with the sum `distances[u] + weight` of lines 92 and 95 evaluated as a
32-bit `int`. -/
def relaxEdgesWrap (P : PriorityQueue) (u : Nat) : List Edge → State → State
  | [], st => st
  | edge :: rest, st =>
    let v := edge.dst
    let weight := edge.weight
    if !(st.visited.getD v false) &&
        decide (wrapInt (st.distances.getD u 0 + weight) < st.distances.getD v 0) then
      let distances := st.distances.set v (wrapInt (st.distances.getD u 0 + weight))
      relaxEdgesWrap P u rest
        { distances := distances
          previous := st.previous.set v (u : Int)
          visited := st.visited
          pq := P.push st.pq ⟨v, distances.getD v 0⟩ }
    else relaxEdgesWrap P u rest st

/-- Lines 76-103 with 32-bit `int` sums: one pass of the body of the `while` loop;
`none` when the queue is empty. -/
def loopIterWrap (P : PriorityQueue) (G : Graph) (st : State) : Option State :=
  match P.pop st.pq with
  | none => none
  | some (current, pq) =>
    let u := current.vertex
    if st.visited.getD u false then some { st with pq := pq }
    else
      some (relaxEdgesWrap P u (G.edgesFrom u)
        { st with visited := st.visited.set u true, pq := pq })

/-- The state after `k` passes of the loop body with 32-bit `int` sums. -/
def runItersWrap (P : PriorityQueue) (G : Graph) : Nat → State → Option State
  | 0, st => some st
  | k + 1, st => (loopIterWrap P G st).bind (runItersWrap P G k)

/-- The state at line 72, before the loop. -/
def initialState (P : PriorityQueue) (INF : Int) (G : Graph) (source : Nat) : State :=
  { distances := (List.replicate G.numVertices INF).set source 0
    previous := List.replicate G.numVertices (-1)
    visited := List.replicate G.numVertices false
    pq := P.push [] ⟨source, 0⟩ }

/-- Lines 49-106: `dijkstra_shortest_path(G, source, previous)`, returning the pair of
`distances` and `previous`. `INF` is the constant of `dijkstras.h`; the loop is given
one iteration for each edge and one more. -/
def dijkstra_shortest_path (P : PriorityQueue) (INF : Int) (G : Graph) (source : Nat) :
    Option (List Int × List Int) :=
  (dijkstraLoop P G (G.numEdges + 1) (initialState P INF G source)).map
    fun st => (st.distances, st.previous)

/-- Lines 131-133: the loop `for (at = destination; at != -1; at = previous[at])`;
`none` when the fuel runs out. -/
def extractLoop (previous : List Int) : Nat → Int → List Int → Option (List Int)
  | fuel, at_, path =>
    if at_ = -1 then some path
    else
      match fuel with
      | 0 => none
      | fuel + 1 => extractLoop previous fuel (previous.getD at_.toNat 0) (path ++ [at_])

/-- Lines 108-138: `extract_shortest_path(distances, previous, destination)`. -/
def extract_shortest_path (INF : Int) (fuel : Nat) (distances previous : List Int)
    (destination : Nat) : Option (List Int) :=
  if distances.getD destination 0 = INF then some []
  else (extractLoop previous fuel (destination : Int) []).map List.reverse

/-! ### Reference notions for the shortest-path claims -/

/-- A path of `G` starting at `s`, as the list of its vertices from the last one back to
`s`, with the total weight of the edges chosen along it. -/
inductive PathTo (G : Graph) (s : Nat) : List Nat → Int → Prop
  | single : PathTo G s [s] 0
  | snoc {b : Nat} {p : List Nat} {w : Int} {e : Edge} :
      PathTo G s (b :: p) w → e ∈ G.edgesFrom b → PathTo G s (e.dst :: b :: p) (w + e.weight)

/-- The vertex `v` is reachable from `s`. -/
def Reachable (G : Graph) (s v : Nat) : Prop := ∃ p w, PathTo G s (v :: p) w

/-- The number `d` is the least total weight of a path from `s` to `v`. -/
def IsMinDistance (G : Graph) (s v : Nat) (d : Int) : Prop :=
  (∃ p, PathTo G s (v :: p) d) ∧ ∀ p w, PathTo G s (v :: p) w → d ≤ w

/-- All edge weights are non-negative. -/
def NonNegWeights (G : Graph) : Prop := ∀ u, ∀ e ∈ G.edgesFrom u, 0 ≤ e.weight

/-- All edge destinations are vertices of the graph. -/
def DstInRange (G : Graph) : Prop := ∀ u, ∀ e ∈ G.edgesFrom u, e.dst < G.numVertices

/-- The total weight of every path from `s` that repeats no vertex is below `INF`. -/
def PathSumsBelow (G : Graph) (s : Nat) (INF : Int) : Prop :=
  ∀ p w, PathTo G s p w → p.Nodup → w < INF

/-- A sequence of vertices in which every consecutive pair is joined by an edge of `G`,
with the total weight of the edges chosen. -/
inductive IsWeightedPath (G : Graph) : List Nat → Int → Prop
  | single (v : Nat) : IsWeightedPath G [v] 0
  | cons {a : Nat} {rest : List Nat} {w : Int} {e : Edge} :
      e ∈ G.edgesFrom a → IsWeightedPath G (e.dst :: rest) w →
        IsWeightedPath G (a :: e.dst :: rest) (e.weight + w)

/-- The graph of the worked example: edges 0→1 (1), 0→2 (5), 1→2 (2). -/
def exampleGraph : Graph := ⟨[[⟨0, 1, 1⟩, ⟨0, 2, 5⟩], [⟨1, 2, 2⟩], []]⟩

/-- The worked example with a fourth, isolated vertex 3. -/
def isolatedGraph : Graph := ⟨[[⟨0, 1, 1⟩, ⟨0, 2, 5⟩], [⟨1, 2, 2⟩], [], []]⟩

/-- Two vertices and one edge 0→1 whose weight is 2147483647, the largest `int`. -/
def heavyGraph : Graph := ⟨[[⟨0, 1, 2147483647⟩], []]⟩

/-- Three vertices on a line whose two weights add up to more than the largest `int`:
edges 0→1 (2147483646), 1→2 (5). -/
def overflowGraph : Graph := ⟨[[⟨0, 1, 2147483646⟩], [⟨1, 2, 5⟩], []]⟩

/-- Two vertices on a cycle of zero-weight edges through the source 0, which also has a
self-loop: edges 0→0 (0), 0→1 (0), 1→0 (0). -/
def cycleGraph : Graph := ⟨[[⟨0, 0, 0⟩, ⟨0, 1, 0⟩], [⟨1, 0, 0⟩]]⟩

/-! ### Auxiliary definitions for the proofs about `dijkstras.cpp` -/

/-- The entry `distances[v]` of a state. -/
def State.dist (st : State) (v : Nat) : Int := st.distances.getD v 0

/-- The entry `previous[v]` of a state. -/
def State.prev (st : State) (v : Nat) : Int := st.previous.getD v 0

/-- The entry `visited[v]` of a state. -/
def State.seen (st : State) (v : Nat) : Prop := st.visited.getD v false = true

/-- A chain of `previous` links: the list `v :: ... :: [s]` in which every vertex is
followed by its `previous` entry, ending at `s`, whose entry is `-1`. -/
inductive TreePath (previous : List Int) (s : Nat) : List Nat → Prop
  | root : previous.getD s 0 = -1 → TreePath previous s [s]
  | step {v u : Nat} {p : List Nat} :
      previous.getD v 0 = (u : Int) → TreePath previous s (u :: p) →
        TreePath previous s (v :: u :: p)

/-- The invariant of the loops of `dijkstra_shortest_path`. Inside the loop over the
edges of `u`, `pending` holds the edges still to be examined; at the head of the `while`
loop `pending` is empty. -/
structure DInv (INF : Int) (G : Graph) (s : Nat) (st : State) (u : Nat)
    (pending : List Edge) : Prop where
  len_d : st.distances.length = G.numVertices
  len_p : st.previous.length = G.numVertices
  len_v : st.visited.length = G.numVertices
  src : st.dist s = 0 ∧ st.prev s = -1
  pq_ok : ∀ x ∈ st.pq, x.vertex < G.numVertices ∧ st.dist x.vertex ≤ x.distance ∧
    x.distance < INF
  le_inf : ∀ v, v < G.numVertices → st.dist v ≤ INF
  unreached : ∀ v, v < G.numVertices → st.dist v = INF → st.prev v = -1 ∧ ¬ st.seen v
  tree : ∀ v, v < G.numVertices → st.dist v < INF →
    ∃ p, TreePath st.previous s (v :: p) ∧ (v :: p).Nodup ∧
      (∀ x ∈ p, x < G.numVertices ∧ st.seen x) ∧ PathTo G s (v :: p) (st.dist v)
  final : ∀ x, x < G.numVertices → st.seen x →
    st.dist x < INF ∧ ∀ p w, PathTo G s (x :: p) w → st.dist x ≤ w
  relaxed : ∀ x, x < G.numVertices → st.seen x → ∀ e ∈ G.edgesFrom x,
    (x = u ∧ e ∈ pending) ∨ (st.dist e.dst ≤ st.dist x + e.weight ∧ st.dist e.dst < INF)
  frontier : ∀ v, v < G.numVertices → ¬ st.seen v → st.dist v < INF →
    (⟨v, st.dist v⟩ : Node) ∈ st.pq

/-- The assumptions on the inputs of `dijkstra_shortest_path`: a priority queue that
meets its contract, non-negative weights, edge destinations in range, path sums below
`INF`, and a source that is a vertex. -/
structure Setting (P : PriorityQueue) (INF : Int) (G : Graph) (s : Nat) : Prop where
  valid : P.Valid
  nonneg : NonNegWeights G
  inRange : DstInRange G
  below : PathSumsBelow G s INF
  source_lt : s < G.numVertices

/-- The state after lines 95-101 for the edge `e` of `u`. -/
def relaxState (P : PriorityQueue) (st : State) (u : Nat) (e : Edge) : State :=
  { distances := st.distances.set e.dst (st.dist u + e.weight)
    previous := st.previous.set e.dst (u : Int)
    visited := st.visited
    pq := P.push st.pq ⟨e.dst, st.dist u + e.weight⟩ }

/-- The number of edges that leave vertices not yet visited. -/
def unvisitedEdges : List (List Edge) → List Bool → Nat
  | es :: adj, b :: visited => (if b then 0 else es.length) + unvisitedEdges adj visited
  | _, _ => 0

/-- The vertex `v` has a chain of `previous` links back to `s` that repeats no vertex,
runs through visited vertices, and is a path of `G` of weight `distances[v]`. -/
def HasTree (G : Graph) (s : Nat) (st : State) (v : Nat) : Prop :=
  ∃ p, TreePath st.previous s (v :: p) ∧ (v :: p).Nodup ∧
    (∀ x ∈ p, x < G.numVertices ∧ st.seen x) ∧ PathTo G s (v :: p) (st.dist v)

/-- The part of the loop invariant that holds for arbitrary weights: the source keeps
distance 0 and `previous` entry `-1`, and every vertex that is queued, visited or has a
distance other than `INF` has a chain of `previous` links back to the source. -/
structure WInv (INF : Int) (G : Graph) (s : Nat) (st : State) : Prop where
  len_d : st.distances.length = G.numVertices
  len_p : st.previous.length = G.numVertices
  len_v : st.visited.length = G.numVertices
  src : st.dist s = 0 ∧ st.prev s = -1
  started : st.seen s ∨ ∀ x ∈ st.pq, x.vertex = s
  pq_tree : ∀ x ∈ st.pq, x.vertex < G.numVertices ∧ HasTree G s st x.vertex
  seen_tree : ∀ v, v < G.numVertices → st.seen v → HasTree G s st v
  dist_tree : ∀ v, v < G.numVertices → st.dist v ≠ INF → HasTree G s st v

/-- The loop invariant for non-negative weights, without a bound on path sums. Inside
the loop over the edges of `u`, `pending` holds the edges still to be examined. -/
structure FInv (INF : Int) (G : Graph) (s : Nat) (st : State) (u : Nat)
    (pending : List Edge) : Prop where
  weak : WInv INF G s st
  pq_ok : ∀ x ∈ st.pq, st.dist x.vertex ≤ x.distance ∧ x.distance < INF
  le_inf : ∀ v, v < G.numVertices → st.dist v ≤ INF
  final : ∀ x, x < G.numVertices → st.seen x →
    st.dist x < INF ∧ ∀ p w, PathTo G s (x :: p) w → st.dist x ≤ w
  relaxed : ∀ x, x < G.numVertices → st.seen x → ∀ e ∈ G.edgesFrom x,
    (x = u ∧ e ∈ pending) ∨ st.dist e.dst ≤ st.dist x + e.weight
  frontier : ∀ v, v < G.numVertices → ¬ st.seen v → st.dist v < INF →
    (⟨v, st.dist v⟩ : Node) ∈ st.pq

/-- The measure that every pass of the loop body decreases. -/
def loopMeasure (G : Graph) (st : State) : Nat :=
  st.pq.length + unvisitedEdges G.adj st.visited

end Dijkstra

/-! ## Theorems: `edit_distance_within` and `is_adjacent` -/

namespace Ladder

theorem lev_nil_left (bs : List Char) : lev [] bs = bs.length := by simp [lev]

theorem lev_nil_right (as : List Char) : lev as [] = as.length := by
  cases as <;> simp [lev]

theorem lev_cons_cons (a b : Char) (as bs : List Char) :
    lev (a :: as) (b :: bs) = if a = b then lev as bs
      else min (min (lev as bs) (lev as (b :: bs))) (lev (a :: as) bs) + 1 := by
  rw [lev]

theorem lev_symm (as bs : List Char) : lev as bs = lev bs as := by
  induction as, bs using lev.induct with
  | case1 bs => simp [lev_nil_left, lev_nil_right]
  | case2 a as => simp [lev_nil_left, lev_nil_right]
  | case3 as b bs ih => simp [lev_cons_cons, ih]
  | case4 a as b bs h ih1 ih2 ih3 =>
    have h2 : ¬ b = a := fun e => h e.symm
    simp only [lev_cons_cons, h, h2, if_false, ih1, ih2, ih3]
    omega

/-- The four one-character bounds, for all pairs of total length at most `n`. -/
theorem lev_lipschitz_aux (n : Nat) : ∀ as bs : List Char, as.length + bs.length ≤ n →
    ∀ c, lev as (c :: bs) ≤ lev as bs + 1 ∧ lev as bs ≤ lev as (c :: bs) + 1 ∧
      lev (c :: as) bs ≤ lev as bs + 1 ∧ lev as bs ≤ lev (c :: as) bs + 1 := by
  induction n with
  | zero =>
    intro as bs h c
    have ha : as = [] := List.length_eq_zero.mp (by omega)
    have hb : bs = [] := List.length_eq_zero.mp (by omega)
    subst ha; subst hb
    simp [lev_nil_left, lev_nil_right]
  | succ n ih =>
    intro as bs h c
    have key2 : ∀ as bs : List Char, as.length + bs.length ≤ n + 1 → ∀ c,
        lev as (c :: bs) ≤ lev as bs + 1 ∧ lev as bs ≤ lev as (c :: bs) + 1 := by
      intro as bs h c
      cases as with
      | nil => simp [lev_nil_left]; omega
      | cons a as =>
        have hlen : as.length + bs.length ≤ n := by simp at h; omega
        have i1 := ih as bs hlen
        rw [lev_cons_cons]
        by_cases hac : a = c
        · simp only [hac, if_true]
          have := i1 c
          omega
        · simp only [hac, if_false]
          have := i1 a
          have := i1 c
          omega
    refine ⟨(key2 as bs h c).1, (key2 as bs h c).2, ?_, ?_⟩
    · have := (key2 bs as (by omega) c).1
      rw [lev_symm (c :: as) bs, lev_symm as bs]; exact this
    · have := (key2 bs as (by omega) c).2
      rw [lev_symm (c :: as) bs, lev_symm as bs]; exact this

theorem lev_insert_right (as bs : List Char) (c : Char) : lev as (c :: bs) ≤ lev as bs + 1 :=
  (lev_lipschitz_aux _ as bs le_rfl c).1

theorem lev_delete_right (as bs : List Char) (c : Char) : lev as bs ≤ lev as (c :: bs) + 1 :=
  (lev_lipschitz_aux _ as bs le_rfl c).2.1

theorem lev_insert_left (as bs : List Char) (c : Char) : lev (c :: as) bs ≤ lev as bs + 1 :=
  (lev_lipschitz_aux _ as bs le_rfl c).2.2.1

theorem lev_delete_left (as bs : List Char) (c : Char) : lev as bs ≤ lev (c :: as) bs + 1 :=
  (lev_lipschitz_aux _ as bs le_rfl c).2.2.2

theorem lev_subst_right (c c2 : Char) (r : List Char) :
    ∀ x : List Char, lev x (c2 :: r) ≤ lev x (c :: r) + 1 := by
  intro x
  induction x with
  | nil => simp [lev_nil_left]
  | cons a as ih =>
    have h1 := lev_delete_right as r c
    have h2 := lev_delete_left as r a
    have h3 := lev_insert_left as r a
    rw [lev_cons_cons, lev_cons_cons]
    split_ifs <;> omega

theorem lev_cons_congr (c : Char) (u u2 : List Char)
    (h : ∀ x : List Char, lev x u2 ≤ lev x u + 1) :
    ∀ x : List Char, lev x (c :: u2) ≤ lev x (c :: u) + 1 := by
  intro x
  induction x with
  | nil => have := h []; simp [lev_nil_left] at this ⊢; omega
  | cons a as ih =>
    have h1 := h as
    have h2 := h (a :: as)
    rw [lev_cons_cons, lev_cons_cons]
    split_ifs <;> omega

theorem lev_step (u u2 : List Char) (h : EditStep u u2) :
    ∀ x : List Char, lev x u2 ≤ lev x u + 1 := by
  obtain ⟨l, r, h⟩ := h
  induction l generalizing u u2 with
  | nil =>
    intro x
    rcases h with ⟨c, hu, hu2⟩ | ⟨c, hu, hu2⟩ | ⟨c, c2, hu, hu2⟩
    · rw [hu, hu2]; exact lev_insert_right x r c
    · rw [hu, hu2]; exact lev_delete_right x r c
    · rw [hu, hu2]; exact lev_subst_right c c2 r x
  | cons c0 l ih =>
    rcases h with ⟨c, rfl, rfl⟩ | ⟨c, rfl, rfl⟩ | ⟨c, c2, rfl, rfl⟩
    · exact lev_cons_congr c0 _ _ (ih _ _ (Or.inl ⟨c, rfl, rfl⟩))
    · exact lev_cons_congr c0 _ _ (ih _ _ (Or.inr (Or.inl ⟨c, rfl, rfl⟩)))
    · exact lev_cons_congr c0 _ _ (ih _ _ (Or.inr (Or.inr ⟨c, c2, rfl, rfl⟩)))

theorem lev_self (x : List Char) : lev x x = 0 := by
  induction x with
  | nil => simp [lev_nil_left]
  | cons a as ih => simp [lev_cons_cons, ih]

theorem lev_le_of_editsIn {k : Nat} {u y : List Char} (h : EditsIn k u y) :
    ∀ x : List Char, lev x y ≤ lev x u + k := by
  induction h with
  | refl x => intro z; simp
  | step hs _ ih =>
    intro x
    have := lev_step _ _ hs x
    have := ih x
    omega

theorem editStep_cons (c : Char) {x y : List Char} (h : EditStep x y) :
    EditStep (c :: x) (c :: y) := by
  obtain ⟨l, r, h⟩ := h
  refine ⟨c :: l, r, ?_⟩
  rcases h with ⟨d, rfl, rfl⟩ | ⟨d, rfl, rfl⟩ | ⟨d, d2, rfl, rfl⟩
  · exact Or.inl ⟨d, rfl, rfl⟩
  · exact Or.inr (Or.inl ⟨d, rfl, rfl⟩)
  · exact Or.inr (Or.inr ⟨d, d2, rfl, rfl⟩)

theorem editsIn_cons (c : Char) {k : Nat} {x y : List Char} (h : EditsIn k x y) :
    EditsIn k (c :: x) (c :: y) := by
  induction h with
  | refl x => exact EditsIn.refl _
  | step hs _ ih => exact EditsIn.step (editStep_cons c hs) ih

theorem editsIn_lev (x y : List Char) : EditsIn (lev x y) x y := by
  induction x, y using lev.induct with
  | case1 bs =>
    rw [lev_nil_left]
    induction bs with
    | nil => exact EditsIn.refl _
    | cons b bs ih =>
      exact EditsIn.step ⟨[], [], Or.inl ⟨b, rfl, rfl⟩⟩ (editsIn_cons b ih)
  | case2 a as =>
    rw [lev_nil_right]
    induction as generalizing a with
    | nil => exact EditsIn.step ⟨[], [], Or.inr (Or.inl ⟨a, rfl, rfl⟩)⟩ (EditsIn.refl _)
    | cons a2 as ih =>
      exact EditsIn.step ⟨[], a2 :: as, Or.inr (Or.inl ⟨a, rfl, rfl⟩)⟩ (ih a2)
  | case3 as b bs ih =>
    rw [lev_cons_cons]; simp only [if_true]; exact editsIn_cons b ih
  | case4 a as b bs h ih1 ih2 ih3 =>
    rw [lev_cons_cons]; simp only [h, if_false]
    have hmono : ∀ {j k : Nat} {x y : List Char}, EditsIn j x y → j = k → EditsIn k x y := by
      intro j k x y hj e; subst e; exact hj
    rcases Nat.lt_or_ge (lev (a :: as) bs) (min (lev as bs) (lev as (b :: bs))) with hlt | hge
    · -- insert b in front
      have e : min (min (lev as bs) (lev as (b :: bs))) (lev (a :: as) bs) = lev (a :: as) bs := by
        omega
      rw [e]
      exact EditsIn.step ⟨[], a :: as, Or.inl ⟨b, rfl, rfl⟩⟩ (editsIn_cons b ih3)
    · rcases Nat.lt_or_ge (lev as (b :: bs)) (lev as bs) with hlt2 | hge2
      · have e : min (min (lev as bs) (lev as (b :: bs))) (lev (a :: as) bs) = lev as (b :: bs) := by
          omega
        rw [e]
        exact EditsIn.step ⟨[], as, Or.inr (Or.inl ⟨a, rfl, rfl⟩)⟩ ih2
      · have e : min (min (lev as bs) (lev as (b :: bs))) (lev (a :: as) bs) = lev as bs := by
          omega
        rw [e]
        exact EditsIn.step ⟨[], as, Or.inr (Or.inr ⟨a, b, rfl, rfl⟩)⟩ (editsIn_cons b ih1)

/-- The recursive distance is the least number of edits. -/
theorem lev_le_iff (x y : List Char) (k : Nat) : lev x y ≤ k ↔ ∃ j, j ≤ k ∧ EditsIn j x y := by
  constructor
  · intro h; exact ⟨lev x y, h, editsIn_lev x y⟩
  · rintro ⟨j, hj, he⟩
    have := lev_le_of_editsIn he x
    rw [lev_self] at this
    omega

/-! ### The table of the dynamic-programming path -/

theorem rowOf_eq_cons (A done rest : List Char) :
    rowOf A done rest = lev A done :: (rowOf A done rest).tail := by
  cases rest <;> simp [rowOf]

theorem rowOf_length (A done rest : List Char) : (rowOf A done rest).length = rest.length + 1 := by
  induction rest generalizing done with
  | nil => simp [rowOf]
  | cons c rest ih => simp [rowOf, ih]

theorem rowOf_nil (done rest : List Char) :
    rowOf [] done rest = List.range' done.length (rest.length + 1) := by
  induction rest generalizing done with
  | nil => simp [rowOf, lev_nil_left]
  | cons c rest ih =>
    rw [rowOf, ih, lev_nil_left]
    simp [List.range'_succ]

theorem rowOf_getD_last (A done rest : List Char) :
    (rowOf A done rest).getD rest.length 0 = lev A (rest.reverse ++ done) := by
  induction rest generalizing done with
  | nil => simp [rowOf]
  | cons c rest ih =>
    rw [rowOf]
    simp only [List.length_cons, List.getD_cons_succ, ih, List.reverse_cons, List.append_assoc,
      List.singleton_append]

theorem dpRowFill_eq (c1 : Char) (A : List Char) (rest : List Char) (done : List Char) :
    dpRowFill c1 rest (rowOf A done (rest.map tolower)) (lev (tolower c1 :: A) done) =
      (rowOf (tolower c1 :: A) done (rest.map tolower)).tail := by
  induction rest generalizing done with
  | nil => simp [rowOf, dpRowFill]
  | cons c2 rest ih =>
    have e : rowOf A done ((c2 :: rest).map tolower) =
        lev A done :: lev A (tolower c2 :: done) ::
          (rowOf A (tolower c2 :: done) (rest.map tolower)).tail := by
      rw [List.map_cons, rowOf]
      rw [rowOf_eq_cons A (tolower c2 :: done)]
      simp
    rw [e, dpRowFill]
    have e2 : (if tolower c1 = tolower c2 then lev A done
        else min (min (lev A done) (lev A (tolower c2 :: done))) (lev (tolower c1 :: A) done) + 1) =
        lev (tolower c1 :: A) (tolower c2 :: done) := by
      rw [lev_cons_cons]
    simp only [e2]
    rw [← rowOf_eq_cons A (tolower c2 :: done), ih (tolower c2 :: done)]
    rw [List.map_cons, rowOf, ← rowOf_eq_cons]
    simp

theorem dpRow_eq (c1 : Char) (A : List Char) (str2 : List Char) :
    dpRow c1 str2 (rowOf A [] (str2.map tolower)) (A.length + 1) =
      rowOf (tolower c1 :: A) [] (str2.map tolower) := by
  have h := dpRowFill_eq c1 A str2 []
  have e : lev (tolower c1 :: A) [] = A.length + 1 := by simp [lev_nil_right]
  rw [e] at h
  rw [dpRow, h, rowOf_eq_cons (tolower c1 :: A), e]
  simp

theorem dpRows_getD (str2 : List Char) (rest : List Char) (A : List Char) :
    (rowOf A [] (str2.map tolower) ::
        dpRows rest str2 (rowOf A [] (str2.map tolower)) (A.length + 1)).getD rest.length [] =
      rowOf ((rest.map tolower).reverse ++ A) [] (str2.map tolower) := by
  induction rest generalizing A with
  | nil => simp
  | cons c rest ih =>
    rw [dpRows]
    simp only [List.length_cons, List.getD_cons_succ]
    rw [dpRow_eq]
    have := ih (tolower c :: A)
    simp only [List.length_cons] at this
    rw [this]
    simp

/-- The entry `dp[m][n]` of the table is the recursive distance of the reversed,
lower-cased strings. -/
theorem dpTable_last (str1 str2 : List Char) :
    ((dpTable str1 str2).getD str1.length []).getD str2.length 0 =
      lev (str1.map tolower).reverse (str2.map tolower).reverse := by
  have h0 : List.range (str2.length + 1) = rowOf [] [] (str2.map tolower) := by
    rw [rowOf_nil]; simp [List.range_eq_range']
  have h := dpRows_getD str2 str1 []
  simp only [List.length_nil, Nat.zero_add, List.append_nil] at h
  rw [dpTable]
  simp only [h0]
  rw [h]
  have := rowOf_getD_last (str1.map tolower).reverse [] (str2.map tolower)
  simpa using this

theorem editStep_reverse {x y : List Char} (h : EditStep x y) : EditStep x.reverse y.reverse := by
  obtain ⟨l, r, h⟩ := h
  refine ⟨r.reverse, l.reverse, ?_⟩
  rcases h with ⟨c, hx, hy⟩ | ⟨c, hx, hy⟩ | ⟨c, c2, hx, hy⟩
  · exact Or.inl ⟨c, by simp [hx], by simp [hy]⟩
  · exact Or.inr (Or.inl ⟨c, by simp [hx], by simp [hy]⟩)
  · exact Or.inr (Or.inr ⟨c, c2, by simp [hx], by simp [hy]⟩)

theorem editsIn_reverse {k : Nat} {x y : List Char} (h : EditsIn k x y) :
    EditsIn k x.reverse y.reverse := by
  induction h with
  | refl x => exact EditsIn.refl _
  | step hs _ ih => exact EditsIn.step (editStep_reverse hs) ih

theorem editsIn_reverse_iff (k : Nat) (x y : List Char) :
    EditsIn k x.reverse y.reverse ↔ EditsIn k x y := by
  constructor
  · intro h; simpa using editsIn_reverse h
  · intro h; exact editsIn_reverse h

theorem editStep_length_le {x y : List Char} (h : EditStep x y) :
    x.length ≤ y.length + 1 ∧ y.length ≤ x.length + 1 := by
  obtain ⟨l, r, h⟩ := h
  rcases h with ⟨c, hx, hy⟩ | ⟨c, hx, hy⟩ | ⟨c, c2, hx, hy⟩ <;> simp [hx, hy] <;> omega

theorem editsIn_length_le {k : Nat} {x y : List Char} (h : EditsIn k x y) :
    x.length ≤ y.length + k ∧ y.length ≤ x.length + k := by
  induction h with
  | refl x => simp
  | step hs _ ih => have := editStep_length_le hs; omega

/-- The table entry `dp[m][n]` is at most `d` exactly when the case-insensitive edit
distance is. -/
theorem dpTable_le_iff (str1 str2 : List Char) (d : Int) :
    ((((dpTable str1 str2).getD str1.length []).getD str2.length 0 : Nat) : Int) ≤ d ↔
      EditDistanceAtMost str1 str2 d := by
  rw [dpTable_last]
  constructor
  · intro h
    refine ⟨_, h, ?_⟩
    exact (editsIn_reverse_iff _ _ _).mp (editsIn_lev _ _)
  · rintro ⟨k, hk, he⟩
    have := (lev_le_iff (str1.map tolower).reverse (str2.map tolower).reverse k).mpr
      ⟨k, le_rfl, editsIn_reverse he⟩
    omega

/-- Claim C7. For all strings and every integer `d` other than 1,
`edit_distance_within str1 str2 d` is true exactly when the case-insensitive edit distance
(least number of single-character insertions, deletions and substitutions after `tolower`)
is at most `d`; so the length test of line 44 never rejects a pair within distance `d`. -/
theorem C7_edit_distance_within_iff (str1 str2 : Word) (d : Int) (hd : d ≠ 1) :
    edit_distance_within str1 str2 d = true ↔ EditDistanceAtMost str1 str2 d := by
  unfold edit_distance_within
  by_cases hlen : |(str1.length : Int) - (str2.length : Int)| > d
  · simp only [hlen, if_true]
    constructor
    · intro h; exact absurd h (by simp)
    · rintro ⟨k, hk, he⟩
      have := editsIn_length_le he
      simp only [List.length_map] at this
      exfalso
      have : |(str1.length : Int) - (str2.length : Int)| ≤ k := by
        rw [abs_le]; omega
      omega
  · simp only [hlen, if_false, hd]
    rw [decide_eq_true_iff]
    exact dpTable_le_iff str1 str2 d

theorem sameLengthLoop_symm (a b : List Char) (n : Nat) :
    sameLengthLoop a b n = sameLengthLoop b a n := by
  induction a generalizing b n with
  | nil => cases b <;> simp [sameLengthLoop]
  | cons x a ih =>
    cases b with
    | nil => simp [sameLengthLoop]
    | cons y b =>
      simp only [sameLengthLoop, ih, ne_eq, eq_comm]

/-- Claim C8. `edit_distance_within` is symmetric in its two strings, for every `d`
(in particular every `d ≥ 0`), on the `d == 1` path and on the table path alike. -/
theorem C8_edit_distance_within_symm (a b : Word) (d : Int) :
    edit_distance_within a b d = edit_distance_within b a d := by
  unfold edit_distance_within
  rw [abs_sub_comm (a.length : Int) (b.length : Int)]
  by_cases hlen : |(b.length : Int) - (a.length : Int)| > d
  · simp [hlen]
  · simp only [hlen, if_false]
    by_cases hd : d = 1
    · simp only [hd, if_true]
      by_cases hab : a = b
      · simp [hab]
      · have hba : ¬ b = a := fun e => hab e.symm
        simp only [hab, hba, if_false]
        by_cases hmn : a.length = b.length
        · simp only [hmn, if_true]
          exact sameLengthLoop_symm a b 0
        · have hnm : ¬ b.length = a.length := fun e => hmn e.symm
          simp only [hmn, hnm, if_false]
          rcases Nat.lt_or_ge a.length b.length with h | h
          · have h2 : ¬ b.length < a.length := by omega
            simp [h, h2]
          · have h1 : ¬ a.length < b.length := by omega
            have h2 : b.length < a.length := by omega
            simp [h1, h2]
    · simp only [hd, if_false]
      rw [dpTable_last, dpTable_last, lev_symm]

/-- Claim C6, evaluated at the words `Cat` and `cat`: their case-insensitive edit distance
is at most 1 (it is 0), yet `is_adjacent` is false, while the table path of
`edit_distance_within` accepts the same pair for `d = 0` and `d = 2`. -/
theorem C6_is_adjacent_case_only_pair :
    is_adjacent "Cat".toList "cat".toList = false ∧
      EditDistanceAtMost "Cat".toList "cat".toList 1 ∧
      edit_distance_within "Cat".toList "cat".toList 0 = true ∧
      edit_distance_within "Cat".toList "cat".toList 2 = true := by
  refine ⟨by decide, ⟨0, by decide, ?_⟩, by decide, by decide⟩
  have e : ("Cat".toList).map tolower = ("cat".toList).map tolower := by decide
  rw [e]
  exact EditsIn.refl _

/-- Claim C7 at `kitten` and `sitting`, whose distance is 3: the pair is accepted and
within distance for `d = 3`, rejected and not within distance for `d = 2`. -/
theorem C7_edit_distance_within_iff_witness :
    ((3 : Int) ≠ 1 ∧ edit_distance_within "kitten".toList "sitting".toList 3 = true ∧
        EditDistanceAtMost "kitten".toList "sitting".toList 3) ∧
      ((2 : Int) ≠ 1 ∧ edit_distance_within "kitten".toList "sitting".toList 2 = false ∧
        ¬ EditDistanceAtMost "kitten".toList "sitting".toList 2) :=
  ⟨⟨by decide, by decide, (C7_edit_distance_within_iff _ _ 3 (by decide)).mp (by decide)⟩,
    ⟨by decide, by decide, fun h =>
      absurd ((C7_edit_distance_within_iff _ _ 2 (by decide)).mpr h) (by decide)⟩⟩

end Ladder

/-! ## Theorems: the `d == 1` path of `edit_distance_within` -/

namespace Ladder

theorem lev_eq_zero_iff (x y : List Char) : lev x y = 0 ↔ x = y := by
  constructor
  · intro h
    obtain ⟨j, hj, he⟩ := (lev_le_iff x y 0).mp (by omega)
    have hj0 : j = 0 := by omega
    subst hj0
    cases he
    rfl
  · intro h; subst h; exact lev_self x

theorem lev_reverse (x y : List Char) : lev x.reverse y.reverse = lev x y := by
  apply le_antisymm
  · rw [lev_le_iff]
    exact ⟨lev x y, le_rfl, editsIn_reverse (editsIn_lev x y)⟩
  · rw [lev_le_iff]
    exact ⟨_, le_rfl, (editsIn_reverse_iff _ x y).mp (editsIn_lev _ _)⟩

theorem lev_length_le (x y : List Char) :
    x.length ≤ y.length + lev x y ∧ y.length ≤ x.length + lev x y :=
  editsIn_length_le (editsIn_lev x y)

/-- With one difference already counted, the equal-length loop accepts exactly the pairs
that agree everywhere after `tolower`. -/
theorem sameLengthLoop_one (a b : List Char) (h : a.length = b.length) :
    sameLengthLoop a b 1 = true ↔ a.map tolower = b.map tolower := by
  induction a generalizing b with
  | nil =>
    cases b with
    | nil => simp [sameLengthLoop]
    | cons y b => simp at h
  | cons x a ih =>
    cases b with
    | nil => simp at h
    | cons y b =>
      have h2 : a.length = b.length := by simpa using h
      rw [sameLengthLoop]
      by_cases hxy : tolower x = tolower y
      · simp [hxy, ih b h2]
      · simp [hxy]

/-- From a count of zero, the equal-length loop accepts exactly the pairs that differ
after `tolower` in exactly one position. -/
theorem sameLengthLoop_zero (a b : List Char) (h : a.length = b.length) :
    sameLengthLoop a b 0 = true ↔ diffPositions a b = 1 := by
  induction a generalizing b with
  | nil =>
    cases b with
    | nil => simp [sameLengthLoop, diffPositions]
    | cons y b => simp at h
  | cons x a ih =>
    cases b with
    | nil => simp at h
    | cons y b =>
      have h2 : a.length = b.length := by simpa using h
      have hz : ∀ (a b : List Char), a.length = b.length →
          (diffPositions a b = 0 ↔ a.map tolower = b.map tolower) := by
        intro a
        induction a with
        | nil => intro b hb; cases b <;> simp [diffPositions] at hb ⊢
        | cons x a iha =>
          intro b hb
          cases b with
          | nil => simp at hb
          | cons y b =>
            have hb2 : a.length = b.length := by simpa using hb
            have := iha b hb2
            unfold diffPositions at this ⊢
            simp only [List.zip_cons_cons, List.countP_cons, List.map_cons, List.cons.injEq]
            by_cases hxy : tolower x = tolower y
            · have hif : (if decide (tolower x ≠ tolower y) = true then 1 else 0) = 0 := by
                simp [hxy]
              rw [hif, Nat.add_zero, this]
              simp [hxy]
            · have hif : (if decide (tolower x ≠ tolower y) = true then 1 else 0) = 1 := by
                simp [hxy]
              rw [hif]
              simp [hxy]
      rw [sameLengthLoop]
      unfold diffPositions
      simp only [List.zip_cons_cons, List.countP_cons]
      by_cases hxy : tolower x = tolower y
      · have := ih b h2
        unfold diffPositions at this
        simp only [hxy, ne_eq, not_true_eq_false, if_false, decide_False,
          Bool.false_eq_true, Nat.add_zero]
        exact this
      · have h1 := sameLengthLoop_one a b h2
        have h0 := hz a b h2
        unfold diffPositions at h0
        simp only [hxy, ne_eq, not_false_eq_true, if_true, decide_True, Nat.zero_add,
          gt_iff_lt, lt_self_iff_false, if_false, Nat.add_left_eq_self]
        rw [h0, ← h1]

theorem sameLengthLoop_zero_lev (a b : List Char) (h : a.length = b.length) :
    sameLengthLoop a b 0 = true ↔ lev (a.map tolower) (b.map tolower) = 1 := by
  induction a generalizing b with
  | nil =>
    cases b with
    | nil => simp [sameLengthLoop, lev_nil_left]
    | cons y b => simp at h
  | cons x a ih =>
    cases b with
    | nil => simp at h
    | cons y b =>
      have h2 : a.length = b.length := by simpa using h
      rw [sameLengthLoop]
      simp only [List.map_cons]
      rw [lev_cons_cons]
      by_cases hxy : tolower x = tolower y
      · simp only [hxy, ne_eq, not_true_eq_false, if_false, if_true]
        exact ih b h2
      · simp only [hxy, ne_eq, not_false_eq_true, if_true, Nat.zero_add,
          gt_iff_lt, lt_self_iff_false, if_false]
        rw [sameLengthLoop_one a b h2]
        have l1 := lev_length_le (a.map tolower) (tolower y :: b.map tolower)
        have l2 := lev_length_le (tolower x :: a.map tolower) (b.map tolower)
        simp only [List.length_cons, List.length_map] at l1 l2
        constructor
        · intro he
          have := (lev_eq_zero_iff _ _).mpr he
          omega
        · intro hl
          apply (lev_eq_zero_iff _ _).mp
          omega

/-- After the one allowed skip, the two-pointer loop accepts exactly the pairs of equal
remaining length that agree everywhere after `tolower`. -/
theorem skipLoop_true (s t : List Char) (h : s.length = t.length) :
    skipLoop s t true = true ↔ s.map tolower = t.map tolower := by
  induction s generalizing t with
  | nil =>
    cases t with
    | nil => simp [skipLoop]
    | cons y t => simp at h
  | cons x s ih =>
    cases t with
    | nil => simp at h
    | cons y t =>
      have h2 : s.length = t.length := by simpa using h
      rw [skipLoop]
      by_cases hxy : tolower x = tolower y
      · simp [hxy, ih t h2]
      · simp [hxy]

/-- Before any skip, against a string one character longer, the two-pointer loop accepts
exactly when the shorter string is the longer one with one character removed. -/
theorem skipLoop_false_removed (s t : List Char) (h : s.length + 1 = t.length) :
    skipLoop s t false = true ↔ OneRemoved s t := by
  induction s generalizing t with
  | nil =>
    cases t with
    | nil => simp at h
    | cons y t =>
      have ht : t = [] := List.length_eq_zero.mp (by simpa using h)
      subst ht
      constructor
      · intro _; exact ⟨[], y, [], rfl, rfl⟩
      · intro _; simp [skipLoop]
  | cons x s ih =>
    cases t with
    | nil => simp at h
    | cons y t =>
      have h2 : s.length + 1 = t.length := by simpa using h
      rw [skipLoop]
      by_cases hxy : tolower x = tolower y
      · simp only [hxy, if_true]
        rw [ih t h2]
        constructor
        · rintro ⟨l, c, r, ht, hs⟩
          exact ⟨y :: l, c, r, by simp [ht], by simp [hxy, hs]⟩
        · rintro ⟨l, c, r, ht, hs⟩
          cases l with
          | nil =>
            simp only [List.nil_append, List.cons.injEq] at ht
            obtain ⟨rfl, rfl⟩ := ht
            simp only [List.nil_append, List.map_cons] at hs
            cases t with
            | nil => simp at hs
            | cons z t =>
              simp only [List.map_cons, List.cons.injEq] at hs
              exact ⟨[], z, t, rfl, hs.2⟩
          | cons l0 l =>
            simp only [List.cons_append, List.cons.injEq] at ht
            obtain ⟨rfl, rfl⟩ := ht
            simp only [List.cons_append, List.map_cons, List.cons.injEq] at hs
            exact ⟨l, c, r, rfl, hs.2⟩
      · simp only [hxy, if_false, Bool.false_eq_true]
        rw [skipLoop_true (x :: s) t (by simpa using h2)]
        constructor
        · intro hs
          exact ⟨[], y, t, rfl, hs⟩
        · rintro ⟨l, c, r, ht, hs⟩
          cases l with
          | nil =>
            simp only [List.nil_append, List.cons.injEq] at ht
            obtain ⟨rfl, rfl⟩ := ht
            exact hs
          | cons l0 l =>
            simp only [List.cons_append, List.cons.injEq] at ht
            obtain ⟨rfl, rfl⟩ := ht
            simp only [List.cons_append, List.map_cons, List.cons.injEq] at hs
            exact absurd hs.1 hxy

theorem skipLoop_false_lev (s t : List Char) (h : s.length + 1 = t.length) :
    skipLoop s t false = true ↔ lev (s.map tolower) (t.map tolower) ≤ 1 := by
  induction s generalizing t with
  | nil =>
    cases t with
    | nil => simp at h
    | cons y t =>
      have ht : t = [] := List.length_eq_zero.mp (by simpa using h)
      subst ht
      simp [skipLoop, lev_nil_left]
  | cons x s ih =>
    cases t with
    | nil => simp at h
    | cons y t =>
      have h2 : s.length + 1 = t.length := by simpa using h
      rw [skipLoop]
      simp only [List.map_cons]
      rw [lev_cons_cons]
      by_cases hxy : tolower x = tolower y
      · simp only [hxy, if_true]
        exact ih t h2
      · simp only [hxy, if_false, Bool.false_eq_true]
        rw [skipLoop_true (x :: s) t (by simpa using h2)]
        have l1 := lev_length_le (s.map tolower) (t.map tolower)
        have l2 := lev_length_le (s.map tolower) (tolower y :: t.map tolower)
        simp only [List.length_cons, List.length_map] at l1 l2
        simp only [List.map_cons]
        constructor
        · intro he
          have := (lev_eq_zero_iff _ _).mpr he
          omega
        · intro hl
          apply (lev_eq_zero_iff _ _).mp
          omega

/-- What `edit_distance_within` does for `d = 1` on two strings of equal length: it
accepts identical strings and strings with exactly one case-insensitive difference. -/
theorem edit_distance_within_one_same_length (a b : Word) (h : a.length = b.length) :
    edit_distance_within a b 1 = true ↔ a = b ∨ diffPositions a b = 1 := by
  unfold edit_distance_within
  have h0 : ¬ (|(b.length : Int) - (b.length : Int)| > 1) := by simp
  simp only [h, h0, if_false, if_true]
  by_cases hab : a = b
  · simp [hab]
  · simp only [hab, if_false, false_or]
    exact sameLengthLoop_zero a b h

/-- Claim C13. `is_adjacent` is reflexive on every string, the empty one included;
`is_adjacent("cat", "cot")` is true and `is_adjacent("cat", "dog")` is false. -/
theorem C13_is_adjacent_refl :
    (∀ w : Word, is_adjacent w w = true) ∧ is_adjacent [] [] = true ∧
      is_adjacent "cat".toList "cot".toList = true ∧
      is_adjacent "cat".toList "dog".toList = false := by
  refine ⟨?_, by decide, by decide, by decide⟩
  intro w
  unfold is_adjacent edit_distance_within
  simp

/-- Claim C16. For strings whose lengths differ by exactly one,
`edit_distance_within a b 1` is true exactly when the shorter string equals, character by
character after `tolower`, the longer one with exactly one of its characters removed. -/
theorem C16_edit_distance_within_one_removed (a b : Word)
    (h : a.length + 1 = b.length ∨ b.length + 1 = a.length) :
    edit_distance_within a b 1 = true ↔ OneRemoved a b ∨ OneRemoved b a := by
  have hlenr : ∀ s t : List Char, OneRemoved s t → s.length + 1 = t.length := by
    rintro s t ⟨l, c, r, ht, hs⟩
    have := congrArg List.length hs
    simp only [List.length_map, List.length_append] at this
    rw [ht]
    simp only [List.length_append, List.length_cons]
    omega
  unfold edit_distance_within
  have h0 : ¬ (|(a.length : Int) - (b.length : Int)| > 1) := by
    rw [not_lt, abs_le]
    omega
  have hab : ¬ a = b := by
    intro e; subst e; omega
  have hmn : ¬ a.length = b.length := by omega
  simp only [h0, if_false, if_true, hab, hmn]
  rcases h with h | h
  · have hlt : a.length < b.length := by omega
    simp only [hlt, if_true]
    rw [skipLoop_false_removed a b h]
    constructor
    · intro hr; exact Or.inl hr
    · rintro (hr | hr)
      · exact hr
      · have := hlenr b a hr; omega
  · have hlt : ¬ a.length < b.length := by omega
    simp only [hlt, if_false]
    rw [skipLoop_false_removed b a h]
    constructor
    · intro hr; exact Or.inr hr
    · rintro (hr | hr)
      · have := hlenr a b hr; omega
      · exact hr

/-- Claim C16 at `cat` and `cart`: the lengths differ by one, `cat` is `cart` with its
third character removed, and the pair is accepted; `cat` and `dart` are rejected. -/
theorem C16_edit_distance_within_one_removed_witness :
    ("cat".toList.length + 1 = "cart".toList.length ∨
        "cart".toList.length + 1 = "cat".toList.length) ∧
      edit_distance_within "cat".toList "cart".toList 1 = true ∧
      (OneRemoved "cat".toList "cart".toList ∨ OneRemoved "cart".toList "cat".toList) ∧
      edit_distance_within "cat".toList "dart".toList 1 = false ∧
      ¬ (OneRemoved "cat".toList "dart".toList ∨ OneRemoved "dart".toList "cat".toList) :=
  ⟨by decide, by decide,
    (C16_edit_distance_within_one_removed "cat".toList "cart".toList (by decide)).mp
      (by decide),
    by decide,
    fun hr => absurd
      ((C16_edit_distance_within_one_removed "cat".toList "dart".toList (by decide)).mpr hr)
      (by decide)⟩

/-- Claim C17, evaluated at `Cat` and `cat`: the strings have equal length and no position
differs after `tolower`, so at most one position differs, yet
`edit_distance_within("Cat", "cat", 1)` is false. -/
theorem C17_edit_distance_within_case_only_pair :
    "Cat".toList.length = "cat".toList.length ∧
      diffPositions "Cat".toList "cat".toList = 0 ∧
      edit_distance_within "Cat".toList "cat".toList 1 = false := by
  refine ⟨by decide, by decide, by decide⟩

/-- For `d` other than 1 and lengths within `d`, `edit_distance_within` returns what the
table path returns. -/
theorem edit_distance_within_eq_tableAccepts (str1 str2 : Word) (d : Int) (hd : d ≠ 1)
    (hlen : ¬ (|(str1.length : Int) - (str2.length : Int)| > d)) :
    edit_distance_within str1 str2 d = tableAccepts str1 str2 d := by
  unfold edit_distance_within tableAccepts
  simp only [hlen, hd, if_false]

/-- Claim C19. On strings that `tolower` leaves unchanged, the `d == 1` path of
`edit_distance_within` returns the Boolean `dp[m][n] <= 1` of the table of lines
115-139. -/
theorem C19_fast_path_agrees_with_table (a b : Word) (ha : ∀ c ∈ a, tolower c = c)
    (hb : ∀ c ∈ b, tolower c = c) :
    edit_distance_within a b 1 = tableAccepts a b 1 := by
  have hma : a.map tolower = a := by
    conv_rhs => rw [← List.map_id a]
    exact List.map_congr_left ha
  have hmb : b.map tolower = b := by
    conv_rhs => rw [← List.map_id b]
    exact List.map_congr_left hb
  unfold tableAccepts
  simp only
  rw [dpTable_last, lev_reverse, hma, hmb]
  have hl := lev_length_le a b
  rw [Bool.eq_iff_iff, decide_eq_true_iff]
  unfold edit_distance_within
  by_cases h0 : |(a.length : Int) - (b.length : Int)| > 1
  · simp only [h0, if_true, Bool.false_eq_true, false_iff]
    intro hle
    apply absurd h0
    rw [not_lt, abs_le]
    omega
  · simp only [h0, if_false, if_true]
    rw [not_lt, abs_le] at h0
    by_cases hab : a = b
    · subst hab
      simp [lev_self]
    · simp only [hab, if_false]
      have hne : lev a b ≠ 0 := fun e => hab ((lev_eq_zero_iff a b).mp e)
      by_cases hmn : a.length = b.length
      · simp only [hmn, if_true]
        rw [sameLengthLoop_zero_lev a b hmn, hma, hmb]
        omega
      · simp only [hmn, if_false]
        rcases Nat.lt_or_ge a.length b.length with hlt | hge
        · simp only [hlt, if_true]
          rw [skipLoop_false_lev a b (by omega), hma, hmb]
          omega
        · have hlt : ¬ a.length < b.length := by omega
          simp only [hlt, if_false]
          rw [skipLoop_false_lev b a (by omega), hma, hmb, lev_symm]
          omega

/-- Claim C19 at `cat` and `cot`, which `tolower` leaves unchanged: both paths accept. -/
theorem C19_fast_path_agrees_with_table_witness :
    ((∀ c ∈ "cat".toList, tolower c = c) ∧ (∀ c ∈ "cot".toList, tolower c = c)) ∧
      edit_distance_within "cat".toList "cot".toList 1 = true ∧
      tableAccepts "cat".toList "cot".toList 1 = true ∧
      edit_distance_within "cat".toList "cot".toList 1 =
        tableAccepts "cat".toList "cot".toList 1 :=
  ⟨⟨by decide, by decide⟩, by decide, by decide,
    C19_fast_path_agrees_with_table "cat".toList "cot".toList (by decide) (by decide)⟩

end Ladder

/-! ## Theorems: `generate_word_ladder` -/

namespace Ladder

theorem isLadder_single (b : Word) (wl : List Word) : IsLadder b b wl [b] := by
  refine ⟨rfl, rfl, ?_, ?_⟩
  · intro w hw; simp at hw
  · exact List.chain'_singleton _

theorem isLadder_ne_nil {b w : Word} {wl c : List Word} (h : IsLadder b w wl c) : c ≠ [] := by
  intro e; subst e; have := h.1; simp at this

theorem isLadder_length_pos {b w : Word} {wl c : List Word} (h : IsLadder b w wl c) :
    1 ≤ c.length := by
  have := isLadder_ne_nil h
  cases c with
  | nil => exact absurd rfl this
  | cons x xs => simp

theorem isLadder_snoc {b u w : Word} {wl c : List Word} (h : IsLadder b u wl c)
    (hw : w ∈ wl) (hadj : is_adjacent u w = true) : IsLadder b w wl (c ++ [w]) := by
  obtain ⟨h1, h2, h3, h4⟩ := h
  have hne : c ≠ [] := by intro e; subst e; simp at h1
  refine ⟨?_, ?_, ?_, ?_⟩
  · rw [List.head?_append_of_ne_nil _ hne]; exact h1
  · simp
  · intro x hx
    rw [List.tail_append_of_ne_nil hne] at hx
    rcases List.mem_append.mp hx with hx | hx
    · exact h3 x hx
    · simp at hx; subst hx; exact hw
  · rw [List.chain'_append]
    refine ⟨h4, List.chain'_singleton _, ?_⟩
    intro x hx y hy
    rw [h2] at hx
    simp at hx hy
    subst hx; subst hy
    exact hadj

theorem isLadder_snoc_inv {b w : Word} {wl c : List Word} (h : IsLadder b w wl c) :
    (c = [b] ∧ w = b) ∨ ∃ c2 u, c = c2 ++ [w] ∧ IsLadder b u wl c2 ∧
      is_adjacent u w = true ∧ w ∈ wl := by
  have hne := isLadder_ne_nil h
  obtain ⟨h1, h2, h3, h4⟩ := h
  rcases List.eq_nil_or_concat c with e | ⟨L, x, e⟩
  · exact absurd e hne
  · rw [List.concat_eq_append] at e
    subst e
    have hx : x = w := by simpa using h2
    subst hx
    cases L with
    | nil =>
      left
      simp at h1
      subst h1
      exact ⟨rfl, rfl⟩
    | cons y L =>
      right
      have hLne : (y :: L) ≠ [] := by simp
      obtain ⟨u, hu⟩ : ∃ u, (y :: L).getLast? = some u :=
        ⟨(y :: L).getLast hLne, List.getLast?_eq_getLast _ hLne⟩
      rw [List.chain'_append] at h4
      refine ⟨y :: L, u, rfl, ⟨?_, hu, ?_, h4.1⟩, ?_, ?_⟩
      · rw [List.head?_append_of_ne_nil _ hLne] at h1; exact h1
      · intro z hz
        apply h3
        rw [List.tail_append_of_ne_nil hLne]
        exact List.mem_append_left _ hz
      · exact h4.2.2 u (by rw [hu]; simp) x (by simp)
      · apply h3
        rw [List.tail_append_of_ne_nil hLne]
        simp

theorem closed_mono {wl vis vis2 : List Word} {x : Word} (hsub : ∀ y ∈ vis, y ∈ vis2)
    (h : Closed wl vis x) : Closed wl vis2 x :=
  fun y hy hadj => hsub y (h y hy hadj)

theorem unvisitedCount_le (wl vis : List Word) : unvisitedCount wl vis ≤ wl.length :=
  List.countP_le_length _

theorem unvisitedCount_cons (wl vis : List Word) (w : Word) (hw : w ∈ wl) (hv : w ∉ vis) :
    unvisitedCount wl (w :: vis) + 1 ≤ unvisitedCount wl vis := by
  unfold unvisitedCount
  induction wl with
  | nil => simp at hw
  | cons x wl ih =>
    have hmono : List.countP (fun y => !((w :: vis).contains y)) wl ≤
        List.countP (fun y => !(vis.contains y)) wl := by
      apply List.countP_mono_left
      intro y _ hy
      simp at hy ⊢
      exact hy.2
    have hle : (if (!((w :: vis).contains x)) = true then 1 else 0) ≤
        (if (!(vis.contains x)) = true then 1 else 0) := by
      by_cases hxv : x ∈ vis
      · simp [hxv]
      · by_cases hxw : x = w <;> simp [hxv, hxw]
    rw [List.countP_cons, List.countP_cons]
    by_cases hxw : x = w
    · subst hxw
      have e1 : (!((x :: vis).contains x)) = false := by simp
      have e2 : (!(vis.contains x)) = true := by simp [hv]
      simp only [e1, e2]
      simp only [if_true, Bool.false_eq_true, if_false]
      omega
    · have hw2 : w ∈ wl := by
        rcases List.mem_cons.mp hw with e | e
        · exact absurd e.symm hxw
        · exact e
      have := ih hw2
      omega

theorem expandLadder_inl (e : Word) (cur : List Word) (last : Word) :
    ∀ (wl2 : List Word) (q : List (List Word)) (vis found : List Word),
      expandLadder e cur last wl2 q vis = Sum.inl found →
        found = cur ++ [e] ∧ e ∈ wl2 ∧ is_adjacent last e = true := by
  intro wl2
  induction wl2 with
  | nil => intro q vis found h; simp [expandLadder] at h
  | cons w rest ih =>
    intro q vis found h
    rw [expandLadder] at h
    by_cases hc : (is_adjacent last w && !(vis.contains w)) = true
    · rw [if_pos hc] at h
      by_cases hwe : w = e
      · simp only [hwe, if_true] at h
        subst hwe
        have hadj : is_adjacent last w = true := by
          simp only [Bool.and_eq_true] at hc; exact hc.1
        exact ⟨(Sum.inl.inj h).symm, List.mem_cons_self _ _, hadj⟩
      · simp only [hwe, if_false] at h
        obtain ⟨h1, h2, h3⟩ := ih _ _ _ h
        exact ⟨h1, List.mem_cons_of_mem _ h2, h3⟩
    · rw [if_neg hc] at h
      obtain ⟨h1, h2, h3⟩ := ih _ _ _ h
      exact ⟨h1, List.mem_cons_of_mem _ h2, h3⟩

theorem expandLadder_inr (e : Word) (cur : List Word) (last : Word) :
    ∀ (wl2 : List Word) (q : List (List Word)) (vis : List Word) (q2 : List (List Word))
      (vis2 : List Word), expandLadder e cur last wl2 q vis = Sum.inr (q2, vis2) →
        ∃ added : List Word, q2 = q ++ added.map (fun w => cur ++ [w]) ∧
          (∀ x, x ∈ vis2 ↔ x ∈ added ∨ x ∈ vis) ∧
          (∀ w ∈ added, w ∈ wl2 ∧ is_adjacent last w = true ∧ w ∉ vis ∧ w ≠ e) ∧
          (∀ x ∈ wl2, is_adjacent last x = true → x ∈ vis2) := by
  intro wl2
  induction wl2 with
  | nil =>
    intro q vis q2 vis2 h
    simp only [expandLadder, Sum.inr.injEq, Prod.mk.injEq] at h
    obtain ⟨rfl, rfl⟩ := h
    exact ⟨[], by simp, by simp, by simp, by simp⟩
  | cons w rest ih =>
    intro q vis q2 vis2 h
    rw [expandLadder] at h
    by_cases hc : (is_adjacent last w && !(vis.contains w)) = true
    · rw [if_pos hc] at h
      have hadj : is_adjacent last w = true := by
        simp only [Bool.and_eq_true] at hc; exact hc.1
      have hnv : w ∉ vis := by
        simp only [Bool.and_eq_true] at hc
        have := hc.2
        simpa using this
      by_cases hwe : w = e
      · simp only [hwe, if_true] at h
        exact absurd h (by simp)
      · simp only [hwe, if_false] at h
        obtain ⟨added, h1, h2, h3, h4⟩ := ih _ _ _ _ h
        refine ⟨w :: added, ?_, ?_, ?_, ?_⟩
        · rw [h1]; simp
        · intro x
          rw [h2 x]
          simp only [List.mem_cons]
          tauto
        · intro x hx
          rcases List.mem_cons.mp hx with rfl | hx
          · exact ⟨List.mem_cons_self _ _, hadj, hnv, hwe⟩
          · obtain ⟨a1, a2, a3, a4⟩ := h3 x hx
            exact ⟨List.mem_cons_of_mem _ a1, a2, fun hv => a3 (List.mem_cons_of_mem _ hv), a4⟩
        · intro x hx hax
          rcases List.mem_cons.mp hx with rfl | hx
          · exact (h2 x).mpr (Or.inr (List.mem_cons_self _ _))
          · exact h4 x hx hax
    · rw [if_neg hc] at h
      obtain ⟨added, h1, h2, h3, h4⟩ := ih _ _ _ _ h
      refine ⟨added, h1, h2, ?_, ?_⟩
      · intro x hx
        obtain ⟨a1, a2, a3, a4⟩ := h3 x hx
        exact ⟨List.mem_cons_of_mem _ a1, a2, a3, a4⟩
      · intro x hx hax
        rcases List.mem_cons.mp hx with rfl | hx
        · have hv : x ∈ vis := by
            by_contra hnv
            apply hc
            simp [hax, hnv]
          exact (h2 x).mpr (Or.inr hv)
        · exact h4 x hx hax

theorem expandLadder_measure (e : Word) (cur : List Word) (last : Word) (wl : List Word) :
    ∀ (wl2 : List Word), (∀ x ∈ wl2, x ∈ wl) → ∀ (q : List (List Word)) (vis : List Word)
      (q2 : List (List Word)) (vis2 : List Word),
      expandLadder e cur last wl2 q vis = Sum.inr (q2, vis2) →
        q2.length + unvisitedCount wl vis2 ≤ q.length + unvisitedCount wl vis := by
  intro wl2
  induction wl2 with
  | nil =>
    intro _ q vis q2 vis2 h
    simp only [expandLadder, Sum.inr.injEq, Prod.mk.injEq] at h
    obtain ⟨rfl, rfl⟩ := h
    exact le_rfl
  | cons w rest ih =>
    intro hsub q vis q2 vis2 h
    have hsub2 : ∀ x ∈ rest, x ∈ wl := fun x hx => hsub x (List.mem_cons_of_mem _ hx)
    rw [expandLadder] at h
    by_cases hc : (is_adjacent last w && !(vis.contains w)) = true
    · rw [if_pos hc] at h
      have hnv : w ∉ vis := by
        simp only [Bool.and_eq_true] at hc
        have := hc.2
        simpa using this
      by_cases hwe : w = e
      · simp only [hwe, if_true] at h
        exact absurd h (by simp)
      · simp only [hwe, if_false] at h
        have h1 := ih hsub2 _ _ _ _ h
        have h2 := unvisitedCount_cons wl vis w (hsub w (List.mem_cons_self _ _)) hnv
        simp only [List.length_append, List.length_singleton] at h1
        omega
    · rw [if_neg hc] at h
      exact ih hsub2 _ _ _ _ h

theorem ladderInv_init (b e : Word) (wl : List Word) (hbe : b ≠ e) :
    LadderInv b e wl [[b]] [b] 0 where
  begin_visited := List.mem_singleton_self _
  end_unvisited := by simp; exact fun h => hbe h.symm
  ladders := by
    intro l hl
    simp only [List.mem_singleton] at hl
    subst hl
    exact ⟨b, isLadder_single b wl, by simp, by simp⟩
  frontier := by
    intro x hx
    simp only [List.mem_singleton] at hx
    subst hx
    exact Or.inr ⟨[x], by simp, rfl⟩
  lengths := by
    intro l hl
    simp only [List.mem_singleton] at hl
    subst hl
    simp
  sorted := List.pairwise_singleton _ _
  level := by
    intro w c hc hlen
    have := isLadder_length_pos hc
    omega

/-- When the first ladder of the queue has `d + 1` words, the invariant holds at level
`d + 1`. -/
theorem ladderInv_upgrade {b e : Word} {wl : List Word} {cur : List Word}
    {rest : List (List Word)} {vis : List Word} {d : Nat}
    (h : LadderInv b e wl (cur :: rest) vis d) (hcur : cur.length = d + 1) :
    LadderInv b e wl (cur :: rest) vis (d + 1) := by
  have hall : ∀ l ∈ cur :: rest, l.length = d + 1 := by
    intro l hl
    have h1 := h.lengths l hl
    rcases List.mem_cons.mp hl with rfl | hl2
    · exact hcur
    · have := (List.pairwise_cons.mp h.sorted).1 l hl2
      omega
  have hclosed : ∀ w c, IsLadder b w wl c → c.length ≤ d → Closed wl vis w := by
    intro w c hc hlen
    rcases (h.level w c hc hlen).2 with hcl | ⟨l, hl, _, hl2⟩
    · exact hcl
    · have := hall l hl; omega
  refine ⟨h.begin_visited, h.end_unvisited, h.ladders, h.frontier, ?_, h.sorted, ?_⟩
  · intro l hl
    have := hall l hl
    omega
  · intro w c hc hlen
    by_cases hle : c.length ≤ d
    · exact ⟨(h.level w c hc hle).1, Or.inl (hclosed w c hc hle)⟩
    · have hceq : c.length = d + 1 := by omega
      have hwvis : w ∈ vis := by
        rcases isLadder_snoc_inv hc with ⟨_, rfl⟩ | ⟨c2, u, rfl, hc2, hadj, hw⟩
        · exact h.begin_visited
        · have hlen2 : c2.length ≤ d := by simp at hceq; omega
          exact hclosed u c2 hc2 hlen2 w hw hadj
      refine ⟨hwvis, ?_⟩
      rcases h.frontier w hwvis with hcl | ⟨l, hl, hlast⟩
      · exact Or.inl hcl
      · exact Or.inr ⟨l, hl, hlast, by have := hall l hl; omega⟩

/-- The invariant is kept by one full pass of the inner loop over the dictionary. -/
theorem ladderInv_expand {b e : Word} {wl : List Word} {cur : List Word}
    {rest : List (List Word)} {vis : List Word} {last : Word}
    (h : LadderInv b e wl (cur :: rest) vis cur.length) (hlast : cur.getLast? = some last)
    {q2 : List (List Word)} {vis2 : List Word}
    (hx : expandLadder e cur last wl rest vis = Sum.inr (q2, vis2)) :
    LadderInv b e wl q2 vis2 cur.length := by
  obtain ⟨added, hq2, hvis2, hadded, hclosed⟩ := expandLadder_inr e cur last wl rest vis q2 vis2 hx
  have hsub : ∀ y ∈ vis, y ∈ vis2 := fun y hy => (hvis2 y).mpr (Or.inr hy)
  have hlastClosed : Closed wl vis2 last := hclosed
  obtain ⟨w0, hcurL, hcurN, hcurV⟩ := h.ladders cur (List.mem_cons_self _ _)
  have hw0 : w0 = last := by
    have := hcurL.2.1; rw [hlast] at this; exact (Option.some.inj this).symm
  subst hw0
  have hmemq2 : ∀ l, l ∈ q2 ↔ l ∈ rest ∨ ∃ w ∈ added, l = cur ++ [w] := by
    intro l
    rw [hq2, List.mem_append, List.mem_map]
    constructor
    · rintro (h1 | ⟨w, hw, rfl⟩)
      · exact Or.inl h1
      · exact Or.inr ⟨w, hw, rfl⟩
    · rintro (h1 | ⟨w, hw, rfl⟩)
      · exact Or.inl h1
      · exact Or.inr ⟨w, hw, rfl⟩
  refine ⟨hsub _ h.begin_visited, ?_, ?_, ?_, ?_, ?_, ?_⟩
  · intro he
    rcases (hvis2 e).mp he with h1 | h1
    · exact (hadded e h1).2.2.2 rfl
    · exact h.end_unvisited h1
  · intro l hl
    rcases (hmemq2 l).mp hl with h1 | ⟨w, hw, rfl⟩
    · obtain ⟨w1, a1, a2, a3⟩ := h.ladders l (List.mem_cons_of_mem _ h1)
      exact ⟨w1, a1, a2, fun x hx => hsub x (a3 x hx)⟩
    · obtain ⟨a1, a2, a3, _⟩ := hadded w hw
      refine ⟨w, isLadder_snoc hcurL a1 a2, ?_, ?_⟩
      · rw [List.nodup_append]
        refine ⟨hcurN, List.nodup_singleton _, ?_⟩
        intro x hx1 hx2
        simp only [List.mem_singleton] at hx2
        subst hx2
        exact a3 (hcurV x hx1)
      · intro x hx
        rcases List.mem_append.mp hx with h1 | h1
        · exact hsub x (hcurV x h1)
        · simp only [List.mem_singleton] at h1
          subst h1
          exact (hvis2 x).mpr (Or.inl hw)
  · intro x hxv
    rcases (hvis2 x).mp hxv with h1 | h1
    · exact Or.inr ⟨cur ++ [x], (hmemq2 _).mpr (Or.inr ⟨x, h1, rfl⟩), by simp⟩
    · rcases h.frontier x h1 with hcl | ⟨l, hl, hll⟩
      · exact Or.inl (closed_mono hsub hcl)
      · rcases List.mem_cons.mp hl with rfl | hl2
        · rw [hlast] at hll
          have := Option.some.inj hll
          subst this
          exact Or.inl hlastClosed
        · exact Or.inr ⟨l, (hmemq2 l).mpr (Or.inl hl2), hll⟩
  · intro l hl
    rcases (hmemq2 l).mp hl with h1 | ⟨w, hw, rfl⟩
    · exact h.lengths l (List.mem_cons_of_mem _ h1)
    · simp
  · rw [hq2, List.pairwise_append]
    refine ⟨(List.pairwise_cons.mp h.sorted).2, ?_, ?_⟩
    · rw [List.pairwise_map]
      exact List.pairwise_of_forall (by intro x y; simp)
    · intro l1 hl1 l2 hl2
      obtain ⟨w, _, rfl⟩ := List.mem_map.mp hl2
      have := h.lengths l1 (List.mem_cons_of_mem _ hl1)
      simp
      omega
  · intro w c hc hlen
    obtain ⟨a1, a2⟩ := h.level w c hc hlen
    refine ⟨hsub w a1, ?_⟩
    rcases a2 with hcl | ⟨l, hl, hll, hlen2⟩
    · exact Or.inl (closed_mono hsub hcl)
    · rcases List.mem_cons.mp hl with rfl | hl2
      · rw [hlast] at hll
        have := Option.some.inj hll
        subst this
        exact Or.inl hlastClosed
      · exact Or.inr ⟨l, (hmemq2 l).mpr (Or.inl hl2), hll, hlen2⟩

/-- With an empty queue every word that a ladder reaches has been visited. -/
theorem ladderInv_nil_visited {b e : Word} {wl : List Word} {vis : List Word} {d : Nat}
    (h : LadderInv b e wl [] vis d) :
    ∀ (n : Nat) (c : List Word) (w : Word), c.length = n → IsLadder b w wl c → w ∈ vis := by
  intro n
  induction n with
  | zero =>
    intro c w hlen hc
    have := isLadder_length_pos hc
    omega
  | succ n ih =>
    intro c w hlen hc
    rcases isLadder_snoc_inv hc with ⟨_, rfl⟩ | ⟨c2, u, rfl, hc2, hadj, hw⟩
    · exact h.begin_visited
    · have hu : u ∈ vis := ih c2 u (by simp at hlen; omega) hc2
      rcases h.frontier u hu with hcl | ⟨l, hl, _⟩
      · exact hcl w hw hadj
      · simp at hl

/-- The loop returns within the fuel that the measure allows, with a result that meets
`LadderPost`. -/
theorem ladderLoop_spec (b e : Word) (wl : List Word) :
    ∀ (fuel : Nat) (q : List (List Word)) (vis : List Word) (d : Nat),
      LadderInv b e wl q vis d → q.length + unvisitedCount wl vis ≤ fuel →
        ∃ r, ladderLoop e wl fuel q vis = some r ∧ LadderPost b e wl r := by
  intro fuel
  induction fuel with
  | zero =>
    intro q vis d h hm
    have hq : q = [] := List.length_eq_zero.mp (by omega)
    subst hq
    refine ⟨[], by simp [ladderLoop], Or.inl ⟨rfl, ?_⟩⟩
    intro c hc
    exact h.end_unvisited (ladderInv_nil_visited h c.length c e rfl hc)
  | succ fuel ih =>
    intro q vis d h hm
    cases q with
    | nil =>
      refine ⟨[], by simp [ladderLoop], Or.inl ⟨rfl, ?_⟩⟩
      intro c hc
      exact h.end_unvisited (ladderInv_nil_visited h c.length c e rfl hc)
    | cons cur rest =>
      obtain ⟨last, hcurL, hcurN, hcurV⟩ := h.ladders cur (List.mem_cons_self _ _)
      have hlast : cur.getLast? = some last := hcurL.2.1
      have hlastv : last ∈ vis := by
        apply hcurV
        exact List.mem_of_getLast?_eq_some hlast
      have hne : last ≠ e := fun he => h.end_unvisited (he ▸ hlastv)
      have hL : LadderInv b e wl (cur :: rest) vis cur.length := by
        have := h.lengths cur (List.mem_cons_self _ _)
        by_cases hd : cur.length = d
        · rw [hd]; exact h
        · have hd1 : cur.length = d + 1 := by omega
          rw [hd1]; exact ladderInv_upgrade h hd1
      rw [ladderLoop]
      simp only [hlast, hne, if_false]
      cases hx : expandLadder e cur last wl rest vis with
      | inl found =>
        obtain ⟨hf, hewl, hadj⟩ := expandLadder_inl e cur last wl rest vis found hx
        refine ⟨found, rfl, Or.inr ⟨?_, ?_, ?_⟩⟩
        · rw [hf]; exact isLadder_snoc hcurL hewl hadj
        · rw [hf, List.nodup_append]
          refine ⟨hcurN, List.nodup_singleton _, ?_⟩
          intro x hx1 hx2
          simp only [List.mem_singleton] at hx2
          subst hx2
          exact h.end_unvisited (hcurV x hx1)
        · intro c hc
          by_contra hlt
          have hle : c.length ≤ cur.length := by
            rw [hf] at hlt; simp at hlt; omega
          exact h.end_unvisited (hL.level e c hc hle).1
      | inr p =>
        obtain ⟨q2, vis2⟩ := p
        have hinv := ladderInv_expand hL hlast hx
        have hmeas := expandLadder_measure e cur last wl wl (fun x hx => hx) rest vis q2 vis2 hx
        simp only [List.length_cons] at hm
        exact ih q2 vis2 cur.length hinv (by omega)

/-- The search returns, and its result is empty only if no ladder exists and otherwise
is a shortest ladder without repeated words. -/
theorem generate_word_ladder_spec (b e : Word) (wl : List Word) :
    ∃ r, generate_word_ladder b e wl = some r ∧ LadderPost b e wl r := by
  unfold generate_word_ladder
  by_cases hbe : b = e
  · subst hbe
    refine ⟨[b], by simp, Or.inr ⟨isLadder_single b wl, by simp, ?_⟩⟩
    intro c hc
    have := isLadder_length_pos hc
    simpa using this
  · rw [if_neg hbe]
    apply ladderLoop_spec b e wl _ _ _ 0 (ladderInv_init b e wl hbe)
    have := unvisitedCount_le wl [b]
    simp
    omega

/-! ### The claims -/

/-- Claim C3. `generate_word_ladder` returns, and when its result is not empty the result
is a ladder from `begin_word` to `end_word` whose number of words is the least number of
words of any such ladder (chains `w0 = begin_word, ..., wk = end_word` with `w1..wk` in
`word_list` and consecutive words adjacent). -/
theorem C3_generate_word_ladder_shortest (begin_word end_word : Word) (word_list : List Word) :
    ∃ r, generate_word_ladder begin_word end_word word_list = some r ∧
      (r ≠ [] → IsLadder begin_word end_word word_list r ∧
        ∀ c, IsLadder begin_word end_word word_list c → r.length ≤ c.length) := by
  obtain ⟨r, hr, hpost⟩ := generate_word_ladder_spec begin_word end_word word_list
  refine ⟨r, hr, fun hne => ?_⟩
  rcases hpost with ⟨h, _⟩ | ⟨h1, _, h3⟩
  · exact absurd h hne
  · exact ⟨h1, h3⟩

/-- Claim C3 at the worked example: with the dictionary cat, cog, cot, dog, dot the ladder
from cat to dog is cat, cot, cog, dog, and no ladder has fewer than its 4 words. -/
theorem C3_generate_word_ladder_shortest_witness :
    generate_word_ladder "cat".toList "dog".toList
        ["cat".toList, "cog".toList, "cot".toList, "dog".toList, "dot".toList] =
      some ["cat".toList, "cot".toList, "cog".toList, "dog".toList] ∧
    ∀ c, IsLadder "cat".toList "dog".toList
        ["cat".toList, "cog".toList, "cot".toList, "dog".toList, "dot".toList] c →
      4 ≤ c.length := by
  have e : generate_word_ladder "cat".toList "dog".toList
      ["cat".toList, "cog".toList, "cot".toList, "dog".toList, "dot".toList] =
      some ["cat".toList, "cot".toList, "cog".toList, "dog".toList] := by decide
  refine ⟨e, ?_⟩
  obtain ⟨r, hr, h⟩ := C3_generate_word_ladder_shortest "cat".toList "dog".toList
    ["cat".toList, "cog".toList, "cot".toList, "dog".toList, "dot".toList]
  rw [e] at hr
  have hr2 := Option.some.inj hr
  subst hr2
  intro c hc
  exact (h (by simp)).2 c hc

/-- Claim C4. `generate_word_ladder` returns, and its result is empty or a well-formed
ladder: first word `begin_word`, last word `end_word`, every word after the first in
`word_list`, consecutive words adjacent, and no word twice. -/
theorem C4_generate_word_ladder_well_formed (begin_word end_word : Word)
    (word_list : List Word) :
    ∃ r, generate_word_ladder begin_word end_word word_list = some r ∧
      (r = [] ∨ (r.head? = some begin_word ∧ r.getLast? = some end_word ∧
        (∀ w ∈ r.tail, w ∈ word_list) ∧
        List.Chain' (fun a b => is_adjacent a b = true) r ∧ r.Nodup)) := by
  obtain ⟨r, hr, hpost⟩ := generate_word_ladder_spec begin_word end_word word_list
  refine ⟨r, hr, ?_⟩
  rcases hpost with ⟨h, _⟩ | ⟨h1, h2, _⟩
  · exact Or.inl h
  · exact Or.inr ⟨h1.1, h1.2.1, h1.2.2.1, h1.2.2.2, h2⟩

/-- Claim C5. If some ladder from `begin_word` to `end_word` exists, then
`generate_word_ladder` returns a non-empty sequence. -/
theorem C5_generate_word_ladder_complete (begin_word end_word : Word) (word_list : List Word)
    (h : ∃ c, IsLadder begin_word end_word word_list c) :
    ∃ r, generate_word_ladder begin_word end_word word_list = some r ∧ r ≠ [] := by
  obtain ⟨r, hr, hpost⟩ := generate_word_ladder_spec begin_word end_word word_list
  refine ⟨r, hr, ?_⟩
  rcases hpost with ⟨_, h2⟩ | ⟨h1, _, _⟩
  · obtain ⟨c, hc⟩ := h
    exact absurd hc (h2 c)
  · exact isLadder_ne_nil h1

/-- Claim C5 at the words hit, hot, dot with the dictionary dot, hot: the ladder
hit, hot, dot exists, so the search result is not empty. -/
theorem C5_generate_word_ladder_complete_witness :
    (∃ c, IsLadder "hit".toList "dot".toList ["dot".toList, "hot".toList] c) ∧
      ∃ r, generate_word_ladder "hit".toList "dot".toList ["dot".toList, "hot".toList] =
        some r ∧ r ≠ [] :=
  have h : ∃ c, IsLadder "hit".toList "dot".toList ["dot".toList, "hot".toList] c :=
    ⟨["hit".toList, "hot".toList, "dot".toList], by decide, by decide, by decide,
      List.Chain'.cons (by decide) (List.Chain'.cons (by decide) (List.chain'_singleton _))⟩
  ⟨h, C5_generate_word_ladder_complete _ _ _ h⟩

end Ladder

/-! ## Theorems: special cases and termination of `generate_word_ladder` -/

namespace Ladder

/-- A pass of the loop body that does not return is one step of `ladderLoop`. -/
theorem ladderLoop_of_ladderIter (e : Word) (wl : List Word) (fuel : Nat)
    {q q2 : List (List Word)} {vis vis2 : List Word}
    (h : ladderIter e wl (q, vis) = some (q2, vis2)) :
    ladderLoop e wl (fuel + 1) q vis = ladderLoop e wl fuel q2 vis2 := by
  cases q with
  | nil => simp [ladderIter] at h
  | cons cur rest =>
    rw [ladderLoop]
    rw [ladderIter] at h
    cases hl : cur.getLast? with
    | none => rw [hl] at h; simp at h
    | some last =>
      rw [hl] at h
      simp only at h ⊢
      by_cases he : last = e
      · rw [if_pos he] at h; simp at h
      · rw [if_neg he] at h ⊢
        cases hx : expandLadder e cur last wl rest vis with
        | inl found => rw [hx] at h; simp at h
        | inr s =>
          rw [hx] at h
          simp only [Option.some.injEq] at h
          subst h
          rfl

/-- More fuel does not change a result already reached. -/
theorem ladderLoop_mono (e : Word) (wl : List Word) :
    ∀ (fuel : Nat) (q : List (List Word)) (vis r : List Word),
      ladderLoop e wl fuel q vis = some r →
        ∀ fuel2, fuel ≤ fuel2 → ladderLoop e wl fuel2 q vis = some r := by
  intro fuel
  induction fuel with
  | zero =>
    intro q vis r h fuel2 _
    cases q with
    | nil =>
      cases fuel2 <;> simpa [ladderLoop] using h
    | cons cur rest => simp [ladderLoop] at h
  | succ fuel ih =>
    intro q vis r h fuel2 hle
    cases q with
    | nil =>
      cases fuel2 <;> simpa [ladderLoop] using h
    | cons cur rest =>
      obtain ⟨f2, rfl⟩ : ∃ f2, fuel2 = f2 + 1 := ⟨fuel2 - 1, by omega⟩
      rw [ladderLoop] at h ⊢
      cases hl : cur.getLast? with
      | none => rw [hl] at h; simp at h
      | some last =>
        rw [hl] at h
        simp only at h ⊢
        by_cases he : last = e
        · rw [if_pos he] at h ⊢; exact h
        · rw [if_neg he] at h ⊢
          cases hx : expandLadder e cur last wl rest vis with
          | inl found => rw [hx] at h; exact h
          | inr s =>
            obtain ⟨q2, vis2⟩ := s
            rw [hx] at h
            exact ih q2 vis2 r h f2 (by omega)

theorem expandLadder_counts (e : Word) (cur : List Word) (last : Word) :
    ∀ (wl2 : List Word) (q : List (List Word)) (vis : List Word) (q2 : List (List Word))
      (vis2 : List Word), expandLadder e cur last wl2 q vis = Sum.inr (q2, vis2) →
        vis.Nodup →
          vis2.Nodup ∧ q2.length + vis.length = q.length + vis2.length ∧
            ∀ x ∈ vis2, x ∈ vis ∨ x ∈ wl2 := by
  intro wl2
  induction wl2 with
  | nil =>
    intro q vis q2 vis2 h hnd
    simp only [expandLadder, Sum.inr.injEq, Prod.mk.injEq] at h
    obtain ⟨rfl, rfl⟩ := h
    exact ⟨hnd, rfl, fun x hx => Or.inl hx⟩
  | cons w rest ih =>
    intro q vis q2 vis2 h hnd
    rw [expandLadder] at h
    by_cases hc : (is_adjacent last w && !(vis.contains w)) = true
    · rw [if_pos hc] at h
      have hnv : w ∉ vis := by
        simp only [Bool.and_eq_true] at hc
        have := hc.2
        simpa using this
      by_cases hwe : w = e
      · simp only [hwe, if_true] at h
        exact absurd h (by simp)
      · simp only [hwe, if_false] at h
        obtain ⟨a1, a2, a3⟩ := ih _ _ _ _ h (List.nodup_cons.mpr ⟨hnv, hnd⟩)
        refine ⟨a1, ?_, ?_⟩
        · simp only [List.length_append, List.length_singleton, List.length_cons,
            List.length_nil] at a2
          omega
        · intro x hx
          rcases a3 x hx with h1 | h1
          · rcases List.mem_cons.mp h1 with rfl | h2
            · exact Or.inr (List.mem_cons_self _ _)
            · exact Or.inl h2
          · exact Or.inr (List.mem_cons_of_mem _ h1)
    · rw [if_neg hc] at h
      obtain ⟨a1, a2, a3⟩ := ih _ _ _ _ h hnd
      exact ⟨a1, a2, fun x hx => (a3 x hx).imp id (List.mem_cons_of_mem _)⟩

/-- After `k` passes the visited set holds each word once, every ladder ever enqueued
corresponds to one visited word, and the visited words are `begin_word` or dictionary
words. -/
theorem ladderRun_counts (b e : Word) (wl : List Word) :
    ∀ (k : Nat) (q : List (List Word)) (vis : List Word) (q2 : List (List Word))
      (vis2 : List Word) (k0 : Nat), ladderRun e wl k (q, vis) = some (q2, vis2) →
        vis.Nodup → k0 + q.length = vis.length → (∀ x ∈ vis, x = b ∨ x ∈ wl) →
          vis2.Nodup ∧ (k0 + k) + q2.length = vis2.length ∧ ∀ x ∈ vis2, x = b ∨ x ∈ wl := by
  intro k
  induction k with
  | zero =>
    intro q vis q2 vis2 k0 h hnd hc hs
    simp only [ladderRun, Option.some.injEq, Prod.mk.injEq] at h
    obtain ⟨rfl, rfl⟩ := h
    exact ⟨hnd, hc, hs⟩
  | succ k ih =>
    intro q vis q2 vis2 k0 h hnd hc hs
    rw [ladderRun] at h
    cases hi : ladderIter e wl (q, vis) with
    | none => rw [hi] at h; simp at h
    | some s =>
      obtain ⟨q1, vis1⟩ := s
      rw [hi] at h
      simp only [Option.some_bind] at h
      cases q with
      | nil => simp [ladderIter] at hi
      | cons cur rest =>
        rw [ladderIter] at hi
        cases hl : cur.getLast? with
        | none => rw [hl] at hi; simp at hi
        | some last =>
          rw [hl] at hi
          simp only at hi
          by_cases he : last = e
          · rw [if_pos he] at hi; simp at hi
          · rw [if_neg he] at hi
            cases hx : expandLadder e cur last wl rest vis with
            | inl found => rw [hx] at hi; simp at hi
            | inr s2 =>
              rw [hx] at hi
              simp only [Option.some.injEq] at hi
              subst hi
              obtain ⟨a1, a2, a3⟩ := expandLadder_counts e cur last wl rest vis q1 vis1 hx hnd
              have := ih q1 vis1 q2 vis2 (k0 + 1) h a1
                (by simp only [List.length_cons] at hc; omega)
                (fun x hx2 => (a3 x hx2).elim (hs x) Or.inr)
              obtain ⟨b1, b2, b3⟩ := this
              exact ⟨b1, by omega, b3⟩

/-- Claim C12. For every word `w` and every dictionary, `generate_word_ladder(w, w, ...)`
returns exactly the one-element sequence `[w]`. -/
theorem C12_generate_word_ladder_same_word (w : Word) (word_list : List Word) :
    generate_word_ladder w w word_list = some [w] := by
  simp [generate_word_ladder]

/-- Claim C14. For `begin_word != end_word` the search returns the empty sequence whenever
the dictionary is empty, whenever `end_word` is not in the dictionary, and whenever no
dictionary word other than `begin_word` itself is adjacent to `begin_word`. -/
theorem C14_generate_word_ladder_degenerate (begin_word end_word : Word)
    (word_list : List Word) (hne : begin_word ≠ end_word)
    (h : word_list = [] ∨ end_word ∉ word_list ∨
      ∀ w ∈ word_list, w ≠ begin_word → is_adjacent begin_word w = false) :
    generate_word_ladder begin_word end_word word_list = some [] := by
  obtain ⟨r, hr, hpost⟩ := generate_word_ladder_spec begin_word end_word word_list
  rcases hpost with ⟨rfl, _⟩ | ⟨⟨h1, h2, h3, h4⟩, hnd, _⟩
  · exact hr
  · exfalso
    cases r with
    | nil => simp at h1
    | cons x r =>
      simp only [List.head?_cons, Option.some.injEq] at h1
      subst h1
      cases r with
      | nil =>
        simp only [List.getLast?_singleton, Option.some.injEq] at h2
        exact hne h2
      | cons y r =>
        have hy : y ∈ word_list := h3 y (by simp)
        have he : end_word ∈ word_list := by
          apply h3
          rw [List.getLast?_cons_cons] at h2
          exact List.mem_of_getLast?_eq_some h2
        have hadj : is_adjacent x y = true := by
          have := List.chain'_cons.mp h4
          exact this.1
        have hyx : y ≠ x := by
          intro e1
          have := (List.nodup_cons.mp hnd).1
          exact this (by simp [e1])
        rcases h with h | h | h
        · rw [h] at hy; simp at hy
        · exact h he
        · have := h y hy hyx
          rw [this] at hadj
          exact absurd hadj (by simp)

/-- Claim C14 at the words abc and xyz with the empty dictionary: the result is `[]`. -/
theorem C14_generate_word_ladder_degenerate_witness :
    ("abc".toList ≠ "xyz".toList ∧
        (([] : List Word) = [] ∨ "xyz".toList ∉ ([] : List Word) ∨
          ∀ w ∈ ([] : List Word), w ≠ "abc".toList → is_adjacent "abc".toList w = false)) ∧
      generate_word_ladder "abc".toList "xyz".toList [] = some [] :=
  ⟨⟨by decide, Or.inl rfl⟩,
    C14_generate_word_ladder_degenerate "abc".toList "xyz".toList [] (by decide)
      (Or.inl rfl)⟩

/-- Claim C18. `generate_word_ladder` terminates: the `while` loop returns within
`|word_list| + 1` dequeues (and more allowed iterations give the same result). After any
number `k` of passes of the loop body, every word has been inserted into `visited` at
most once, the number of ladders enqueued so far (the `k` dequeued and those still in the
queue) is the number of visited words, and that number is at most `|word_list| + 1`. -/
theorem C18_generate_word_ladder_terminates (begin_word end_word : Word)
    (word_list : List Word) :
    (∃ r, generate_word_ladder begin_word end_word word_list = some r ∧
      ∀ fuel, word_list.length + 1 ≤ fuel →
        ladderLoop end_word word_list fuel [[begin_word]] [begin_word] = some r) ∧
    ∀ k q vis, ladderRun end_word word_list k ([[begin_word]], [begin_word]) = some (q, vis) →
      vis.Nodup ∧ k + q.length = vis.length ∧ vis.length ≤ word_list.length + 1 := by
  constructor
  · by_cases hbe : begin_word = end_word
    · subst hbe
      refine ⟨[begin_word], by simp [generate_word_ladder], ?_⟩
      intro fuel hf
      obtain ⟨f, rfl⟩ : ∃ f, fuel = f + 1 := ⟨fuel - 1, by omega⟩
      simp [ladderLoop]
    · obtain ⟨r, hr, _⟩ := generate_word_ladder_spec begin_word end_word word_list
      refine ⟨r, hr, ?_⟩
      intro fuel hf
      unfold generate_word_ladder at hr
      rw [if_neg hbe] at hr
      exact ladderLoop_mono end_word word_list _ _ _ r hr fuel hf
  · intro k q vis h
    obtain ⟨a1, a2, a3⟩ := ladderRun_counts begin_word end_word word_list k
      [[begin_word]] [begin_word] q vis 0 h (by simp) (by simp) (by simp)
    refine ⟨a1, by omega, ?_⟩
    have hsub : vis ⊆ begin_word :: word_list := by
      intro x hx
      rcases a3 x hx with rfl | h1
      · exact List.mem_cons_self _ _
      · exact List.mem_cons_of_mem _ h1
    have := (List.subperm_of_subset a1 hsub).length_le
    simpa using this

end Ladder

/-! ## Theorems: `dijkstra_shortest_path` and `extract_shortest_path` -/

namespace Dijkstra

theorem getD_set_self {α : Type} (l : List α) (v : Nat) (a d : α) (h : v < l.length) :
    (l.set v a).getD v d = a := by
  simp [List.getD_eq_getElem?_getD, h]

theorem getD_set_of_ne {α : Type} (l : List α) (v x : Nat) (a d : α) (h : v ≠ x) :
    (l.set v a).getD x d = l.getD x d := by
  simp [List.getD_eq_getElem?_getD, List.getElem?_set_ne h]

theorem mem_edgesFrom {G : Graph} {u : Nat} {e : Edge} (h : e ∈ G.edgesFrom u) :
    u < G.numVertices ∧ ∃ es ∈ G.adj, e ∈ es := by
  unfold Graph.edgesFrom at h
  unfold Graph.numVertices
  by_cases hu : u < G.adj.length
  · rw [List.getD_eq_getElem _ _ hu] at h
    exact ⟨hu, _, List.getElem_mem hu, h⟩
  · rw [List.getD_eq_default _ _ (by omega)] at h
    simp at h

theorem nonNegWeights_of_all {G : Graph} (h : ∀ es ∈ G.adj, ∀ e ∈ es, 0 ≤ e.weight) :
    NonNegWeights G := by
  intro u e he
  obtain ⟨_, es, hes, hees⟩ := mem_edgesFrom he
  exact h es hes e hees

theorem dstInRange_of_all {G : Graph} (h : ∀ es ∈ G.adj, ∀ e ∈ es, e.dst < G.adj.length) :
    DstInRange G := by
  intro u e he
  obtain ⟨_, es, hes, hees⟩ := mem_edgesFrom he
  exact h es hes e hees

/-! ### Paths -/

theorem pathTo_ne_nil {G : Graph} {s : Nat} {l : List Nat} {w : Int} (h : PathTo G s l w) :
    l ≠ [] := by
  cases h <;> simp

theorem pathTo_lt {G : Graph} {s : Nat} (hs : s < G.numVertices) (hr : DstInRange G)
    {l : List Nat} {w : Int} (h : PathTo G s l w) : ∀ x ∈ l, x < G.numVertices := by
  induction h with
  | single => intro x hx; simp at hx; subst hx; exact hs
  | snoc hp he ih =>
    intro x hx
    rcases List.mem_cons.mp hx with rfl | hx
    · exact hr _ _ he
    · exact ih x hx

theorem pathTo_nonneg {G : Graph} {s : Nat} (hn : NonNegWeights G)
    {l : List Nat} {w : Int} (h : PathTo G s l w) : 0 ≤ w := by
  induction h with
  | single => exact le_rfl
  | snoc hp he ih => have := hn _ _ he; omega

theorem pathTo_getLast {G : Graph} {s : Nat} {l : List Nat} {w : Int} (h : PathTo G s l w) :
    l.getLast? = some s := by
  induction h with
  | single => rfl
  | snoc hp he ih => rw [List.getLast?_cons_cons]; exact ih

/-- The start vertex occurs on a path only as its last entry when no vertex repeats. -/
theorem pathTo_single_of_head {G : Graph} {s : Nat} {p : List Nat} {w : Int}
    (h : PathTo G s (s :: p) w) (hnd : (s :: p).Nodup) : p = [] := by
  have hl := pathTo_getLast h
  cases p with
  | nil => rfl
  | cons a p =>
    exfalso
    rw [List.getLast?_cons_cons] at hl
    have : s ∈ a :: p := List.mem_of_getLast?_eq_some hl
    exact (List.nodup_cons.mp hnd).1 this

theorem pathTo_edge {G : Graph} {s v u : Nat} {p : List Nat} {w : Int}
    (h : PathTo G s (v :: u :: p) w) : ∃ e ∈ G.edgesFrom u, e.dst = v := by
  cases h with
  | snoc hp he => exact ⟨_, he, rfl⟩

theorem isWeightedPath_snoc {G : Graph} {q : List Nat} {w : Int} (h : IsWeightedPath G q w)
    {b : Nat} (hb : q.getLast? = some b) {e : Edge} (he : e ∈ G.edgesFrom b) :
    IsWeightedPath G (q ++ [e.dst]) (w + e.weight) := by
  induction h with
  | single v =>
    simp at hb
    subst hb
    have := IsWeightedPath.cons he (IsWeightedPath.single e.dst)
    simpa using this
  | @cons a rest w2 e2 he2 hrest ih =>
    rw [List.getLast?_cons_cons] at hb
    have h2 := IsWeightedPath.cons he2 (ih hb)
    have e3 : e2.weight + (w2 + e.weight) = e2.weight + w2 + e.weight := by ring
    rw [e3] at h2
    exact h2

theorem pathTo_isWeightedPath {G : Graph} {s : Nat} {l : List Nat} {w : Int}
    (h : PathTo G s l w) : IsWeightedPath G l.reverse w := by
  induction h with
  | single => exact IsWeightedPath.single s
  | @snoc b p w e hp he ih =>
    have hb : (b :: p).reverse.getLast? = some b := by simp
    have := isWeightedPath_snoc ih hb he
    simpa using this

/-! ### The priority queue -/

theorem extractMin_spec (x : Node) (xs : List Node) :
    (x :: xs).Perm ((extractMin x xs).1 :: (extractMin x xs).2) ∧
      ∀ y ∈ x :: xs, (extractMin x xs).1.distance ≤ y.distance := by
  induction xs generalizing x with
  | nil => simp [extractMin]
  | cons y ys ih =>
    obtain ⟨h1, h2⟩ := ih y
    rw [extractMin]
    by_cases hc : x.distance ≤ (extractMin y ys).1.distance
    · simp only [hc, if_true]
      refine ⟨List.Perm.refl _, ?_⟩
      intro z hz
      rcases List.mem_cons.mp hz with rfl | hz
      · exact le_rfl
      · exact le_trans hc (h2 z hz)
    · simp only [hc, if_false]
      refine ⟨?_, ?_⟩
      · exact (List.Perm.cons x h1).trans (List.Perm.swap _ _ _)
      · intro z hz
        rcases List.mem_cons.mp hz with rfl | hz
        · omega
        · exact h2 z hz

theorem listQueue_valid : listQueue.Valid := by
  refine ⟨?_, rfl, ?_⟩
  · intro q x
    show (q ++ [x]).Perm (x :: q)
    exact List.perm_append_singleton x q
  · intro q hq
    cases q with
    | nil => exact absurd rfl hq
    | cons x xs =>
      exact ⟨_, _, rfl, (extractMin_spec x xs).1, (extractMin_spec x xs).2⟩

theorem treePath_set {previous : List Int} {s : Nat} {l : List Nat} (h : TreePath previous s l)
    (v : Nat) (a : Int) (hv : v ∉ l) : TreePath (previous.set v a) s l := by
  induction h with
  | root h0 =>
    apply TreePath.root
    rw [getD_set_of_ne]
    · exact h0
    · intro e; subst e; simp at hv
  | @step x u p hx hp ih =>
    apply TreePath.step
    · rw [getD_set_of_ne]
      · exact hx
      · intro e; subst e; simp at hv
    · exact ih (fun hm => hv (List.mem_cons_of_mem _ hm))


/-! ### One relaxation step -/

theorem mem_push {P : PriorityQueue} (hP : P.Valid) (q : List Node) (x y : Node) :
    y ∈ P.push q x ↔ y = x ∨ y ∈ q := by
  rw [(hP.1 q x).mem_iff, List.mem_cons]

/-- The tree path of a visited vertex, extended by an edge to a vertex not yet visited,
is a path without repeated vertices, so its weight is below `INF`. -/
theorem dinv_extend {P : PriorityQueue} {INF : Int} {G : Graph} {s : Nat}
    (H : Setting P INF G s) {st : State} {u : Nat} {pending : List Edge}
    (h : DInv INF G s st u pending) {x : Nat} (hx : x < G.numVertices) (hseen : st.seen x)
    {e : Edge} (he : e ∈ G.edgesFrom x) (hv : ¬ st.seen e.dst) :
    ∃ p, TreePath st.previous s (x :: p) ∧ (e.dst :: x :: p).Nodup ∧
      (∀ y ∈ x :: p, y < G.numVertices ∧ st.seen y) ∧
      PathTo G s (e.dst :: x :: p) (st.dist x + e.weight) ∧ st.dist x + e.weight < INF ∧
      0 ≤ st.dist x := by
  obtain ⟨p, hp1, hp2, hp3, hp4⟩ := h.tree x hx (h.final x hx hseen).1
  have hall : ∀ y ∈ x :: p, y < G.numVertices ∧ st.seen y := by
    intro y hy
    rcases List.mem_cons.mp hy with rfl | hy
    · exact ⟨hx, hseen⟩
    · exact hp3 y hy
  have hnd : (e.dst :: x :: p).Nodup := by
    rw [List.nodup_cons]
    exact ⟨fun hm => hv (hall _ hm).2, hp2⟩
  have hpath := PathTo.snoc hp4 he
  exact ⟨p, hp1, hnd, hall, hpath, H.below _ _ hpath hnd, pathTo_nonneg H.nonneg hp4⟩

theorem dinv_relax_skip {P : PriorityQueue} {INF : Int} {G : Graph} {s : Nat}
    (H : Setting P INF G s) {st : State} {u : Nat} {e : Edge} {rest : List Edge}
    (h : DInv INF G s st u (e :: rest)) (hu : u < G.numVertices) (hseen : st.seen u)
    (he : e ∈ G.edgesFrom u)
    (hc : st.seen e.dst ∨ ¬ (st.dist u + e.weight < st.dist e.dst)) :
    DInv INF G s st u rest := by
  have hv : e.dst < G.numVertices := H.inRange u e he
  have hrel : st.dist e.dst ≤ st.dist u + e.weight ∧ st.dist e.dst < INF := by
    by_cases hsv : st.seen e.dst
    · obtain ⟨f1, f2⟩ := h.final e.dst hv hsv
      obtain ⟨p, _, _, _, hp4⟩ := h.tree u hu (h.final u hu hseen).1
      exact ⟨f2 _ _ (PathTo.snoc hp4 he), f1⟩
    · have hnlt : ¬ (st.dist u + e.weight < st.dist e.dst) := by
        rcases hc with hc | hc
        · exact absurd hc hsv
        · exact hc
      obtain ⟨p, _, _, _, _, hlt, _⟩ := dinv_extend H h hu hseen he hsv
      constructor <;> omega
  refine ⟨h.len_d, h.len_p, h.len_v, h.src, h.pq_ok, h.le_inf, h.unreached, h.tree, h.final,
    ?_, h.frontier⟩
  intro x hx hxs e2 he2
  rcases h.relaxed x hx hxs e2 he2 with ⟨hxu, hmem⟩ | hr
  · rcases List.mem_cons.mp hmem with rfl | hmem
    · subst hxu; exact Or.inr hrel
    · exact Or.inl ⟨hxu, hmem⟩
  · exact Or.inr hr

theorem dinv_relax_update {P : PriorityQueue} {INF : Int} {G : Graph} {s : Nat}
    (H : Setting P INF G s) {st : State} {u : Nat} {e : Edge} {rest : List Edge}
    (h : DInv INF G s st u (e :: rest)) (hu : u < G.numVertices) (hseen : st.seen u)
    (he : e ∈ G.edgesFrom u) (hsv : ¬ st.seen e.dst)
    (hlt : st.dist u + e.weight < st.dist e.dst) :
    DInv INF G s (relaxState P st u e) u rest := by
  have hv : e.dst < G.numVertices := H.inRange u e he
  obtain ⟨pu, hpu1, hpu2, hpu3, hpu4, hbelow, hd0⟩ := dinv_extend H h hu hseen he hsv
  have hw0 : 0 ≤ e.weight := H.nonneg u e he
  have hvs : e.dst ≠ s := by
    intro e1
    have := h.src.1
    rw [e1] at hlt
    omega
  have hdv : ∀ x, x ≠ e.dst → (relaxState P st u e).dist x = st.dist x :=
    fun x hx => getD_set_of_ne _ _ _ _ _ (Ne.symm hx)
  have hdv2 : (relaxState P st u e).dist e.dst = st.dist u + e.weight :=
    getD_set_self _ _ _ _ (by rw [h.len_d]; exact hv)
  have hpv : ∀ x, x ≠ e.dst → (relaxState P st u e).prev x = st.prev x :=
    fun x hx => getD_set_of_ne _ _ _ _ _ (Ne.symm hx)
  have hle : ∀ x, (relaxState P st u e).dist x ≤ st.dist x := by
    intro x
    by_cases hx : x = e.dst
    · subst hx; rw [hdv2]; omega
    · rw [hdv x hx]
  have hseen_ne : ∀ x, st.seen x → x ≠ e.dst := fun x hx e1 => hsv (e1 ▸ hx)
  have hpq : ∀ y, y ∈ (relaxState P st u e).pq ↔
      y = (⟨e.dst, st.dist u + e.weight⟩ : Node) ∨ y ∈ st.pq := fun y => mem_push H.valid _ _ _
  refine ⟨?_, ?_, h.len_v, ?_, ?_, ?_, ?_, ?_, ?_, ?_, ?_⟩
  · simp [relaxState, h.len_d]
  · simp [relaxState, h.len_p]
  · exact ⟨by rw [hdv s (Ne.symm hvs)]; exact h.src.1,
      by rw [hpv s (Ne.symm hvs)]; exact h.src.2⟩
  · intro x hx
    rcases (hpq x).mp hx with rfl | hx
    · exact ⟨hv, by rw [hdv2], hbelow⟩
    · obtain ⟨a1, a2, a3⟩ := h.pq_ok x hx
      exact ⟨a1, le_trans (hle _) a2, a3⟩
  · intro x hx
    exact le_trans (hle x) (h.le_inf x hx)
  · intro x hx hxd
    have hxv : x ≠ e.dst := by
      intro e1; subst e1; rw [hdv2] at hxd
      have := h.le_inf e.dst hv; omega
    rw [hdv x hxv] at hxd
    obtain ⟨a1, a2⟩ := h.unreached x hx hxd
    exact ⟨by rw [hpv x hxv]; exact a1, a2⟩
  · intro x hx hxd
    by_cases hxv : x = e.dst
    · subst hxv
      refine ⟨u :: pu, ?_, hpu2, hpu3, ?_⟩
      · apply TreePath.step
        · exact getD_set_self _ _ _ _ (by rw [h.len_p]; exact hv)
        · exact treePath_set hpu1 _ _ (List.nodup_cons.mp hpu2).1
      · rw [hdv2]; exact hpu4
    · rw [hdv x hxv] at hxd ⊢
      obtain ⟨p, a1, a2, a3, a4⟩ := h.tree x hx hxd
      refine ⟨p, treePath_set a1 _ _ ?_, a2, a3, a4⟩
      intro hm
      rcases List.mem_cons.mp hm with e1 | hm
      · exact hxv e1.symm
      · exact hsv (a3 _ hm).2
  · intro x hx hxs
    have hxs2 : st.seen x := hxs
    rw [hdv x (hseen_ne x hxs2)]
    exact h.final x hx hxs2
  · intro x hx hxs e2 he2
    have hxs2 : st.seen x := hxs
    rw [hdv x (hseen_ne x hxs2)]
    rcases h.relaxed x hx hxs2 e2 he2 with ⟨hxu, hmem⟩ | hr
    · rcases List.mem_cons.mp hmem with rfl | hmem
      · subst hxu
        right
        rw [hdv2]
        exact ⟨le_rfl, by have := h.le_inf e2.dst hv; omega⟩
      · exact Or.inl ⟨hxu, hmem⟩
    · right
      have := hle e2.dst
      constructor <;> omega
  · intro x hx hxs hxd
    have hxs2 : ¬ st.seen x := hxs
    rw [hpq]
    by_cases hxv : x = e.dst
    · subst hxv
      left
      rw [hdv2]
    · right
      rw [hdv x hxv] at hxd ⊢
      exact h.frontier x hx hxs2 hxd


theorem relaxEdges_cons (P : PriorityQueue) (u : Nat) (e : Edge) (rest : List Edge)
    (st : State) :
    relaxEdges P u (e :: rest) st =
      if (!(st.visited.getD e.dst false) &&
          decide (st.dist u + e.weight < st.dist e.dst)) = true then
        relaxEdges P u rest
          { distances := st.distances.set e.dst (st.dist u + e.weight)
            previous := st.previous.set e.dst (u : Int)
            visited := st.visited
            pq := P.push st.pq
              ⟨e.dst, (st.distances.set e.dst (st.dist u + e.weight)).getD e.dst 0⟩ }
      else relaxEdges P u rest st := rfl

theorem dinv_relaxEdges {P : PriorityQueue} {INF : Int} {G : Graph} {s : Nat}
    (H : Setting P INF G s) {u : Nat} (hu : u < G.numVertices) :
    ∀ (es : List Edge) (st : State), (∀ e ∈ es, e ∈ G.edgesFrom u) → st.seen u →
      DInv INF G s st u es →
        DInv INF G s (relaxEdges P u es st) u [] ∧
          (relaxEdges P u es st).visited = st.visited ∧
          (relaxEdges P u es st).pq.length ≤ st.pq.length + es.length := by
  intro es
  induction es with
  | nil => intro st _ _ h; exact ⟨h, rfl, le_rfl⟩
  | cons e rest ih =>
    intro st hes hseen h
    have he : e ∈ G.edgesFrom u := hes e (List.mem_cons_self _ _)
    have hrest : ∀ e2 ∈ rest, e2 ∈ G.edgesFrom u :=
      fun e2 h2 => hes e2 (List.mem_cons_of_mem _ h2)
    have hv : e.dst < G.numVertices := H.inRange u e he
    rw [relaxEdges_cons]
    by_cases hc : (!(st.visited.getD e.dst false) &&
        decide (st.dist u + e.weight < st.dist e.dst)) = true
    · rw [if_pos hc]
      simp only [Bool.and_eq_true, Bool.not_eq_true', decide_eq_true_eq] at hc
      have hsv : ¬ st.seen e.dst := by
        unfold State.seen; rw [hc.1]; simp
      have e1 : (st.distances.set e.dst (st.dist u + e.weight)).getD e.dst 0 =
          st.dist u + e.weight := getD_set_self _ _ _ _ (by rw [h.len_d]; exact hv)
      rw [e1]
      have hnew := dinv_relax_update H h hu hseen he hsv hc.2
      obtain ⟨a1, a2, a3⟩ := ih (relaxState P st u e) hrest hseen hnew
      refine ⟨a1, a2, ?_⟩
      have hl : (relaxState P st u e).pq.length = st.pq.length + 1 := by
        have := (H.valid.1 st.pq ⟨e.dst, st.dist u + e.weight⟩).length_eq
        simpa [relaxState] using this
      have a4 : (relaxEdges P u rest (relaxState P st u e)).pq.length ≤
          (relaxState P st u e).pq.length + rest.length := a3
      rw [hl] at a4
      simp only [List.length_cons]
      unfold relaxState at a4
      omega
    · rw [if_neg hc]
      have hc2 : st.seen e.dst ∨ ¬ (st.dist u + e.weight < st.dist e.dst) := by
        simp only [Bool.and_eq_true, Bool.not_eq_true', decide_eq_true_eq, not_and] at hc
        by_cases hsv : st.visited.getD e.dst false = true
        · exact Or.inl hsv
        · right
          apply hc
          simpa using hsv
      have hnew := dinv_relax_skip H h hu hseen he hc2
      obtain ⟨a1, a2, a3⟩ := ih st hrest hseen hnew
      refine ⟨a1, a2, ?_⟩
      simp only [List.length_cons]
      omega

/-! ### Popping a vertex -/

/-- Every path to a vertex not yet visited weighs at least as much as the distance of
some unvisited vertex that is in the queue. -/
theorem dinv_lower_bound {P : PriorityQueue} {INF : Int} {G : Graph} {s : Nat}
    (H : Setting P INF G s) {st : State} {a : Nat} (h : DInv INF G s st a []) :
    ∀ (l : List Nat) (w : Int), PathTo G s l w → ∀ y p, l = y :: p → ¬ st.seen y →
      ∃ z, z < G.numVertices ∧ ¬ st.seen z ∧ st.dist z < INF ∧ st.dist z ≤ w := by
  intro l w hp
  induction hp with
  | single =>
    intro y p hl hy
    have hys : y = s := by simp at hl; exact hl.1.symm
    subst hys
    have h0 : (0 : Int) < INF := H.below [y] 0 PathTo.single (by simp)
    exact ⟨y, H.source_lt, hy, by rw [h.src.1]; exact h0, by rw [h.src.1]⟩
  | @snoc b q w e hq he ih =>
    intro y p hl hy
    have hw0 : 0 ≤ e.weight := H.nonneg b e he
    have hb : b < G.numVertices :=
      pathTo_lt H.source_lt H.inRange hq b (List.mem_cons_self _ _)
    have hyd : y = e.dst := by simp at hl; exact hl.1.symm
    subst hyd
    by_cases hbs : st.seen b
    · rcases h.relaxed b hb hbs e he with ⟨_, hm⟩ | ⟨r1, r2⟩
      · simp at hm
      · have := (h.final b hb hbs).2 q w hq
        exact ⟨e.dst, H.inRange b e he, hy, r2, by omega⟩
    · obtain ⟨z, z1, z2, z3, z4⟩ := ih b q rfl hbs
      exact ⟨z, z1, z2, z3, by omega⟩

theorem pop_spec {P : PriorityQueue} (hP : P.Valid) {q r : List Node} {x : Node}
    (h : P.pop q = some (x, r)) : q.Perm (x :: r) ∧ ∀ y ∈ q, x.distance ≤ y.distance := by
  have hq : q ≠ [] := by
    intro e; subst e; rw [hP.2.1] at h; exact absurd h (by simp)
  obtain ⟨x2, r2, h1, h2, h3⟩ := hP.2.2 q hq
  rw [h] at h1
  simp only [Option.some.injEq, Prod.mk.injEq] at h1
  obtain ⟨rfl, rfl⟩ := h1
  exact ⟨h2, h3⟩

theorem pop_none {P : PriorityQueue} (hP : P.Valid) {q : List Node} (h : P.pop q = none) :
    q = [] := by
  by_contra hq
  obtain ⟨x2, r2, h1, _, _⟩ := hP.2.2 q hq
  rw [h] at h1
  exact absurd h1 (by simp)

theorem dinv_pending_irrelevant {INF : Int} {G : Graph} {s : Nat} {st : State} {a : Nat}
    (h : DInv INF G s st a []) (b : Nat) : DInv INF G s st b [] := by
  refine ⟨h.len_d, h.len_p, h.len_v, h.src, h.pq_ok, h.le_inf, h.unreached, h.tree, h.final,
    ?_, h.frontier⟩
  intro x hx hxs e he
  rcases h.relaxed x hx hxs e he with ⟨_, hm⟩ | hr
  · simp at hm
  · exact Or.inr hr

theorem dinv_pop_seen {P : PriorityQueue} {INF : Int} {G : Graph} {s : Nat}
    (H : Setting P INF G s) {st : State} {a : Nat} (h : DInv INF G s st a [])
    {cur : Node} {pq : List Node} (hpop : P.pop st.pq = some (cur, pq))
    (hseen : st.seen cur.vertex) :
    DInv INF G s { st with pq := pq } a [] := by
  obtain ⟨hperm, _⟩ := pop_spec H.valid hpop
  have hsub : ∀ y ∈ pq, y ∈ st.pq := fun y hy => hperm.mem_iff.mpr (List.mem_cons_of_mem _ hy)
  refine ⟨h.len_d, h.len_p, h.len_v, h.src, ?_, h.le_inf, h.unreached, h.tree, h.final,
    h.relaxed, ?_⟩
  · intro x hx; exact h.pq_ok x (hsub x hx)
  · intro v hv hvs hvd
    have hm := h.frontier v hv hvs hvd
    rcases List.mem_cons.mp (hperm.mem_iff.mp hm) with e1 | hm2
    · exfalso; apply hvs
      have : cur.vertex = v := by rw [← e1]
      rw [← this]; exact hseen
    · exact hm2

theorem dinv_pop_unseen {P : PriorityQueue} {INF : Int} {G : Graph} {s : Nat}
    (H : Setting P INF G s) {st : State} {a : Nat} (h : DInv INF G s st a [])
    {cur : Node} {pq : List Node} (hpop : P.pop st.pq = some (cur, pq))
    (hns : ¬ st.seen cur.vertex) :
    DInv INF G s { st with visited := st.visited.set cur.vertex true, pq := pq }
      cur.vertex (G.edgesFrom cur.vertex) ∧ cur.vertex < G.numVertices := by
  obtain ⟨hperm, hmin⟩ := pop_spec H.valid hpop
  have hsub : ∀ y ∈ pq, y ∈ st.pq := fun y hy => hperm.mem_iff.mpr (List.mem_cons_of_mem _ hy)
  have hcur : cur ∈ st.pq := hperm.mem_iff.mpr (List.mem_cons_self _ _)
  obtain ⟨hu, hcd, hcinf⟩ := h.pq_ok cur hcur
  have hdinf : st.dist cur.vertex < INF := by omega
  have hcm := hmin _ (h.frontier cur.vertex hu hns hdinf)
  have hdeq : cur.distance = st.dist cur.vertex := by
    simp only at hcm; omega
  have hseen_iff : ∀ x, (st.visited.set cur.vertex true).getD x false = true ↔
      x = cur.vertex ∨ st.seen x := by
    intro x
    by_cases hx : x = cur.vertex
    · subst hx
      rw [getD_set_self _ _ _ _ (by rw [h.len_v]; exact hu)]
      simp
    · rw [getD_set_of_ne _ _ _ _ _ (Ne.symm hx)]
      unfold State.seen
      simp [hx]
  refine ⟨⟨h.len_d, h.len_p, by simp [h.len_v], h.src, ?_, h.le_inf, ?_, ?_, ?_, ?_, ?_⟩, hu⟩
  · intro x hx; exact h.pq_ok x (hsub x hx)
  · intro v hv hvd
    obtain ⟨a1, a2⟩ := h.unreached v hv hvd
    refine ⟨a1, ?_⟩
    intro hs2
    rcases (hseen_iff v).mp hs2 with e1 | hs3
    · subst e1
      have : st.dist cur.vertex = INF := hvd
      omega
    · exact a2 hs3
  · intro v hv hvd
    obtain ⟨p, a1, a2, a3, a4⟩ := h.tree v hv hvd
    exact ⟨p, a1, a2, fun x hx => ⟨(a3 x hx).1, (hseen_iff x).mpr (Or.inr (a3 x hx).2)⟩, a4⟩
  · intro x hx hxs
    rcases (hseen_iff x).mp hxs with e1 | hs3
    · subst e1
      refine ⟨hdinf, ?_⟩
      intro p w hp
      obtain ⟨z, z1, z2, z3, z4⟩ := dinv_lower_bound H h _ w hp cur.vertex p rfl hns
      have := hmin _ (h.frontier z z1 z2 z3)
      have hd2 : st.dist cur.vertex ≤ w := by simp only at this; omega
      exact hd2
    · exact h.final x hx hs3
  · intro x hx hxs e he
    rcases (hseen_iff x).mp hxs with e1 | hs3
    · subst e1
      exact Or.inl ⟨rfl, he⟩
    · rcases h.relaxed x hx hs3 e he with ⟨_, hm⟩ | hr
      · simp at hm
      · exact Or.inr hr
  · intro v hv hvs hvd
    have hvs2 : ¬ st.seen v := fun hs3 => hvs ((hseen_iff v).mpr (Or.inr hs3))
    have hvne : v ≠ cur.vertex := fun e1 => hvs ((hseen_iff v).mpr (Or.inl e1))
    have hm := h.frontier v hv hvs2 hvd
    rcases List.mem_cons.mp (hperm.mem_iff.mp hm) with e1 | hm2
    · exfalso; apply hvne
      rw [← e1]
    · exact hm2


/-! ### Termination and the result of the loop -/

theorem unvisitedEdges_replicate (adj : List (List Edge)) :
    unvisitedEdges adj (List.replicate adj.length false) = (adj.map List.length).sum := by
  induction adj with
  | nil => simp [unvisitedEdges]
  | cons es adj ih =>
    simp only [List.length_cons, List.replicate_succ, unvisitedEdges, List.map_cons,
      List.sum_cons, ih]
    simp

theorem unvisitedEdges_set (adj : List (List Edge)) :
    ∀ (visited : List Bool) (u : Nat), u < adj.length → visited.length = adj.length →
      visited.getD u false = false →
        unvisitedEdges adj (visited.set u true) + (adj.getD u []).length =
          unvisitedEdges adj visited := by
  induction adj with
  | nil => intro visited u hu; simp at hu
  | cons es adj ih =>
    intro visited u hu hlen hv
    cases visited with
    | nil => simp at hlen
    | cons b visited =>
      cases u with
      | zero =>
        simp only [List.getD_cons_zero] at hv
        subst hv
        simp [unvisitedEdges]
        omega
      | succ u =>
        simp only [List.getD_cons_succ] at hv
        have := ih visited u (by simpa using hu) (by simpa using hlen) hv
        simp only [List.set_cons_succ, unvisitedEdges, List.getD_cons_succ]
        omega

theorem dijkstraLoop_spec {P : PriorityQueue} {INF : Int} {G : Graph} {s : Nat}
    (H : Setting P INF G s) :
    ∀ (fuel : Nat) (st : State), DInv INF G s st 0 [] →
      st.pq.length + unvisitedEdges G.adj st.visited ≤ fuel →
        ∃ st2, dijkstraLoop P G fuel st = some st2 ∧ DInv INF G s st2 0 [] ∧ st2.pq = [] := by
  intro fuel
  induction fuel with
  | zero =>
    intro st h hm
    have hq : st.pq = [] := List.length_eq_zero.mp (by omega)
    refine ⟨st, ?_, h, hq⟩
    unfold dijkstraLoop
    rw [hq, H.valid.2.1]
  | succ fuel ih =>
    intro st h hm
    unfold dijkstraLoop
    cases hpop : P.pop st.pq with
    | none =>
      exact ⟨st, rfl, h, pop_none H.valid hpop⟩
    | some x =>
      obtain ⟨cur, pq⟩ := x
      have hlen : st.pq.length = pq.length + 1 := by
        have := (pop_spec H.valid hpop).1.length_eq
        simpa using this
      simp only
      by_cases hseen : st.visited.getD cur.vertex false = true
      · rw [if_pos hseen]
        have hnew := dinv_pop_seen H h hpop hseen
        apply ih _ hnew
        simp only
        omega
      · rw [if_neg hseen]
        obtain ⟨hnew, hu⟩ := dinv_pop_unseen H h hpop hseen
        have hseen2 : State.seen { st with visited := st.visited.set cur.vertex true, pq := pq }
            cur.vertex := by
          unfold State.seen
          exact getD_set_self _ _ _ _ (by rw [h.len_v]; exact hu)
        obtain ⟨a1, a2, a3⟩ := dinv_relaxEdges H hu (G.edgesFrom cur.vertex) _
          (fun e he => he) hseen2 hnew
        apply ih _ (dinv_pending_irrelevant a1 0)
        rw [a2]
        have hmeas := unvisitedEdges_set G.adj st.visited cur.vertex hu h.len_v
          (by simpa using hseen)
        simp only at a3 ⊢
        unfold Graph.edgesFrom at a3 ⊢
        omega

theorem dinv_init {P : PriorityQueue} {INF : Int} {G : Graph} {s : Nat}
    (H : Setting P INF G s) : DInv INF G s (initialState P INF G s) 0 [] := by
  have h0 : (0 : Int) < INF := H.below [s] 0 PathTo.single (by simp)
  have hds : (initialState P INF G s).dist s = 0 :=
    getD_set_self _ _ _ _ (by simp; exact H.source_lt)
  have hdv : ∀ v, v < G.numVertices → v ≠ s → (initialState P INF G s).dist v = INF := by
    intro v hv hvs
    show ((List.replicate G.numVertices INF).set s 0).getD v 0 = INF
    rw [getD_set_of_ne _ _ _ _ _ (Ne.symm hvs)]
    simp [List.getD_eq_getElem?_getD, List.getElem?_replicate, hv]
  have hpv : ∀ v, v < G.numVertices → (initialState P INF G s).prev v = -1 := by
    intro v hv
    show (List.replicate G.numVertices (-1 : Int)).getD v 0 = -1
    simp [List.getD_eq_getElem?_getD, List.getElem?_replicate, hv]
  have hsv : ∀ v, ¬ (initialState P INF G s).seen v := by
    intro v
    show ¬ ((List.replicate G.numVertices false).getD v false = true)
    simp only [List.getD_eq_getElem?_getD, List.getElem?_replicate]
    split_ifs <;> simp
  have hpq : ∀ x, x ∈ (initialState P INF G s).pq ↔ x = (⟨s, 0⟩ : Node) := by
    intro x
    show x ∈ P.push [] ⟨s, 0⟩ ↔ _
    rw [mem_push H.valid]; simp
  refine ⟨?_, ?_, ?_, ⟨hds, hpv s H.source_lt⟩, ?_, ?_, ?_, ?_, ?_, ?_, ?_⟩
  · simp [initialState]
  · simp [initialState]
  · simp [initialState]
  · intro x hx
    rw [hpq] at hx
    subst hx
    exact ⟨H.source_lt, by rw [hds], h0⟩
  · intro v hv
    by_cases hvs : v = s
    · subst hvs; rw [hds]; omega
    · rw [hdv v hv hvs]
  · intro v hv _
    exact ⟨hpv v hv, hsv v⟩
  · intro v hv hvd
    have hvs : v = s := by
      by_contra hvs
      rw [hdv v hv hvs] at hvd
      omega
    subst hvs
    refine ⟨[], TreePath.root (hpv v hv), by simp, by simp, ?_⟩
    rw [hds]; exact PathTo.single
  · intro x _ hx; exact absurd hx (hsv x)
  · intro x _ hx; exact absurd hx (hsv x)
  · intro v hv _ hvd
    have hvs : v = s := by
      by_contra hvs
      rw [hdv v hv hvs] at hvd
      omega
    subst hvs
    rw [hpq, hds]

theorem init_measure {P : PriorityQueue} (hP : P.Valid) (INF : Int) (G : Graph) (s : Nat) :
    (initialState P INF G s).pq.length +
      unvisitedEdges G.adj (initialState P INF G s).visited ≤ G.numEdges + 1 := by
  have h1 : (initialState P INF G s).pq.length = 1 := by
    have := (hP.1 [] ⟨s, 0⟩).length_eq
    simpa [initialState] using this
  have h2 : unvisitedEdges G.adj (initialState P INF G s).visited = G.numEdges :=
    unvisitedEdges_replicate G.adj
  omega

/-- Under the assumptions on the inputs the algorithm returns, in a state that satisfies
the invariant with an empty queue. -/
theorem dijkstra_returns {P : PriorityQueue} {INF : Int} {G : Graph} {s : Nat}
    (H : Setting P INF G s) :
    ∃ st, dijkstra_shortest_path P INF G s = some (st.distances, st.previous) ∧
      DInv INF G s st 0 [] ∧ st.pq = [] := by
  obtain ⟨st, h1, h2, h3⟩ := dijkstraLoop_spec H (G.numEdges + 1) (initialState P INF G s)
    (dinv_init H) (init_measure H.valid INF G s)
  refine ⟨st, ?_, h2, h3⟩
  unfold dijkstra_shortest_path
  rw [h1]
  rfl

/-! ### The claims -/

theorem nodup_length_le {l : List Nat} {n : Nat} (hnd : l.Nodup) (h : ∀ x ∈ l, x < n) :
    l.length ≤ n := by
  have hsub : l.toFinset ⊆ Finset.range n := by
    intro x hx
    simp only [List.mem_toFinset] at hx
    exact Finset.mem_range.mpr (h x hx)
  have := Finset.card_le_card hsub
  rw [List.toFinset_card_of_nodup hnd, Finset.card_range] at this
  exact this

theorem extractLoop_treePath {previous : List Int} {s : Nat} :
    ∀ l, TreePath previous s l → ∀ (fuel : Nat) (acc : List Int), l.length ≤ fuel →
      ∀ v p, l = v :: p →
        extractLoop previous fuel (v : Int) acc = some (acc ++ l.map Int.ofNat) := by
  intro l h
  induction h with
  | root h0 =>
    intro fuel acc hf v p hl
    have hv : v = s := by simp at hl; exact hl.1.symm
    subst hv
    cases fuel with
    | zero => simp at hf
    | succ f =>
      unfold extractLoop
      have hne : ¬ ((v : Int) = -1) := by omega
      rw [if_neg hne]
      simp only [Int.toNat_ofNat, h0]
      unfold extractLoop
      simp
  | @step x u q hx hq ih =>
    intro fuel acc hf v p hl
    have hv : v = x := by simp at hl; exact hl.1.symm
    subst hv
    cases fuel with
    | zero => simp at hf
    | succ f =>
      unfold extractLoop
      have hne : ¬ ((v : Int) = -1) := by omega
      rw [if_neg hne]
      simp only [Int.toNat_ofNat, hx]
      rw [ih f (acc ++ [(v : Int)]) (by simpa using hf) u q rfl]
      simp

/-- In a final state every vertex at the end of a path has been visited. -/
theorem final_seen {P : PriorityQueue} {INF : Int} {G : Graph} {s : Nat}
    (H : Setting P INF G s) {st : State} (h : DInv INF G s st 0 []) (hq : st.pq = []) :
    ∀ (l : List Nat) (w : Int), PathTo G s l w → ∀ y p, l = y :: p → st.seen y := by
  intro l w hp
  induction hp with
  | single =>
    intro y p hl
    have hys : y = s := by simp at hl; exact hl.1.symm
    subst hys
    by_contra hns
    have h0 : (0 : Int) < INF := H.below [y] 0 PathTo.single (by simp)
    have := h.frontier y H.source_lt hns (by rw [h.src.1]; exact h0)
    rw [hq] at this
    simp at this
  | @snoc b q w e hq2 he ih =>
    intro y p hl
    have hyd : y = e.dst := by simp at hl; exact hl.1.symm
    subst hyd
    have hb : b < G.numVertices :=
      pathTo_lt H.source_lt H.inRange hq2 b (List.mem_cons_self _ _)
    have hbs := ih b q rfl
    by_contra hns
    rcases h.relaxed b hb hbs e he with ⟨_, hm⟩ | ⟨_, r2⟩
    · simp at hm
    · have := h.frontier e.dst (H.inRange b e he) hns r2
      rw [hq] at this
      simp at this

/-- In a final state the distance of a vertex is below `INF` exactly when the vertex is
reachable. -/
theorem final_reachable_iff {P : PriorityQueue} {INF : Int} {G : Graph} {s : Nat}
    (H : Setting P INF G s) {st : State} (h : DInv INF G s st 0 []) (hq : st.pq = [])
    {v : Nat} (hv : v < G.numVertices) : st.dist v < INF ↔ Reachable G s v := by
  constructor
  · intro hd
    obtain ⟨p, _, _, _, hp⟩ := h.tree v hv hd
    exact ⟨p, _, hp⟩
  · rintro ⟨p, w, hp⟩
    exact (h.final v hv (final_seen H h hq _ w hp v p rfl)).1

theorem reachable_lt {G : Graph} {s v : Nat} (hs : s < G.numVertices) (hr : DstInRange G)
    (h : Reachable G s v) : v < G.numVertices := by
  obtain ⟨p, w, hp⟩ := h
  exact pathTo_lt hs hr hp v (List.mem_cons_self _ _)

/-- Claim C1. For a graph with non-negative weights, edge destinations in range and path
sums below `INF`, and a source that is a vertex, `dijkstra_shortest_path` returns a vector
of `n` distances in which every reachable vertex has the least total weight of a path from
the source and every unreachable vertex has `INF`. -/
theorem C1_dijkstra_distances (P : PriorityQueue) (INF : Int) (G : Graph) (source : Nat)
    (hP : P.Valid) (hn : NonNegWeights G) (hr : DstInRange G)
    (hb : PathSumsBelow G source INF) (hs : source < G.numVertices) :
    ∃ distances previous,
      dijkstra_shortest_path P INF G source = some (distances, previous) ∧
      distances.length = G.numVertices ∧
      ∀ v, v < G.numVertices →
        (Reachable G source v → IsMinDistance G source v (distances.getD v 0)) ∧
        (¬ Reachable G source v → distances.getD v 0 = INF) := by
  have H : Setting P INF G source := ⟨hP, hn, hr, hb, hs⟩
  obtain ⟨st, h1, h2, h3⟩ := dijkstra_returns H
  refine ⟨st.distances, st.previous, h1, h2.len_d, ?_⟩
  intro v hv
  constructor
  · intro hreach
    have hd : st.dist v < INF := (final_reachable_iff H h2 h3 hv).mpr hreach
    obtain ⟨p, _, _, _, hp⟩ := h2.tree v hv hd
    obtain ⟨q, w, hq⟩ := hreach
    have hseen := final_seen H h2 h3 _ w hq v q rfl
    exact ⟨⟨p, hp⟩, (h2.final v hv hseen).2⟩
  · intro hnr
    have hle := h2.le_inf v hv
    by_contra hne
    have hd : st.dist v < INF := lt_of_le_of_ne hle hne
    exact hnr ((final_reachable_iff H h2 h3 hv).mp hd)

/-- The worked example satisfies the assumptions of the claims. -/
theorem exampleGraph_pathSums : PathSumsBelow exampleGraph 0 2147483647 := by
  have key : ∀ l w, PathTo exampleGraph 0 l w →
      (l.head? = some 0 ∧ w = 0) ∨ (l.head? = some 1 ∧ w = 1) ∨
        (l.head? = some 2 ∧ (w = 3 ∨ w = 5)) := by
    intro l w hp
    induction hp with
    | single => exact Or.inl ⟨rfl, rfl⟩
    | @snoc b q w e hq he ih =>
      simp only [List.head?_cons, Option.some.injEq] at ih ⊢
      rcases ih with ⟨rfl, rfl⟩ | ⟨rfl, rfl⟩ | ⟨rfl, _⟩
      · simp [Graph.edgesFrom, exampleGraph] at he
        rcases he with rfl | rfl <;> simp
      · simp [Graph.edgesFrom, exampleGraph] at he
        subst he; simp
      · simp [Graph.edgesFrom, exampleGraph] at he
  intro l w hp _
  rcases key l w hp with ⟨_, rfl⟩ | ⟨_, rfl⟩ | ⟨_, rfl | rfl⟩ <;> decide

theorem exampleGraph_nonNeg : NonNegWeights exampleGraph :=
  nonNegWeights_of_all (by decide)

theorem exampleGraph_inRange : DstInRange exampleGraph :=
  dstInRange_of_all (by decide)

theorem exampleGraph_reachable : Reachable exampleGraph 0 2 :=
  ⟨[1, 0], 0 + 1 + 2, PathTo.snoc (e := ⟨1, 2, 2⟩)
    (PathTo.snoc (e := ⟨0, 1, 1⟩) PathTo.single (by decide)) (by decide)⟩

/-- Claim C1 at the worked example: edges 0→1 (1), 1→2 (2), 0→2 (5) and source 0 meet the
assumptions and give the distances 0, 1, 3. -/
theorem C1_dijkstra_distances_witness :
    (listQueue.Valid ∧ NonNegWeights exampleGraph ∧ DstInRange exampleGraph ∧
        PathSumsBelow exampleGraph 0 2147483647 ∧ 0 < exampleGraph.numVertices) ∧
      dijkstra_shortest_path listQueue 2147483647 exampleGraph 0 =
        some ([0, 1, 3], [-1, 0, 1]) ∧
      ∃ distances previous,
        dijkstra_shortest_path listQueue 2147483647 exampleGraph 0 =
          some (distances, previous) ∧
        distances.length = exampleGraph.numVertices ∧
        ∀ v, v < exampleGraph.numVertices →
          (Reachable exampleGraph 0 v → IsMinDistance exampleGraph 0 v (distances.getD v 0)) ∧
          (¬ Reachable exampleGraph 0 v → distances.getD v 0 = 2147483647) :=
  ⟨⟨listQueue_valid, exampleGraph_nonNeg, exampleGraph_inRange, exampleGraph_pathSums,
      by decide⟩,
    by decide,
    C1_dijkstra_distances listQueue 2147483647 exampleGraph 0 listQueue_valid
      exampleGraph_nonNeg exampleGraph_inRange exampleGraph_pathSums (by decide)⟩

/-- Claim C2, as amended with the bound on path sums. For a graph with non-negative
weights, destinations in range and path sums below `INF`, a source that is a vertex and a
vertex `v` reachable from it, the path extracted from the outputs of
`dijkstra_shortest_path` (the loop being given at least `n` iterations) starts at the
source, ends at `v`, joins consecutive vertices by edges of the graph, and the weights of
those edges can be chosen with sum `distances[v]`. -/
theorem C2_extract_shortest_path_correct (P : PriorityQueue) (INF : Int) (G : Graph)
    (source v fuel : Nat) (hP : P.Valid) (hn : NonNegWeights G) (hr : DstInRange G)
    (hb : PathSumsBelow G source INF) (hs : source < G.numVertices)
    (hv : Reachable G source v) (hfuel : G.numVertices ≤ fuel) :
    ∃ distances previous,
      dijkstra_shortest_path P INF G source = some (distances, previous) ∧
      ∃ p : List Nat,
        extract_shortest_path INF fuel distances previous v = some (p.map Int.ofNat) ∧
        p.head? = some source ∧ p.getLast? = some v ∧
        IsWeightedPath G p (distances.getD v 0) := by
  have H : Setting P INF G source := ⟨hP, hn, hr, hb, hs⟩
  obtain ⟨st, h1, h2, h3⟩ := dijkstra_returns H
  have hvn : v < G.numVertices := reachable_lt hs hr hv
  have hd : st.dist v < INF := (final_reachable_iff H h2 h3 hvn).mpr hv
  obtain ⟨p, t1, t2, t3, t4⟩ := h2.tree v hvn hd
  have hlen : (v :: p).length ≤ fuel := by
    have := nodup_length_le t2 (pathTo_lt hs hr t4)
    omega
  refine ⟨st.distances, st.previous, h1, (v :: p).reverse, ?_, ?_, ?_, ?_⟩
  · unfold extract_shortest_path
    have hne : ¬ (st.distances.getD v 0 = INF) := by
      have : st.dist v ≠ INF := by omega
      exact this
    rw [if_neg hne, extractLoop_treePath _ t1 fuel [] hlen v p rfl]
    simp [List.map_reverse]
  · rw [List.head?_reverse]; exact pathTo_getLast t4
  · rw [List.getLast?_reverse]; rfl
  · exact pathTo_isWeightedPath t4

/-- Claim C2 at the worked example: vertex 2 is reachable from 0, and the path extracted
for it is 0, 1, 2 with cost 3. -/
theorem C2_extract_shortest_path_correct_witness :
    (listQueue.Valid ∧ NonNegWeights exampleGraph ∧ DstInRange exampleGraph ∧
        PathSumsBelow exampleGraph 0 2147483647 ∧ 0 < exampleGraph.numVertices ∧
        Reachable exampleGraph 0 2 ∧ exampleGraph.numVertices ≤ 3) ∧
      extract_shortest_path 2147483647 3 [0, 1, 3] [-1, 0, 1] 2 = some [0, 1, 2] ∧
      ∃ distances previous,
        dijkstra_shortest_path listQueue 2147483647 exampleGraph 0 =
          some (distances, previous) ∧
        ∃ p : List Nat,
          extract_shortest_path 2147483647 3 distances previous 2 =
            some (p.map Int.ofNat) ∧
          p.head? = some 0 ∧ p.getLast? = some 2 ∧
          IsWeightedPath exampleGraph p (distances.getD 2 0) :=
  ⟨⟨listQueue_valid, exampleGraph_nonNeg, exampleGraph_inRange, exampleGraph_pathSums,
      by decide, exampleGraph_reachable, by decide⟩,
    by decide,
    C2_extract_shortest_path_correct listQueue 2147483647 exampleGraph 0 2 3
      listQueue_valid exampleGraph_nonNeg exampleGraph_inRange exampleGraph_pathSums
      (by decide) exampleGraph_reachable (by decide)⟩

theorem heavyGraph_reachable : Reachable heavyGraph 0 1 :=
  ⟨[0], 0 + 2147483647, PathTo.snoc (e := ⟨0, 1, 2147483647⟩) PathTo.single (by decide)⟩

theorem heavyGraph_extract (fuel : Nat) :
    extract_shortest_path 2147483647 fuel [0, 2147483647] [-1, -1] 1 = some [] := by
  unfold extract_shortest_path
  rw [if_pos (by decide)]

/-- Claim C2 as stated fails when a path sum reaches `INF`: with the single edge 0→1 of
weight 2147483647 and `INF = 2147483647`, the weights are non-negative, the destinations
are in range, 0 is a vertex and vertex 1 is reachable from it, but `distances[1]` stays
`INF` and, however many iterations its loop is given, the extracted path is empty: it is
no sequence that starts at the source and ends at vertex 1. -/
theorem C2_extract_shortest_path_counterexample :
    (NonNegWeights heavyGraph ∧ DstInRange heavyGraph ∧ 0 < heavyGraph.numVertices ∧
        Reachable heavyGraph 0 1) ∧
      dijkstra_shortest_path listQueue 2147483647 heavyGraph 0 =
        some ([0, 2147483647], [-1, -1]) ∧
      (∀ fuel, extract_shortest_path 2147483647 fuel [0, 2147483647] [-1, -1] 1 = some []) ∧
      ∀ fuel, ¬ ∃ p : List Nat,
        extract_shortest_path 2147483647 fuel [0, 2147483647] [-1, -1] 1 =
          some (p.map Int.ofNat) ∧ p.head? = some 0 ∧ p.getLast? = some 1 := by
  refine ⟨⟨nonNegWeights_of_all (by decide), dstInRange_of_all (by decide), by decide,
    heavyGraph_reachable⟩, by decide, heavyGraph_extract, ?_⟩
  rintro fuel ⟨p, h1, h2, _⟩
  rw [heavyGraph_extract fuel] at h1
  cases p with
  | nil => simp at h2
  | cons a p => simp at h1

/-- Claim C9, as amended with the bound on path sums. For a graph with non-negative
weights, destinations in range and path sums below `INF`, and a source that is a vertex,
after `dijkstra_shortest_path` the entry `previous[v]` is `-1` exactly when `v` is the
source or is unreachable; every other entry is a vertex `u` with an edge from `u` to `v`. -/
theorem C9_previous_entries (P : PriorityQueue) (INF : Int) (G : Graph) (source : Nat)
    (hP : P.Valid) (hn : NonNegWeights G) (hr : DstInRange G)
    (hb : PathSumsBelow G source INF) (hs : source < G.numVertices) :
    ∃ distances previous,
      dijkstra_shortest_path P INF G source = some (distances, previous) ∧
      previous.length = G.numVertices ∧
      ∀ v, v < G.numVertices →
        (previous.getD v 0 = -1 ↔ (v = source ∨ ¬ Reachable G source v)) ∧
        (¬ (v = source ∨ ¬ Reachable G source v) →
          ∃ u, u < G.numVertices ∧ previous.getD v 0 = (u : Int) ∧
            ∃ e ∈ G.edgesFrom u, e.dst = v) := by
  have H : Setting P INF G source := ⟨hP, hn, hr, hb, hs⟩
  obtain ⟨st, h1, h2, h3⟩ := dijkstra_returns H
  refine ⟨st.distances, st.previous, h1, h2.len_p, ?_⟩
  intro v hv
  have hcases : (st.dist v = INF ∧ st.prev v = -1 ∧ ¬ Reachable G source v) ∨
      (v = source ∧ st.prev v = -1) ∨
      (v ≠ source ∧ Reachable G source v ∧ ∃ u, u < G.numVertices ∧ st.prev v = (u : Int) ∧
        ∃ e ∈ G.edgesFrom u, e.dst = v) := by
    by_cases hd : st.dist v < INF
    · right
      have hreach := (final_reachable_iff H h2 h3 hv).mp hd
      obtain ⟨p, t1, t2, t3, t4⟩ := h2.tree v hv hd
      cases t1 with
      | root h0 => exact Or.inl ⟨rfl, h0⟩
      | @step _ u q hx hq =>
        right
        refine ⟨?_, hreach, u, (t3 u (List.mem_cons_self _ _)).1, hx, pathTo_edge t4⟩
        intro e1
        subst e1
        have := pathTo_single_of_head t4 t2
        simp at this
    · left
      have hle := h2.le_inf v hv
      have he : st.dist v = INF := by omega
      exact ⟨he, (h2.unreached v hv he).1,
        fun hreach => hd ((final_reachable_iff H h2 h3 hv).mpr hreach)⟩
  constructor
  · constructor
    · intro hp
      rcases hcases with ⟨_, _, c3⟩ | ⟨c1, _⟩ | ⟨_, _, u, _, c3, _⟩
      · exact Or.inr c3
      · exact Or.inl c1
      · exfalso
        have : st.prev v = -1 := hp
        omega
    · intro hp
      rcases hcases with ⟨_, c2, _⟩ | ⟨_, c2⟩ | ⟨c1, c2, _⟩
      · exact c2
      · exact c2
      · rcases hp with hp | hp
        · exact absurd hp c1
        · exact absurd c2 hp
  · intro hp
    rcases hcases with ⟨_, _, c3⟩ | ⟨c1, _⟩ | ⟨_, _, c3⟩
    · exact absurd (Or.inr c3) hp
    · exact absurd (Or.inl c1) hp
    · exact c3

/-- Claim C9 at the worked example, which meets the assumptions: `previous` is -1, 0, 1. -/
theorem C9_previous_entries_witness :
    (listQueue.Valid ∧ NonNegWeights exampleGraph ∧ DstInRange exampleGraph ∧
        PathSumsBelow exampleGraph 0 2147483647 ∧ 0 < exampleGraph.numVertices) ∧
      dijkstra_shortest_path listQueue 2147483647 exampleGraph 0 =
        some ([0, 1, 3], [-1, 0, 1]) ∧
      ∃ distances previous,
        dijkstra_shortest_path listQueue 2147483647 exampleGraph 0 =
          some (distances, previous) ∧
        previous.length = exampleGraph.numVertices ∧
        ∀ v, v < exampleGraph.numVertices →
          (previous.getD v 0 = -1 ↔ (v = 0 ∨ ¬ Reachable exampleGraph 0 v)) ∧
          (¬ (v = 0 ∨ ¬ Reachable exampleGraph 0 v) →
            ∃ u, u < exampleGraph.numVertices ∧ previous.getD v 0 = (u : Int) ∧
              ∃ e ∈ exampleGraph.edgesFrom u, e.dst = v) :=
  ⟨⟨listQueue_valid, exampleGraph_nonNeg, exampleGraph_inRange, exampleGraph_pathSums,
      by decide⟩,
    by decide,
    C9_previous_entries listQueue 2147483647 exampleGraph 0 listQueue_valid
      exampleGraph_nonNeg exampleGraph_inRange exampleGraph_pathSums (by decide)⟩

/-- Claim C9 as stated fails when a path sum reaches `INF`: with the single edge 0→1 of
weight 2147483647 and `INF = 2147483647`, the weights are non-negative, the destinations
are in range and 0 is a vertex; vertex 1 is not the source and is reachable, yet
`previous[1]` is `-1`. -/
theorem C9_previous_entries_counterexample :
    (NonNegWeights heavyGraph ∧ DstInRange heavyGraph ∧ 0 < heavyGraph.numVertices) ∧
      ∃ distances previous,
        dijkstra_shortest_path listQueue 2147483647 heavyGraph 0 =
          some (distances, previous) ∧
        previous.getD 1 0 = -1 ∧ ¬ ((1 : Nat) = 0 ∨ ¬ Reachable heavyGraph 0 1) :=
  ⟨⟨nonNegWeights_of_all (by decide), dstInRange_of_all (by decide), by decide⟩,
    [0, 2147483647], [-1, -1], by decide, by decide,
    fun h => h.elim (by decide) (fun hn => hn heavyGraph_reachable)⟩

/-- Claim C10. Whenever `distances[destination]` is `INF` for an in-range destination,
`extract_shortest_path` returns the empty sequence, whatever `previous` contains (and
whatever number of iterations its loop is given). -/
theorem C10_extract_unreachable (INF : Int) (fuel : Nat) (distances previous : List Int)
    (destination : Nat) (_hd : destination < distances.length)
    (h : distances.getD destination 0 = INF) :
    extract_shortest_path INF fuel distances previous destination = some [] := by
  unfold extract_shortest_path
  rw [if_pos h]

/-- Claim C10 at the worked example with an isolated vertex 3: `distances[3]` is `INF`
and the extracted path for 3 is empty. -/
theorem C10_extract_unreachable_witness :
    dijkstra_shortest_path listQueue 2147483647 isolatedGraph 0 =
        some ([0, 1, 3, 2147483647], [-1, 0, 1, -1]) ∧
      (3 < [(0 : Int), 1, 3, 2147483647].length) ∧
      [(0 : Int), 1, 3, 2147483647].getD 3 0 = 2147483647 ∧
      extract_shortest_path 2147483647 4 [0, 1, 3, 2147483647] [-1, 0, 1, -1] 3 = some [] :=
  ⟨by decide, by decide, by decide,
    C10_extract_unreachable 2147483647 4 [0, 1, 3, 2147483647] [-1, 0, 1, -1] 3
      (by decide) (by decide)⟩

end Dijkstra
/-! ## Theorems: the loop of `dijkstra_shortest_path` for arbitrary weights -/

namespace Dijkstra

theorem hasTree_transfer {G : Graph} {s : Nat} (st st2 : State) {v : Nat}
    (hp : ∀ l, TreePath st.previous s (v :: l) → (∀ x ∈ l, st.seen x) →
      TreePath st2.previous s (v :: l))
    (hd : st2.dist v = st.dist v) (hseen : ∀ x, st.seen x → st2.seen x)
    (h : HasTree G s st v) : HasTree G s st2 v := by
  obtain ⟨p, a1, a2, a3, a4⟩ := h
  exact ⟨p, hp p a1 (fun x hx => (a3 x hx).2), a2,
    fun x hx => ⟨(a3 x hx).1, hseen x (a3 x hx).2⟩, by rw [hd]; exact a4⟩

theorem seen_lt {st : State} {v : Nat} (h : st.seen v) : v < st.visited.length := by
  by_contra hlt
  unfold State.seen at h
  rw [List.getD_eq_default _ _ (by omega)] at h
  exact absurd h (by simp)

/-- One relaxation that updates `e.dst` keeps the weak invariant, once the source has
been visited. -/
theorem winv_relax_update {P : PriorityQueue} {INF : Int} {G : Graph} {s : Nat}
    (hP : P.Valid) {st : State} {u : Nat} {e : Edge}
    (h : WInv INF G s st) (hu : u < G.numVertices) (hseen : st.seen u) (hss : st.seen s)
    (he : e ∈ G.edgesFrom u) (hv : e.dst < G.numVertices) (hsv : ¬ st.seen e.dst) :
    WInv INF G s (relaxState P st u e) := by
  have hvs : e.dst ≠ s := fun e1 => hsv (e1 ▸ hss)
  have hdv : ∀ x, x ≠ e.dst → (relaxState P st u e).dist x = st.dist x :=
    fun x hx => getD_set_of_ne _ _ _ _ _ (Ne.symm hx)
  have hdv2 : (relaxState P st u e).dist e.dst = st.dist u + e.weight :=
    getD_set_self _ _ _ _ (by rw [h.len_d]; exact hv)
  have hpv : ∀ x, x ≠ e.dst → (relaxState P st u e).prev x = st.prev x :=
    fun x hx => getD_set_of_ne _ _ _ _ _ (Ne.symm hx)
  have hseen_ne : ∀ x, st.seen x → x ≠ e.dst := fun x hx e1 => hsv (e1 ▸ hx)
  have hpq : ∀ y, y ∈ (relaxState P st u e).pq ↔
      y = (⟨e.dst, st.dist u + e.weight⟩ : Node) ∨ y ∈ st.pq := fun y => mem_push hP _ _ _
  have hkeep : ∀ x, x ≠ e.dst → HasTree G s st x → HasTree G s (relaxState P st u e) x := by
    intro x hx ht
    refine hasTree_transfer st _ ?_ (hdv x hx) (fun y hy => hy) ht
    intro l hl hall
    refine treePath_set hl _ _ ?_
    intro hm
    rcases List.mem_cons.mp hm with e1 | hm
    · exact hx e1.symm
    · exact hsv (hall _ hm)
  have hnew : HasTree G s (relaxState P st u e) e.dst := by
    obtain ⟨pu, a1, a2, a3, a4⟩ := h.seen_tree u hu hseen
    have hall : ∀ y ∈ u :: pu, y < G.numVertices ∧ st.seen y := by
      intro y hy
      rcases List.mem_cons.mp hy with rfl | hy
      · exact ⟨hu, hseen⟩
      · exact a3 y hy
    have hnot : e.dst ∉ u :: pu := fun hm => hsv (hall _ hm).2
    refine ⟨u :: pu, ?_, List.nodup_cons.mpr ⟨hnot, a2⟩, hall, ?_⟩
    · apply TreePath.step
      · exact getD_set_self _ _ _ _ (by rw [h.len_p]; exact hv)
      · exact treePath_set a1 _ _ hnot
    · rw [hdv2]; exact PathTo.snoc a4 he
  have hall : ∀ x, HasTree G s st x → HasTree G s (relaxState P st u e) x := by
    intro x ht
    by_cases hx : x = e.dst
    · subst hx; exact hnew
    · exact hkeep x hx ht
  refine ⟨?_, ?_, h.len_v, ?_, Or.inl hss, ?_, ?_, ?_⟩
  · simp [relaxState, h.len_d]
  · simp [relaxState, h.len_p]
  · exact ⟨by rw [hdv s (Ne.symm hvs)]; exact h.src.1,
      by rw [hpv s (Ne.symm hvs)]; exact h.src.2⟩
  · intro x hx
    rcases (hpq x).mp hx with rfl | hx
    · exact ⟨hv, hnew⟩
    · exact ⟨(h.pq_tree x hx).1, hall _ (h.pq_tree x hx).2⟩
  · intro v hvn hvs2
    exact hall v (h.seen_tree v hvn hvs2)
  · intro v hvn hvd
    by_cases hx : v = e.dst
    · subst hx; exact hnew
    · rw [hdv v hx] at hvd
      exact hall v (h.dist_tree v hvn hvd)

/-- The loop over the edges of a visited vertex leaves `visited` alone and adds at most
one queue entry for each edge. -/
theorem relaxEdges_visited_pq {P : PriorityQueue} (hP : P.Valid) (u : Nat) :
    ∀ (es : List Edge) (st : State),
      (relaxEdges P u es st).visited = st.visited ∧
        (relaxEdges P u es st).pq.length ≤ st.pq.length + es.length := by
  intro es
  induction es with
  | nil => intro st; exact ⟨rfl, le_rfl⟩
  | cons e rest ih =>
    intro st
    rw [relaxEdges_cons]
    split_ifs with hc
    · obtain ⟨a1, a2⟩ := ih
        { distances := st.distances.set e.dst (st.dist u + e.weight)
          previous := st.previous.set e.dst (u : Int)
          visited := st.visited
          pq := P.push st.pq
            ⟨e.dst, (st.distances.set e.dst (st.dist u + e.weight)).getD e.dst 0⟩ }
      refine ⟨a1, ?_⟩
      have hl := (hP.1 st.pq
        ⟨e.dst, (st.distances.set e.dst (st.dist u + e.weight)).getD e.dst 0⟩).length_eq
      simp only [List.length_cons] at hl a2 ⊢
      omega
    · obtain ⟨a1, a2⟩ := ih st
      refine ⟨a1, ?_⟩
      simp only [List.length_cons]
      omega

theorem relaxEdges_winv {P : PriorityQueue} {INF : Int} {G : Graph} {s : Nat}
    (hP : P.Valid) (hr : DstInRange G) {u : Nat} (hu : u < G.numVertices) :
    ∀ (es : List Edge) (st : State), (∀ e ∈ es, e ∈ G.edgesFrom u) → st.seen u →
      st.seen s → WInv INF G s st → WInv INF G s (relaxEdges P u es st) := by
  intro es
  induction es with
  | nil => intro st _ _ _ h; exact h
  | cons e rest ih =>
    intro st hes hseen hss h
    have he : e ∈ G.edgesFrom u := hes e (List.mem_cons_self _ _)
    have hrest : ∀ e2 ∈ rest, e2 ∈ G.edgesFrom u :=
      fun e2 h2 => hes e2 (List.mem_cons_of_mem _ h2)
    have hv : e.dst < G.numVertices := hr u e he
    rw [relaxEdges_cons]
    by_cases hc : (!(st.visited.getD e.dst false) &&
        decide (st.dist u + e.weight < st.dist e.dst)) = true
    · rw [if_pos hc]
      simp only [Bool.and_eq_true, Bool.not_eq_true', decide_eq_true_eq] at hc
      have hsv : ¬ st.seen e.dst := by
        unfold State.seen; rw [hc.1]; simp
      have e1 : (st.distances.set e.dst (st.dist u + e.weight)).getD e.dst 0 =
          st.dist u + e.weight := getD_set_self _ _ _ _ (by rw [h.len_d]; exact hv)
      rw [e1]
      exact ih (relaxState P st u e) hrest hseen hss
        (winv_relax_update hP h hu hseen hss he hv hsv)
    · rw [if_neg hc]
      exact ih st hrest hseen hss h

theorem seen_set_iff (st : State) (u : Nat) (hu : u < st.visited.length) (x : Nat) :
    (st.visited.set u true).getD x false = true ↔ x = u ∨ st.seen x := by
  by_cases hx : x = u
  · subst hx
    rw [getD_set_self _ _ _ _ hu]
    simp
  · rw [getD_set_of_ne _ _ _ _ _ (Ne.symm hx)]
    unfold State.seen
    simp [hx]

/-- Marking the popped vertex as visited keeps the weak invariant and makes the source
visited. -/
theorem winv_pop_unseen {P : PriorityQueue} {INF : Int} {G : Graph} {s : Nat}
    (hP : P.Valid) {st : State} (h : WInv INF G s st)
    {cur : Node} {pq : List Node} (hpop : P.pop st.pq = some (cur, pq))
    (_hns : ¬ st.seen cur.vertex) :
    WInv INF G s { st with visited := st.visited.set cur.vertex true, pq := pq } ∧
      cur.vertex < G.numVertices ∧
      State.seen { st with visited := st.visited.set cur.vertex true, pq := pq } cur.vertex ∧
      State.seen { st with visited := st.visited.set cur.vertex true, pq := pq } s := by
  obtain ⟨hperm, _⟩ := pop_spec hP hpop
  have hsub : ∀ y ∈ pq, y ∈ st.pq := fun y hy => hperm.mem_iff.mpr (List.mem_cons_of_mem _ hy)
  have hcur : cur ∈ st.pq := hperm.mem_iff.mpr (List.mem_cons_self _ _)
  obtain ⟨hu, hct⟩ := h.pq_tree cur hcur
  have hiff := seen_set_iff st cur.vertex (by rw [h.len_v]; exact hu)
  have hmono : ∀ x, st.seen x →
      State.seen { st with visited := st.visited.set cur.vertex true, pq := pq } x :=
    fun x hx => (hiff x).mpr (Or.inr hx)
  have hall : ∀ x, HasTree G s st x →
      HasTree G s { st with visited := st.visited.set cur.vertex true, pq := pq } x :=
    fun x ht => hasTree_transfer st _ (fun l hl _ => hl) rfl hmono ht
  have hss : State.seen { st with visited := st.visited.set cur.vertex true, pq := pq } s := by
    rcases h.started with h1 | h1
    · exact hmono s h1
    · exact (hiff s).mpr (Or.inl (h1 cur hcur).symm)
  refine ⟨⟨h.len_d, h.len_p, by simp [h.len_v], h.src, Or.inl hss, ?_, ?_, ?_⟩, hu,
    (hiff _).mpr (Or.inl rfl), hss⟩
  · intro x hx
    exact ⟨(h.pq_tree x (hsub x hx)).1, hall _ (h.pq_tree x (hsub x hx)).2⟩
  · intro v hv hvs
    rcases (hiff v).mp hvs with e1 | hs3
    · subst e1; exact hall _ hct
    · exact hall _ (h.seen_tree v hv hs3)
  · intro v hv hvd
    exact hall _ (h.dist_tree v hv hvd)

theorem winv_pop_seen {P : PriorityQueue} {INF : Int} {G : Graph} {s : Nat}
    (hP : P.Valid) {st : State} (h : WInv INF G s st)
    {cur : Node} {pq : List Node} (hpop : P.pop st.pq = some (cur, pq))
    (hseen : st.seen cur.vertex) :
    WInv INF G s { st with pq := pq } := by
  obtain ⟨hperm, _⟩ := pop_spec hP hpop
  have hsub : ∀ y ∈ pq, y ∈ st.pq := fun y hy => hperm.mem_iff.mpr (List.mem_cons_of_mem _ hy)
  have hcur : cur ∈ st.pq := hperm.mem_iff.mpr (List.mem_cons_self _ _)
  have hall : ∀ x, HasTree G s st x → HasTree G s { st with pq := pq } x :=
    fun x ht => hasTree_transfer st _ (fun l hl _ => hl) rfl (fun y hy => hy) ht
  refine ⟨h.len_d, h.len_p, h.len_v, h.src, ?_, ?_, ?_, ?_⟩
  · rcases h.started with h1 | h1
    · exact Or.inl h1
    · exact Or.inl (by rw [← h1 cur hcur]; exact hseen)
  · intro x hx
    exact ⟨(h.pq_tree x (hsub x hx)).1, hall _ (h.pq_tree x (hsub x hx)).2⟩
  · intro v hv hvs; exact hall _ (h.seen_tree v hv hvs)
  · intro v hv hvd; exact hall _ (h.dist_tree v hv hvd)

/-! ### Passes of the loop body -/

theorem dijkstraLoop_eq (P : PriorityQueue) (G : Graph) (fuel : Nat) (st : State) :
    dijkstraLoop P G fuel st =
      match loopIter P G st with
      | none => some st
      | some st2 =>
        match fuel with
        | 0 => none
        | f + 1 => dijkstraLoop P G f st2 := by
  conv_lhs => unfold dijkstraLoop
  unfold loopIter
  cases hpop : P.pop st.pq with
  | none => rfl
  | some x =>
    obtain ⟨cur, pq⟩ := x
    cases fuel with
    | zero => simp only; split_ifs <;> rfl
    | succ f => simp only; split_ifs <;> rfl

theorem loopIter_none {P : PriorityQueue} (hP : P.Valid) {G : Graph} {st : State}
    (h : loopIter P G st = none) : st.pq = [] := by
  unfold loopIter at h
  cases hpop : P.pop st.pq with
  | none => exact pop_none hP hpop
  | some x =>
    obtain ⟨cur, pq⟩ := x
    rw [hpop] at h
    simp only at h
    split_ifs at h

/-- The loop runs pass by pass until the queue is empty, within the fuel that the measure
allows, and keeps any property that each pass keeps. -/
theorem dijkstraLoop_runs (P : PriorityQueue) (G : Graph) (Inv : State → Prop)
    (hstep : ∀ st st2, Inv st → loopIter P G st = some st2 →
      Inv st2 ∧ loopMeasure G st2 < loopMeasure G st) :
    ∀ (fuel : Nat) (st : State), Inv st → loopMeasure G st ≤ fuel →
      ∃ st2 k, dijkstraLoop P G fuel st = some st2 ∧ runIters P G k st = some st2 ∧
        loopIter P G st2 = none ∧ Inv st2 := by
  intro fuel
  induction fuel with
  | zero =>
    intro st hinv hm
    rw [dijkstraLoop_eq]
    cases hi : loopIter P G st with
    | none => exact ⟨st, 0, rfl, rfl, hi, hinv⟩
    | some st2 =>
      have := (hstep st st2 hinv hi).2
      omega
  | succ f ih =>
    intro st hinv hm
    rw [dijkstraLoop_eq]
    cases hi : loopIter P G st with
    | none => exact ⟨st, 0, rfl, rfl, hi, hinv⟩
    | some st2 =>
      obtain ⟨h1, h2⟩ := hstep st st2 hinv hi
      obtain ⟨st3, k, a1, a2, a3, a4⟩ := ih st2 h1 (by omega)
      refine ⟨st3, k + 1, a1, ?_, a3, a4⟩
      rw [runIters, hi]
      exact a2

theorem runIters_inv (P : PriorityQueue) (G : Graph) (Inv : State → Prop)
    (hstep : ∀ st st2, Inv st → loopIter P G st = some st2 → Inv st2) :
    ∀ (k : Nat) (st st2 : State), Inv st → runIters P G k st = some st2 → Inv st2 := by
  intro k
  induction k with
  | zero =>
    intro st st2 hinv h
    simp only [runIters, Option.some.injEq] at h
    subst h
    exact hinv
  | succ k ih =>
    intro st st2 hinv h
    rw [runIters] at h
    cases hi : loopIter P G st with
    | none => rw [hi] at h; simp at h
    | some st1 =>
      rw [hi] at h
      exact ih st1 st2 (hstep st st1 hinv hi) h

theorem loopIter_winv {P : PriorityQueue} {INF : Int} {G : Graph} {s : Nat}
    (hP : P.Valid) (hr : DstInRange G) {st st2 : State} (h : WInv INF G s st)
    (hi : loopIter P G st = some st2) :
    WInv INF G s st2 ∧ loopMeasure G st2 < loopMeasure G st := by
  unfold loopIter at hi
  cases hpop : P.pop st.pq with
  | none => rw [hpop] at hi; simp at hi
  | some x =>
    obtain ⟨cur, pq⟩ := x
    rw [hpop] at hi
    simp only at hi
    have hlen : st.pq.length = pq.length + 1 := by
      have := (pop_spec hP hpop).1.length_eq
      simpa using this
    by_cases hseen : st.visited.getD cur.vertex false = true
    · rw [if_pos hseen] at hi
      simp only [Option.some.injEq] at hi
      subst hi
      refine ⟨winv_pop_seen hP h hpop hseen, ?_⟩
      unfold loopMeasure
      simp only
      omega
    · rw [if_neg hseen] at hi
      simp only [Option.some.injEq] at hi
      subst hi
      obtain ⟨w1, hu, hsu, hss⟩ := winv_pop_unseen hP h hpop hseen
      refine ⟨relaxEdges_winv hP hr hu _ _ (fun e he => he) hsu hss w1, ?_⟩
      obtain ⟨a2, a3⟩ := relaxEdges_visited_pq hP cur.vertex (G.edgesFrom cur.vertex)
        { st with visited := st.visited.set cur.vertex true, pq := pq }
      have hmeas := unvisitedEdges_set G.adj st.visited cur.vertex hu h.len_v
        (by simpa using hseen)
      unfold loopMeasure
      rw [a2]
      simp only at a3 ⊢
      unfold Graph.edgesFrom at a3 ⊢
      omega

theorem winv_init {P : PriorityQueue} (hP : P.Valid) (INF : Int) {G : Graph} {s : Nat}
    (hs : s < G.numVertices) : WInv INF G s (initialState P INF G s) := by
  have hds : (initialState P INF G s).dist s = 0 :=
    getD_set_self _ _ _ _ (by simp; exact hs)
  have hdv : ∀ v, v < G.numVertices → v ≠ s → (initialState P INF G s).dist v = INF := by
    intro v hv hvs
    show ((List.replicate G.numVertices INF).set s 0).getD v 0 = INF
    rw [getD_set_of_ne _ _ _ _ _ (Ne.symm hvs)]
    simp [List.getD_eq_getElem?_getD, List.getElem?_replicate, hv]
  have hpv : ∀ v, v < G.numVertices → (initialState P INF G s).prev v = -1 := by
    intro v hv
    show (List.replicate G.numVertices (-1 : Int)).getD v 0 = -1
    simp [List.getD_eq_getElem?_getD, List.getElem?_replicate, hv]
  have hsv : ∀ v, ¬ (initialState P INF G s).seen v := by
    intro v
    show ¬ ((List.replicate G.numVertices false).getD v false = true)
    simp only [List.getD_eq_getElem?_getD, List.getElem?_replicate]
    split_ifs <;> simp
  have hpq : ∀ x, x ∈ (initialState P INF G s).pq ↔ x = (⟨s, 0⟩ : Node) := by
    intro x
    show x ∈ P.push [] ⟨s, 0⟩ ↔ _
    rw [mem_push hP]; simp
  have htree : HasTree G s (initialState P INF G s) s :=
    ⟨[], TreePath.root (hpv s hs), by simp, by simp, by rw [hds]; exact PathTo.single⟩
  refine ⟨?_, ?_, ?_, ⟨hds, hpv s hs⟩, Or.inr ?_, ?_, ?_, ?_⟩
  · simp [initialState]
  · simp [initialState]
  · simp [initialState]
  · intro x hx
    rw [hpq] at hx
    subst hx
    rfl
  · intro x hx
    rw [hpq] at hx
    subst hx
    exact ⟨hs, htree⟩
  · intro v _ hv; exact absurd hv (hsv v)
  · intro v hv hvd
    by_cases hvs : v = s
    · subst hvs; exact htree
    · exact absurd (hdv v hv hvs) hvd

/-- For a valid queue, destinations in range and a source that is a vertex, the algorithm
returns after finitely many passes, in a state that meets the weak invariant. -/
theorem dijkstra_returns_weak {P : PriorityQueue} (hP : P.Valid) (INF : Int) {G : Graph}
    {s : Nat} (hr : DstInRange G) (hs : s < G.numVertices) :
    ∃ st k, dijkstra_shortest_path P INF G s = some (st.distances, st.previous) ∧
      runIters P G k (initialState P INF G s) = some st ∧ WInv INF G s st := by
  obtain ⟨st, k, h1, h2, _, h4⟩ := dijkstraLoop_runs P G (WInv INF G s)
    (fun st st2 hw hi => loopIter_winv hP hr hw hi) (G.numEdges + 1)
    (initialState P INF G s) (winv_init hP INF hs) (init_measure hP INF G s)
  refine ⟨st, k, ?_, h2, h4⟩
  unfold dijkstra_shortest_path
  rw [h1]
  rfl

/-! ### The claims on the source and on the chain of `previous` links -/

theorem cycleGraph_inRange : DstInRange cycleGraph :=
  dstInRange_of_all (by decide)

/-- Claim C11. For a graph with edge destinations in range and a source that is a vertex
(and a positive `INF`), the outputs of `dijkstra_shortest_path` have `distances[source]`
equal to 0 and `previous[source]` equal to `-1`, whatever edges lead back into the source,
and the path extracted for the source is `[source]`. -/
theorem C11_source_self_path (P : PriorityQueue) (INF : Int) (G : Graph) (source : Nat)
    (hP : P.Valid) (hr : DstInRange G) (hs : source < G.numVertices) (hINF : 0 < INF) :
    ∃ distances previous,
      dijkstra_shortest_path P INF G source = some (distances, previous) ∧
      distances.getD source 0 = 0 ∧ previous.getD source 0 = -1 ∧
      ∀ fuel, 1 ≤ fuel →
        extract_shortest_path INF fuel distances previous source = some [(source : Int)] := by
  obtain ⟨st, k, h1, _, hw⟩ := dijkstra_returns_weak hP INF hr hs
  refine ⟨st.distances, st.previous, h1, hw.src.1, hw.src.2, ?_⟩
  intro fuel hf
  unfold extract_shortest_path
  have hne : ¬ (st.distances.getD source 0 = INF) := by
    have : st.dist source = 0 := hw.src.1
    unfold State.dist at this
    omega
  rw [if_neg hne,
    extractLoop_treePath [source] (TreePath.root hw.src.2) fuel [] (by simpa using hf)
      source [] rfl]
  rfl

/-- Claim C11 at a graph with a self-loop at the source and a zero-weight cycle through
it: `distances[0]` is 0, `previous[0]` is `-1` and the path extracted for 0 is `[0]`. -/
theorem C11_source_self_path_witness :
    (listQueue.Valid ∧ DstInRange cycleGraph ∧ 0 < cycleGraph.numVertices ∧
        (0 : Int) < 2147483647) ∧
      dijkstra_shortest_path listQueue 2147483647 cycleGraph 0 = some ([0, 0], [-1, 0]) ∧
      ∃ distances previous,
        dijkstra_shortest_path listQueue 2147483647 cycleGraph 0 =
          some (distances, previous) ∧
        distances.getD 0 0 = 0 ∧ previous.getD 0 0 = -1 ∧
        ∀ fuel, 1 ≤ fuel →
          extract_shortest_path 2147483647 fuel distances previous 0 =
            some [((0 : Nat) : Int)] :=
  ⟨⟨listQueue_valid, cycleGraph_inRange, by decide, by decide⟩, by decide,
    C11_source_self_path listQueue 2147483647 cycleGraph 0 listQueue_valid
      cycleGraph_inRange (by decide) (by decide)⟩

/-- Claim C20. For a graph with edge destinations in range and a source that is a vertex,
the `previous` vector returned by `dijkstra_shortest_path` is acyclic: from every vertex
`v` whose distance is not `INF` the chain of `previous` links reaches the source, whose
entry is `-1`, through at most `n` vertices, none of them twice; so `extract_shortest_path`
(its loop being given at least `n` iterations) returns for every vertex, and what it
returns has at most `n` entries, pairwise distinct. -/
theorem C20_previous_acyclic (P : PriorityQueue) (INF : Int) (G : Graph) (source : Nat)
    (hP : P.Valid) (hr : DstInRange G) (hs : source < G.numVertices) :
    ∃ distances previous,
      dijkstra_shortest_path P INF G source = some (distances, previous) ∧
      ∀ v, v < G.numVertices → ∀ fuel, G.numVertices ≤ fuel →
        ∃ path, extract_shortest_path INF fuel distances previous v = some path ∧
          path.Nodup ∧ path.length ≤ G.numVertices ∧
          (distances.getD v 0 ≠ INF →
            ∃ p, TreePath previous source (v :: p) ∧ (v :: p).Nodup ∧
              (v :: p).length ≤ G.numVertices ∧
              path = ((v :: p).map Int.ofNat).reverse) := by
  obtain ⟨st, k, h1, _, hw⟩ := dijkstra_returns_weak hP INF hr hs
  refine ⟨st.distances, st.previous, h1, ?_⟩
  intro v hv fuel hf
  by_cases hd : st.distances.getD v 0 = INF
  · refine ⟨[], ?_, by simp, by simp, fun h => absurd hd h⟩
    unfold extract_shortest_path
    rw [if_pos hd]
  · obtain ⟨p, t1, t2, t3, t4⟩ := hw.dist_tree v hv hd
    have hlen : (v :: p).length ≤ G.numVertices := nodup_length_le t2 (pathTo_lt hs hr t4)
    refine ⟨((v :: p).map Int.ofNat).reverse, ?_, ?_, ?_, fun _ => ⟨p, t1, t2, hlen, rfl⟩⟩
    · unfold extract_shortest_path
      rw [if_neg hd, extractLoop_treePath _ t1 fuel [] (by omega) v p rfl]
      simp
    · rw [List.nodup_reverse]
      exact List.Nodup.map (fun a b hab => Int.ofNat.inj hab) t2
    · simpa using hlen

/-- Claim C20 at a graph with a self-loop and a zero-weight cycle: `previous` is -1, 0,
and the chain from vertex 1 is 1, 0. -/
theorem C20_previous_acyclic_witness :
    (listQueue.Valid ∧ DstInRange cycleGraph ∧ 0 < cycleGraph.numVertices) ∧
      dijkstra_shortest_path listQueue 2147483647 cycleGraph 0 = some ([0, 0], [-1, 0]) ∧
      extract_shortest_path 2147483647 2 [0, 0] [-1, 0] 1 = some [0, 1] ∧
      ∃ distances previous,
        dijkstra_shortest_path listQueue 2147483647 cycleGraph 0 =
          some (distances, previous) ∧
        ∀ v, v < cycleGraph.numVertices → ∀ fuel, cycleGraph.numVertices ≤ fuel →
          ∃ path, extract_shortest_path 2147483647 fuel distances previous v = some path ∧
            path.Nodup ∧ path.length ≤ cycleGraph.numVertices ∧
            (distances.getD v 0 ≠ 2147483647 →
              ∃ p, TreePath previous 0 (v :: p) ∧ (v :: p).Nodup ∧
                (v :: p).length ≤ cycleGraph.numVertices ∧
                path = ((v :: p).map Int.ofNat).reverse) :=
  ⟨⟨listQueue_valid, cycleGraph_inRange, by decide⟩, by decide, by decide,
    C20_previous_acyclic listQueue 2147483647 cycleGraph 0 listQueue_valid
      cycleGraph_inRange (by decide)⟩

end Dijkstra

/-! ## Theorems: finality of popped vertices -/

namespace Dijkstra

theorem finv_relax_skip {INF : Int} {G : Graph} {s : Nat}
    {st : State} {u : Nat} {e : Edge} {rest : List Edge}
    (h : FInv INF G s st u (e :: rest)) (hu : u < G.numVertices) (hseen : st.seen u)
    (he : e ∈ G.edgesFrom u)
    (hc : st.seen e.dst ∨ ¬ (st.dist u + e.weight < st.dist e.dst)) :
    FInv INF G s st u rest := by
  have hrel : st.dist e.dst ≤ st.dist u + e.weight := by
    by_cases hsv : st.seen e.dst
    · have hv : e.dst < G.numVertices := by
        rw [← h.weak.len_v]; exact seen_lt hsv
      obtain ⟨p, _, _, _, hp4⟩ := h.weak.seen_tree u hu hseen
      exact (h.final e.dst hv hsv).2 _ _ (PathTo.snoc hp4 he)
    · rcases hc with hc | hc
      · exact absurd hc hsv
      · omega
  refine ⟨h.weak, h.pq_ok, h.le_inf, h.final, ?_, h.frontier⟩
  intro x hx hxs e2 he2
  rcases h.relaxed x hx hxs e2 he2 with ⟨hxu, hmem⟩ | hr2
  · rcases List.mem_cons.mp hmem with rfl | hmem
    · subst hxu; exact Or.inr hrel
    · exact Or.inl ⟨hxu, hmem⟩
  · exact Or.inr hr2

theorem finv_relax_update {P : PriorityQueue} {INF : Int} {G : Graph} {s : Nat}
    (hP : P.Valid) {st : State} {u : Nat} {e : Edge} {rest : List Edge}
    (h : FInv INF G s st u (e :: rest)) (hu : u < G.numVertices) (hseen : st.seen u)
    (hss : st.seen s) (he : e ∈ G.edgesFrom u) (hv : e.dst < G.numVertices)
    (hsv : ¬ st.seen e.dst) (hlt : st.dist u + e.weight < st.dist e.dst) :
    FInv INF G s (relaxState P st u e) u rest := by
  have hdv : ∀ x, x ≠ e.dst → (relaxState P st u e).dist x = st.dist x :=
    fun x hx => getD_set_of_ne _ _ _ _ _ (Ne.symm hx)
  have hdv2 : (relaxState P st u e).dist e.dst = st.dist u + e.weight :=
    getD_set_self _ _ _ _ (by rw [h.weak.len_d]; exact hv)
  have hle : ∀ x, (relaxState P st u e).dist x ≤ st.dist x := by
    intro x
    by_cases hx : x = e.dst
    · subst hx; rw [hdv2]; omega
    · rw [hdv x hx]
  have hseen_ne : ∀ x, st.seen x → x ≠ e.dst := fun x hx e1 => hsv (e1 ▸ hx)
  have hpq : ∀ y, y ∈ (relaxState P st u e).pq ↔
      y = (⟨e.dst, st.dist u + e.weight⟩ : Node) ∨ y ∈ st.pq := fun y => mem_push hP _ _ _
  have hinf := h.le_inf e.dst hv
  refine ⟨winv_relax_update hP h.weak hu hseen hss he hv hsv, ?_, ?_, ?_, ?_, ?_⟩
  · intro x hx
    rcases (hpq x).mp hx with rfl | hx
    · exact ⟨by rw [hdv2], by show st.dist u + e.weight < INF; omega⟩
    · obtain ⟨a2, a3⟩ := h.pq_ok x hx
      exact ⟨le_trans (hle _) a2, a3⟩
  · intro x hx
    exact le_trans (hle x) (h.le_inf x hx)
  · intro x hx hxs
    have hxs2 : st.seen x := hxs
    rw [hdv x (hseen_ne x hxs2)]
    exact h.final x hx hxs2
  · intro x hx hxs e2 he2
    have hxs2 : st.seen x := hxs
    rw [hdv x (hseen_ne x hxs2)]
    rcases h.relaxed x hx hxs2 e2 he2 with ⟨hxu, hmem⟩ | hr2
    · rcases List.mem_cons.mp hmem with rfl | hmem
      · subst hxu
        right
        rw [hdv2]
      · exact Or.inl ⟨hxu, hmem⟩
    · right
      have := hle e2.dst
      omega
  · intro x hx hxs hxd
    have hxs2 : ¬ st.seen x := hxs
    rw [hpq]
    by_cases hxv : x = e.dst
    · subst hxv
      left
      rw [hdv2]
    · right
      rw [hdv x hxv] at hxd ⊢
      exact h.frontier x hx hxs2 hxd

theorem finv_relaxEdges {P : PriorityQueue} {INF : Int} {G : Graph} {s : Nat}
    (hP : P.Valid) (hn : NonNegWeights G) {u : Nat} (hu : u < G.numVertices) :
    ∀ (es : List Edge) (st : State), (∀ e ∈ es, e ∈ G.edgesFrom u) → st.seen u →
      st.seen s → FInv INF G s st u es → FInv INF G s (relaxEdges P u es st) u [] := by
  intro es
  induction es with
  | nil => intro st _ _ _ h; exact h
  | cons e rest ih =>
    intro st hes hseen hss h
    have he : e ∈ G.edgesFrom u := hes e (List.mem_cons_self _ _)
    have hrest : ∀ e2 ∈ rest, e2 ∈ G.edgesFrom u :=
      fun e2 h2 => hes e2 (List.mem_cons_of_mem _ h2)
    rw [relaxEdges_cons]
    by_cases hc : (!(st.visited.getD e.dst false) &&
        decide (st.dist u + e.weight < st.dist e.dst)) = true
    · rw [if_pos hc]
      simp only [Bool.and_eq_true, Bool.not_eq_true', decide_eq_true_eq] at hc
      have hsv : ¬ st.seen e.dst := by
        unfold State.seen; rw [hc.1]; simp
      have hv : e.dst < G.numVertices := by
        by_contra hge
        obtain ⟨p, _, _, _, hp4⟩ := h.weak.seen_tree u hu hseen
        have hd0 := pathTo_nonneg hn hp4
        have hw0 := hn u e he
        have hz : st.dist e.dst = 0 :=
          List.getD_eq_default _ _ (by rw [h.weak.len_d]; omega)
        have := hc.2
        omega
      have e1 : (st.distances.set e.dst (st.dist u + e.weight)).getD e.dst 0 =
          st.dist u + e.weight := getD_set_self _ _ _ _ (by rw [h.weak.len_d]; exact hv)
      rw [e1]
      exact ih (relaxState P st u e) hrest hseen hss
        (finv_relax_update hP h hu hseen hss he hv hsv hc.2)
    · rw [if_neg hc]
      have hc2 : st.seen e.dst ∨ ¬ (st.dist u + e.weight < st.dist e.dst) := by
        simp only [Bool.and_eq_true, Bool.not_eq_true', decide_eq_true_eq, not_and] at hc
        by_cases hsv : st.visited.getD e.dst false = true
        · exact Or.inl hsv
        · right
          apply hc
          simpa using hsv
      exact ih st hrest hseen hss (finv_relax_skip h hu hseen he hc2)

/-- Every path to a vertex not yet visited weighs at least as much as the distance entry
of some vertex not yet visited. -/
theorem finv_lower_bound {INF : Int} {G : Graph} {s : Nat} (hn : NonNegWeights G)
    (hs : s < G.numVertices) {st : State} {a : Nat} (h : FInv INF G s st a []) :
    ∀ (l : List Nat) (w : Int), PathTo G s l w → ∀ y p, l = y :: p → y < G.numVertices →
      ¬ st.seen y → ∃ z, z < G.numVertices ∧ ¬ st.seen z ∧ st.dist z ≤ w := by
  intro l w hp
  induction hp with
  | single =>
    intro y p hl _ hy
    have hys : y = s := by simp at hl; exact hl.1.symm
    subst hys
    exact ⟨y, hs, hy, by rw [h.weak.src.1]⟩
  | @snoc b q w e hq he ih =>
    intro y p hl hyn hy
    have hw0 : 0 ≤ e.weight := hn b e he
    have hb : b < G.numVertices := (mem_edgesFrom he).1
    have hyd : y = e.dst := by simp at hl; exact hl.1.symm
    subst hyd
    by_cases hbs : st.seen b
    · rcases h.relaxed b hb hbs e he with ⟨_, hm⟩ | r1
      · simp at hm
      · have := (h.final b hb hbs).2 q w hq
        exact ⟨e.dst, hyn, hy, by omega⟩
    · obtain ⟨z, z1, z2, z3⟩ := ih b q rfl hb hbs
      exact ⟨z, z1, z2, by omega⟩

/-- The entry popped for a vertex not yet visited carries that vertex's distance, and
this distance is the least weight of a path from the source. -/
theorem finv_popped_min {P : PriorityQueue} {INF : Int} {G : Graph} {s : Nat}
    (hP : P.Valid) (hn : NonNegWeights G) (hs : s < G.numVertices)
    {st : State} {a : Nat} (h : FInv INF G s st a [])
    {cur : Node} {pq : List Node} (hpop : P.pop st.pq = some (cur, pq))
    (hns : ¬ st.seen cur.vertex) :
    cur.vertex < G.numVertices ∧ st.dist cur.vertex < INF ∧
      IsMinDistance G s cur.vertex (st.dist cur.vertex) := by
  obtain ⟨hperm, hmin⟩ := pop_spec hP hpop
  have hcur : cur ∈ st.pq := hperm.mem_iff.mpr (List.mem_cons_self _ _)
  obtain ⟨hu, hct⟩ := h.weak.pq_tree cur hcur
  obtain ⟨hcd, hcinf⟩ := h.pq_ok cur hcur
  have hdinf : st.dist cur.vertex < INF := by omega
  have hcm := hmin _ (h.frontier cur.vertex hu hns hdinf)
  have hdeq : cur.distance = st.dist cur.vertex := by
    simp only at hcm; omega
  obtain ⟨p, _, _, _, hp⟩ := hct
  refine ⟨hu, hdinf, ⟨p, hp⟩, ?_⟩
  intro q w hq
  obtain ⟨z, z1, z2, z3⟩ := finv_lower_bound hn hs h _ w hq cur.vertex q rfl hu hns
  by_cases hz : st.dist z < INF
  · have := hmin _ (h.frontier z z1 z2 hz)
    simp only at this
    omega
  · omega

theorem finv_pop_seen {P : PriorityQueue} {INF : Int} {G : Graph} {s : Nat}
    (hP : P.Valid) {st : State} {a : Nat} (h : FInv INF G s st a [])
    {cur : Node} {pq : List Node} (hpop : P.pop st.pq = some (cur, pq))
    (hseen : st.seen cur.vertex) :
    FInv INF G s { st with pq := pq } a [] := by
  obtain ⟨hperm, _⟩ := pop_spec hP hpop
  have hsub : ∀ y ∈ pq, y ∈ st.pq := fun y hy => hperm.mem_iff.mpr (List.mem_cons_of_mem _ hy)
  refine ⟨winv_pop_seen hP h.weak hpop hseen, ?_, h.le_inf, h.final, h.relaxed, ?_⟩
  · intro x hx; exact h.pq_ok x (hsub x hx)
  · intro v hv hvs hvd
    have hm := h.frontier v hv hvs hvd
    rcases List.mem_cons.mp (hperm.mem_iff.mp hm) with e1 | hm2
    · exfalso; apply hvs
      have : cur.vertex = v := by rw [← e1]
      rw [← this]; exact hseen
    · exact hm2

theorem finv_pop_unseen {P : PriorityQueue} {INF : Int} {G : Graph} {s : Nat}
    (hP : P.Valid) (hn : NonNegWeights G) (hs : s < G.numVertices)
    {st : State} {a : Nat} (h : FInv INF G s st a [])
    {cur : Node} {pq : List Node} (hpop : P.pop st.pq = some (cur, pq))
    (hns : ¬ st.seen cur.vertex) :
    FInv INF G s { st with visited := st.visited.set cur.vertex true, pq := pq }
      cur.vertex (G.edgesFrom cur.vertex) := by
  obtain ⟨hperm, hmin⟩ := pop_spec hP hpop
  have hsub : ∀ y ∈ pq, y ∈ st.pq := fun y hy => hperm.mem_iff.mpr (List.mem_cons_of_mem _ hy)
  obtain ⟨hu, hdinf, _, hlow⟩ := finv_popped_min hP hn hs h hpop hns
  obtain ⟨w1, _, _, _⟩ := winv_pop_unseen hP h.weak hpop hns
  have hiff := seen_set_iff st cur.vertex (by rw [h.weak.len_v]; exact hu)
  refine ⟨w1, ?_, h.le_inf, ?_, ?_, ?_⟩
  · intro x hx; exact h.pq_ok x (hsub x hx)
  · intro x hx hxs
    rcases (hiff x).mp hxs with e1 | hs3
    · subst e1; exact ⟨hdinf, hlow⟩
    · exact h.final x hx hs3
  · intro x hx hxs e he
    rcases (hiff x).mp hxs with e1 | hs3
    · subst e1
      exact Or.inl ⟨rfl, he⟩
    · rcases h.relaxed x hx hs3 e he with ⟨_, hm⟩ | hr2
      · simp at hm
      · exact Or.inr hr2
  · intro v hv hvs hvd
    have hvs2 : ¬ st.seen v := fun hs3 => hvs ((hiff v).mpr (Or.inr hs3))
    have hvne : v ≠ cur.vertex := fun e1 => hvs ((hiff v).mpr (Or.inl e1))
    have hm := h.frontier v hv hvs2 hvd
    rcases List.mem_cons.mp (hperm.mem_iff.mp hm) with e1 | hm2
    · exfalso; apply hvne
      rw [← e1]
    · exact hm2

theorem finv_pending_irrelevant {INF : Int} {G : Graph} {s : Nat} {st : State} {a : Nat}
    (h : FInv INF G s st a []) (b : Nat) : FInv INF G s st b [] := by
  refine ⟨h.weak, h.pq_ok, h.le_inf, h.final, ?_, h.frontier⟩
  intro x hx hxs e he
  rcases h.relaxed x hx hxs e he with ⟨_, hm⟩ | hr
  · simp at hm
  · exact Or.inr hr

theorem loopIter_finv {P : PriorityQueue} {INF : Int} {G : Graph} {s : Nat}
    (hP : P.Valid) (hn : NonNegWeights G) (hs : s < G.numVertices)
    {st st2 : State} (h : FInv INF G s st 0 []) (hi : loopIter P G st = some st2) :
    FInv INF G s st2 0 [] := by
  unfold loopIter at hi
  cases hpop : P.pop st.pq with
  | none => rw [hpop] at hi; simp at hi
  | some x =>
    obtain ⟨cur, pq⟩ := x
    rw [hpop] at hi
    simp only at hi
    by_cases hseen : st.visited.getD cur.vertex false = true
    · rw [if_pos hseen] at hi
      simp only [Option.some.injEq] at hi
      subst hi
      exact finv_pop_seen hP h hpop hseen
    · rw [if_neg hseen] at hi
      simp only [Option.some.injEq] at hi
      subst hi
      obtain ⟨_, hu, hsu, hss⟩ := winv_pop_unseen hP h.weak hpop hseen
      exact finv_pending_irrelevant
        (finv_relaxEdges hP hn hu _ _ (fun e he => he) hsu hss
          (finv_pop_unseen hP hn hs h hpop hseen)) 0

theorem finv_init {P : PriorityQueue} (hP : P.Valid) {INF : Int} (hINF : 0 < INF)
    {G : Graph} {s : Nat} (hs : s < G.numVertices) :
    FInv INF G s (initialState P INF G s) 0 [] := by
  have hw := winv_init hP INF hs
  have hdv : ∀ v, v < G.numVertices → v ≠ s → (initialState P INF G s).dist v = INF := by
    intro v hv hvs
    show ((List.replicate G.numVertices INF).set s 0).getD v 0 = INF
    rw [getD_set_of_ne _ _ _ _ _ (Ne.symm hvs)]
    simp [List.getD_eq_getElem?_getD, List.getElem?_replicate, hv]
  have hsv : ∀ v, ¬ (initialState P INF G s).seen v := by
    intro v
    show ¬ ((List.replicate G.numVertices false).getD v false = true)
    simp only [List.getD_eq_getElem?_getD, List.getElem?_replicate]
    split_ifs <;> simp
  have hpq : ∀ x, x ∈ (initialState P INF G s).pq ↔ x = (⟨s, 0⟩ : Node) := by
    intro x
    show x ∈ P.push [] ⟨s, 0⟩ ↔ _
    rw [mem_push hP]; simp
  refine ⟨hw, ?_, ?_, ?_, ?_, ?_⟩
  · intro x hx
    rw [hpq] at hx
    subst hx
    exact ⟨by rw [hw.src.1], hINF⟩
  · intro v hv
    by_cases hvs : v = s
    · subst hvs; rw [hw.src.1]; omega
    · rw [hdv v hv hvs]
  · intro x _ hx; exact absurd hx (hsv x)
  · intro x _ hx; exact absurd hx (hsv x)
  · intro v hv _ hvd
    have hvs : v = s := by
      by_contra hvs
      rw [hdv v hv hvs] at hvd
      omega
    subst hvs
    rw [hpq, hw.src.1]

/-! ### Entries of visited vertices are final -/

theorem relaxEdges_keeps (P : PriorityQueue) (u : Nat) :
    ∀ (es : List Edge) (st : State) (x : Nat), st.seen x →
      (relaxEdges P u es st).dist x = st.dist x ∧
        (relaxEdges P u es st).prev x = st.prev x ∧ (relaxEdges P u es st).seen x := by
  intro es
  induction es with
  | nil => intro st x hx; exact ⟨rfl, rfl, hx⟩
  | cons e rest ih =>
    intro st x hx
    rw [relaxEdges_cons]
    by_cases hc : (!(st.visited.getD e.dst false) &&
        decide (st.dist u + e.weight < st.dist e.dst)) = true
    · rw [if_pos hc]
      simp only [Bool.and_eq_true, Bool.not_eq_true', decide_eq_true_eq] at hc
      have hxe : e.dst ≠ x := by
        intro e1
        unfold State.seen at hx
        rw [← e1, hc.1] at hx
        exact absurd hx (by simp)
      obtain ⟨a1, a2, a3⟩ := ih
        { distances := st.distances.set e.dst (st.dist u + e.weight)
          previous := st.previous.set e.dst (u : Int)
          visited := st.visited
          pq := P.push st.pq
            ⟨e.dst, (st.distances.set e.dst (st.dist u + e.weight)).getD e.dst 0⟩ } x hx
      refine ⟨?_, ?_, a3⟩
      · rw [a1]; exact getD_set_of_ne _ _ _ _ _ hxe
      · rw [a2]; exact getD_set_of_ne _ _ _ _ _ hxe
    · rw [if_neg hc]
      exact ih st x hx

/-- A pass of the loop body changes neither `distances[x]` nor `previous[x]` of a vertex
`x` already visited, and leaves it visited. -/
theorem loopIter_keeps {P : PriorityQueue} {G : Graph} {st st2 : State}
    (hi : loopIter P G st = some st2) (x : Nat) (hx : st.seen x) :
    st2.dist x = st.dist x ∧ st2.prev x = st.prev x ∧ st2.seen x := by
  unfold loopIter at hi
  cases hpop : P.pop st.pq with
  | none => rw [hpop] at hi; simp at hi
  | some y =>
    obtain ⟨cur, pq⟩ := y
    rw [hpop] at hi
    simp only at hi
    by_cases hseen : st.visited.getD cur.vertex false = true
    · rw [if_pos hseen] at hi
      simp only [Option.some.injEq] at hi
      subst hi
      exact ⟨rfl, rfl, hx⟩
    · rw [if_neg hseen] at hi
      simp only [Option.some.injEq] at hi
      subst hi
      have hne : cur.vertex ≠ x := fun e1 => hseen (e1 ▸ hx)
      have hx2 : State.seen { st with visited := st.visited.set cur.vertex true, pq := pq } x := by
        unfold State.seen
        rw [getD_set_of_ne _ _ _ _ _ hne]
        exact hx
      exact relaxEdges_keeps P cur.vertex (G.edgesFrom cur.vertex) _ x hx2

/-- The pass that pops a vertex not yet visited marks it visited and changes neither its
distance nor its `previous` entry. -/
theorem loopIter_marks {P : PriorityQueue} {G : Graph} {st st2 : State}
    {cur : Node} {pq : List Node} (hpop : P.pop st.pq = some (cur, pq))
    (hns : ¬ st.seen cur.vertex) (hu : cur.vertex < st.visited.length)
    (hi : loopIter P G st = some st2) :
    st2.dist cur.vertex = st.dist cur.vertex ∧ st2.prev cur.vertex = st.prev cur.vertex ∧
      st2.seen cur.vertex := by
  have hns2 : ¬ (st.visited.getD cur.vertex false = true) := hns
  unfold loopIter at hi
  rw [hpop] at hi
  simp only at hi
  rw [if_neg hns2] at hi
  simp only [Option.some.injEq] at hi
  subst hi
  have hx2 : State.seen { st with visited := st.visited.set cur.vertex true, pq := pq }
      cur.vertex := by
    unfold State.seen
    exact getD_set_self _ _ _ _ hu
  exact relaxEdges_keeps P cur.vertex (G.edgesFrom cur.vertex) _ cur.vertex hx2

theorem runIters_keeps {P : PriorityQueue} {G : Graph} :
    ∀ (j : Nat) (st st2 : State), runIters P G j st = some st2 → ∀ x, st.seen x →
      st2.dist x = st.dist x ∧ st2.prev x = st.prev x ∧ st2.seen x := by
  intro j
  induction j with
  | zero =>
    intro st st2 h x hx
    simp only [runIters, Option.some.injEq] at h
    subst h
    exact ⟨rfl, rfl, hx⟩
  | succ j ih =>
    intro st st2 h x hx
    rw [runIters] at h
    cases hi : loopIter P G st with
    | none => rw [hi] at h; simp at h
    | some st1 =>
      rw [hi] at h
      obtain ⟨a1, a2, a3⟩ := loopIter_keeps hi x hx
      obtain ⟨b1, b2, b3⟩ := ih st1 st2 h x a3
      exact ⟨by rw [b1, a1], by rw [b2, a2], b3⟩

/-- Finality in the loop with exact sums. For a graph with non-negative weights, a source
that is a vertex and a positive `INF`, take any state `st` that the `while` loop reaches
after some number `k` of passes, and the entry `cur` that the next pass pops. If
`visited[cur.vertex]` is false, `distances[cur.vertex]` is already the least weight of a
path from the source, and no later pass changes `distances[cur.vertex]` or
`previous[cur.vertex]`. If `visited[cur.vertex]` is true, the pass changes nothing but the
queue, from which the entry is gone. -/
theorem loop_finality_exact (P : PriorityQueue) (INF : Int) (G : Graph)
    (source : Nat) (hP : P.Valid) (hn : NonNegWeights G)
    (hs : source < G.numVertices) (hINF : 0 < INF) (k : Nat) (st : State) (cur : Node)
    (pq : List Node) (hrun : runIters P G k (initialState P INF G source) = some st)
    (hpop : P.pop st.pq = some (cur, pq)) :
    (st.visited.getD cur.vertex false = false →
      IsMinDistance G source cur.vertex (st.distances.getD cur.vertex 0) ∧
      ∀ j st2, runIters P G j st = some st2 →
        st2.distances.getD cur.vertex 0 = st.distances.getD cur.vertex 0 ∧
        st2.previous.getD cur.vertex 0 = st.previous.getD cur.vertex 0) ∧
    (st.visited.getD cur.vertex false = true →
      loopIter P G st = some { st with pq := pq }) := by
  have hinv : FInv INF G source st 0 [] :=
    runIters_inv P G (fun t => FInv INF G source t 0 [])
      (fun t t2 ht hi => loopIter_finv hP hn hs ht hi) k _ st (finv_init hP hINF hs) hrun
  constructor
  · intro hv
    have hns : ¬ st.seen cur.vertex := by
      unfold State.seen; rw [hv]; simp
    obtain ⟨hu, _, hmin⟩ := finv_popped_min hP hn hs hinv hpop hns
    refine ⟨hmin, ?_⟩
    intro j st2 hj
    cases j with
    | zero =>
      simp only [runIters, Option.some.injEq] at hj
      subst hj
      exact ⟨rfl, rfl⟩
    | succ j =>
      rw [runIters] at hj
      cases hi : loopIter P G st with
      | none => rw [hi] at hj; simp at hj
      | some st1 =>
        rw [hi] at hj
        obtain ⟨a1, a2, a3⟩ := loopIter_marks hpop hns
          (by rw [hinv.weak.len_v]; exact hu) hi
        obtain ⟨b1, b2, _⟩ := runIters_keeps j st1 st2 hj cur.vertex a3
        exact ⟨by
          show st2.dist cur.vertex = st.dist cur.vertex
          rw [b1, a1], by
          show st2.prev cur.vertex = st.prev cur.vertex
          rw [b2, a2]⟩
  · intro hv
    unfold loopIter
    rw [hpop]
    simp only
    rw [if_pos hv]


/-! ### The loop with 32-bit sums -/

theorem wrapInt_eq {x : Int} (h0 : -2147483648 ≤ x) (h1 : x ≤ 2147483647) :
    wrapInt x = x := by
  unfold wrapInt
  omega

theorem relaxEdgesWrap_cons (P : PriorityQueue) (u : Nat) (e : Edge) (rest : List Edge)
    (st : State) :
    relaxEdgesWrap P u (e :: rest) st =
      if (!(st.visited.getD e.dst false) &&
          decide (wrapInt (st.dist u + e.weight) < st.dist e.dst)) = true then
        relaxEdgesWrap P u rest
          { distances := st.distances.set e.dst (wrapInt (st.dist u + e.weight))
            previous := st.previous.set e.dst (u : Int)
            visited := st.visited
            pq := P.push st.pq
              ⟨e.dst, (st.distances.set e.dst
                (wrapInt (st.dist u + e.weight))).getD e.dst 0⟩ }
      else relaxEdgesWrap P u rest st := rfl

/-- When path sums stay below `INF` and `INF` is an `int`, the sum evaluated for an edge
from a visited vertex to a vertex not yet visited does not wrap. -/
theorem finv_sum_in_range {INF : Int} {G : Graph} {s : Nat} (hn : NonNegWeights G)
    (hb : PathSumsBelow G s INF) (hmax : INF ≤ 2147483647)
    {st : State} {u : Nat} {e : Edge} {pending : List Edge}
    (h : FInv INF G s st u pending) (hu : u < G.numVertices) (hseen : st.seen u)
    (he : e ∈ G.edgesFrom u) (hsv : ¬ st.seen e.dst) :
    wrapInt (st.dist u + e.weight) = st.dist u + e.weight := by
  obtain ⟨p, _, hp2, hp3, hp4⟩ := h.weak.seen_tree u hu hseen
  have hpath : PathTo G s (e.dst :: u :: p) (st.dist u + e.weight) := PathTo.snoc hp4 he
  have hnd : (e.dst :: u :: p).Nodup := by
    refine List.nodup_cons.2 ⟨?_, hp2⟩
    intro hm
    rcases List.mem_cons.1 hm with hm | hm
    · exact hsv (hm ▸ hseen)
    · exact hsv (hp3 _ hm).2
  have h1 := hb _ _ hpath hnd
  have h0 := pathTo_nonneg hn hpath
  exact wrapInt_eq (by omega) (by omega)

/-- When path sums stay below `INF`, the loop over the edges of `u` computes the same
state with 32-bit sums as with exact sums. -/
theorem relaxEdgesWrap_eq {P : PriorityQueue} {INF : Int} {G : Graph} {s : Nat}
    (hP : P.Valid) (hn : NonNegWeights G) (hb : PathSumsBelow G s INF)
    (hmax : INF ≤ 2147483647) {u : Nat} (hu : u < G.numVertices) :
    ∀ (es : List Edge) (st : State), (∀ e ∈ es, e ∈ G.edgesFrom u) → st.seen u →
      st.seen s → FInv INF G s st u es →
      relaxEdgesWrap P u es st = relaxEdges P u es st := by
  intro es
  induction es with
  | nil => intro st _ _ _ _; rfl
  | cons e rest ih =>
    intro st hes hseen hss h
    have he : e ∈ G.edgesFrom u := hes e (List.mem_cons_self _ _)
    have hrest : ∀ e2 ∈ rest, e2 ∈ G.edgesFrom u :=
      fun e2 h2 => hes e2 (List.mem_cons_of_mem _ h2)
    rw [relaxEdgesWrap_cons, relaxEdges_cons]
    by_cases hsv : st.visited.getD e.dst false = true
    · have hc : ∀ b : Bool, ((!(st.visited.getD e.dst false)) && b) = false := by
        intro b; rw [hsv]; rfl
      rw [hc, hc]
      simp only [Bool.false_eq_true, if_false]
      exact ih st hrest hseen hss (finv_relax_skip h hu hseen he (Or.inl hsv))
    · rw [finv_sum_in_range hn hb hmax h hu hseen he hsv]
      by_cases hc : (!(st.visited.getD e.dst false) &&
          decide (st.dist u + e.weight < st.dist e.dst)) = true
      · rw [if_pos hc, if_pos hc]
        simp only [Bool.and_eq_true, Bool.not_eq_true', decide_eq_true_eq] at hc
        have hv : e.dst < G.numVertices := by
          by_contra hge
          obtain ⟨p, _, _, _, hp4⟩ := h.weak.seen_tree u hu hseen
          have hd0 := pathTo_nonneg hn hp4
          have hw0 := hn u e he
          have hz : st.dist e.dst = 0 :=
            List.getD_eq_default _ _ (by rw [h.weak.len_d]; omega)
          have := hc.2
          omega
        have e1 : (st.distances.set e.dst (st.dist u + e.weight)).getD e.dst 0 =
            st.dist u + e.weight := getD_set_self _ _ _ _ (by rw [h.weak.len_d]; exact hv)
        rw [e1]
        exact ih (relaxState P st u e) hrest hseen hss
          (finv_relax_update hP h hu hseen hss he hv hsv hc.2)
      · rw [if_neg hc, if_neg hc]
        have hc2 : st.seen e.dst ∨ ¬ (st.dist u + e.weight < st.dist e.dst) := by
          simp only [Bool.and_eq_true, Bool.not_eq_true', decide_eq_true_eq, not_and] at hc
          right
          apply hc
          simpa using hsv
        exact ih st hrest hseen hss (finv_relax_skip h hu hseen he hc2)

/-- When path sums stay below `INF`, a pass of the loop body from a state that satisfies
the invariant gives the same state with 32-bit sums as with exact sums. -/
theorem loopIterWrap_eq {P : PriorityQueue} {INF : Int} {G : Graph} {s : Nat}
    (hP : P.Valid) (hn : NonNegWeights G) (hb : PathSumsBelow G s INF)
    (hmax : INF ≤ 2147483647) (hs : s < G.numVertices)
    {st : State} (h : FInv INF G s st 0 []) :
    loopIterWrap P G st = loopIter P G st := by
  unfold loopIterWrap loopIter
  cases hpop : P.pop st.pq with
  | none => rfl
  | some x =>
    obtain ⟨cur, pq⟩ := x
    simp only
    by_cases hseen : st.visited.getD cur.vertex false = true
    · rw [if_pos hseen, if_pos hseen]
    · rw [if_neg hseen, if_neg hseen]
      obtain ⟨_, hu, hsu, hss⟩ := winv_pop_unseen hP h.weak hpop hseen
      rw [relaxEdgesWrap_eq hP hn hb hmax hu _ _ (fun e he => he) hsu hss
        (finv_pop_unseen hP hn hs h hpop hseen)]

/-- When path sums stay below `INF`, the loop reaches the same states with 32-bit sums as
with exact sums. -/
theorem runItersWrap_eq {P : PriorityQueue} {INF : Int} {G : Graph} {s : Nat}
    (hP : P.Valid) (hn : NonNegWeights G) (hb : PathSumsBelow G s INF)
    (hmax : INF ≤ 2147483647) (hs : s < G.numVertices) :
    ∀ (k : Nat) (st : State), FInv INF G s st 0 [] →
      runItersWrap P G k st = runIters P G k st := by
  intro k
  induction k with
  | zero => intro st _; rfl
  | succ k ih =>
    intro st h
    rw [runItersWrap, runIters, loopIterWrap_eq hP hn hb hmax hs h]
    cases hi : loopIter P G st with
    | none => rfl
    | some st1 =>
      simp only [Option.bind]
      exact ih st1 (loopIter_finv hP hn hs h hi)

theorem overflowGraph_nonNeg : NonNegWeights overflowGraph :=
  nonNegWeights_of_all (by decide)

theorem overflowGraph_inRange : DstInRange overflowGraph :=
  dstInRange_of_all (by decide)

/-- Claim C15, as amended with the bound on path sums. For a graph with non-negative
weights whose path sums stay below `INF` (an `int`, so at most 2147483647) and a source
that is a vertex, take any state `st` that the `while` loop, run with 32-bit sums,
reaches after some number `k` of passes, and the entry `cur` that the next pass pops. If
`visited[cur.vertex]` is false, `distances[cur.vertex]` is already the least weight of a
path from the source, and no later pass changes `distances[cur.vertex]` or
`previous[cur.vertex]`. If `visited[cur.vertex]` is true, the pass changes nothing but the
queue, from which the entry is gone. -/
theorem C15_finality_of_popped_vertex (P : PriorityQueue) (INF : Int) (G : Graph)
    (source : Nat) (hP : P.Valid) (hn : NonNegWeights G)
    (hb : PathSumsBelow G source INF) (hmax : INF ≤ 2147483647)
    (hs : source < G.numVertices) (k : Nat) (st : State) (cur : Node)
    (pq : List Node) (hrun : runItersWrap P G k (initialState P INF G source) = some st)
    (hpop : P.pop st.pq = some (cur, pq)) :
    (st.visited.getD cur.vertex false = false →
      IsMinDistance G source cur.vertex (st.distances.getD cur.vertex 0) ∧
      ∀ j st2, runItersWrap P G j st = some st2 →
        st2.distances.getD cur.vertex 0 = st.distances.getD cur.vertex 0 ∧
        st2.previous.getD cur.vertex 0 = st.previous.getD cur.vertex 0) ∧
    (st.visited.getD cur.vertex false = true →
      loopIterWrap P G st = some { st with pq := pq }) := by
  have hINF : 0 < INF := hb [source] 0 PathTo.single (List.nodup_singleton _)
  have hinit := finv_init hP hINF hs
  rw [runItersWrap_eq hP hn hb hmax hs k _ hinit] at hrun
  have hinv : FInv INF G source st 0 [] :=
    runIters_inv P G (fun t => FInv INF G source t 0 [])
      (fun t t2 ht hi => loopIter_finv hP hn hs ht hi) k _ st hinit hrun
  obtain ⟨h1, h2⟩ := loop_finality_exact P INF G source hP hn hs hINF k st cur pq hrun hpop
  constructor
  · intro hv
    obtain ⟨a, b⟩ := h1 hv
    refine ⟨a, fun j st2 hj => b j st2 ?_⟩
    rwa [runItersWrap_eq hP hn hb hmax hs j st hinv] at hj
  · intro hv
    rw [loopIterWrap_eq hP hn hb hmax hs hinv]
    exact h2 hv

/-- Claim C15 (amended) on the worked example with `INF = 2147483647`. After one pass the
queue holds (1, 1) and (2, 5); the next pop is vertex 1, not yet visited, whose distance 1
is least and stays. After three passes the queue holds the stale entry (2, 5) of the
visited vertex 2, and the pass that pops it changes only the queue. -/
theorem C15_finality_of_popped_vertex_witness :
    (listQueue.Valid ∧ NonNegWeights exampleGraph ∧
        PathSumsBelow exampleGraph 0 2147483647 ∧ (2147483647 : Int) ≤ 2147483647 ∧
        0 < exampleGraph.numVertices) ∧
      (IsMinDistance exampleGraph 0 1 1 ∧
        ∀ j st2, runItersWrap listQueue exampleGraph j
            ⟨[0, 1, 5], [-1, 0, 0], [true, false, false], [⟨1, 1⟩, ⟨2, 5⟩]⟩ = some st2 →
          st2.distances.getD 1 0 = 1 ∧ st2.previous.getD 1 0 = 0) ∧
      loopIterWrap listQueue exampleGraph
          ⟨[0, 1, 3], [-1, 0, 1], [true, true, true], [⟨2, 5⟩]⟩ =
        some ⟨[0, 1, 3], [-1, 0, 1], [true, true, true], []⟩ :=
  ⟨⟨listQueue_valid, exampleGraph_nonNeg, exampleGraph_pathSums, by decide, by decide⟩,
    (C15_finality_of_popped_vertex listQueue 2147483647 exampleGraph 0 listQueue_valid
      exampleGraph_nonNeg exampleGraph_pathSums (by decide) (by decide) 1
      ⟨[0, 1, 5], [-1, 0, 0], [true, false, false], [⟨1, 1⟩, ⟨2, 5⟩]⟩ ⟨1, 1⟩ [⟨2, 5⟩]
      rfl rfl).1 rfl,
    (C15_finality_of_popped_vertex listQueue 2147483647 exampleGraph 0 listQueue_valid
      exampleGraph_nonNeg exampleGraph_pathSums (by decide) (by decide) 3
      ⟨[0, 1, 3], [-1, 0, 1], [true, true, true], [⟨2, 5⟩]⟩ ⟨2, 5⟩ []
      rfl rfl).2 rfl⟩

/-- Claim C15 as stated fails when a path sum passes the largest `int`. On the edges
0→1 (2147483646), 1→2 (5) with source 0 and `INF = 2147483647` the weights are
non-negative, the destinations are in range and vertex 2 is reachable by a path of weight
2147483651. Line 92 evaluates `2147483646 + 5` as the `int` `-2147483645`, which is below
`INF`, so after two passes `distances[2]` is `-2147483645` and the queue holds
(2, -2147483645). The next pass pops vertex 2 while `visited[2]` is false, and its
distance is not the weight of any path, hence not the least. -/
theorem C15_finality_counterexample :
    NonNegWeights overflowGraph ∧ DstInRange overflowGraph ∧
      0 < overflowGraph.numVertices ∧
      PathTo overflowGraph 0 [2, 1, 0] 2147483651 ∧
      runItersWrap listQueue overflowGraph 2
          (initialState listQueue 2147483647 overflowGraph 0) =
        some ⟨[0, 2147483646, -2147483645], [-1, 0, 1], [true, true, false],
          [⟨2, -2147483645⟩]⟩ ∧
      listQueue.pop [⟨2, -2147483645⟩] = some (⟨2, -2147483645⟩, []) ∧
      ¬ IsMinDistance overflowGraph 0 2 (-2147483645) := by
  refine ⟨overflowGraph_nonNeg, overflowGraph_inRange, by decide, ?_, rfl, rfl, ?_⟩
  · exact PathTo.snoc (e := ⟨1, 2, 5⟩)
      (PathTo.snoc (e := ⟨0, 1, 2147483646⟩) PathTo.single (by decide)) (by decide)
  · rintro ⟨⟨p, hp⟩, _⟩
    have := pathTo_nonneg overflowGraph_nonNeg hp
    omega

end Dijkstra
